import Mathlib

/-!
Verification development for the Finsight repository (src/irrigation.cpp).

The C++ source is shallowly embedded below.  Machine integers (`long long`,
`int`) are modelled by `Int`; the problem statement's precondition that cross
products never overflow 64-bit arithmetic makes this exact.  `std::vector`
becomes `List`, array indexing `poly[i]` with `0 <= i < n` becomes `getP`,
and the in-place stack `h` of the monotone-chain hull becomes an explicit
list (head = top of stack).  While loops become fueled or structurally
recursive functions; the fuel amounts mirror the loop bounds of the source.
-/

/-- `struct Point { ll x, y; int id; }` from irrigation.cpp. -/
structure Point where
  x : Int
  y : Int
  id : Int
deriving DecidableEq

/-- The three-argument `cross_product(o, a, b)` of irrigation.cpp:
`cross(a - o, b - o)` where the two-argument cross is `a.x*b.y - a.y*b.x`. -/
def cross_product (o a b : Point) : Int :=
  (a.x - o.x) * (b.y - o.y) - (a.y - o.y) * (b.x - o.x)

/-- `sign(x)` from irrigation.cpp: -1, 0, or 1. -/
def sign (x : Int) : Int :=
  if x < 0 then -1 else if x > 0 then 1 else 0

/-- Coordinate equality: C++ `operator==(Point, Point)` compares only x and y,
ignoring id. -/
def pEq (a b : Point) : Bool :=
  a.x == b.x && a.y == b.y

/-- `segments_intersect(a, b, c, d)` from irrigation.cpp, lines 29-44:
bounding-box rejection followed by the inclusive two-orientation test. -/
def segments_intersect (a b c d : Point) : Bool :=
  if max a.x b.x < min c.x d.x || max c.x d.x < min a.x b.x ||
     max a.y b.y < min c.y d.y || max c.y d.y < min a.y b.y then
    false
  else
    let cp1 := cross_product a b c
    let cp2 := cross_product a b d
    let cp3 := cross_product c d a
    let cp4 := cross_product c d b
    decide (((cp1 > 0 ∧ cp2 < 0) ∨ (cp1 < 0 ∧ cp2 > 0) ∨ cp1 = 0 ∨ cp2 = 0) ∧
            ((cp3 > 0 ∧ cp4 < 0) ∨ (cp3 < 0 ∧ cp4 > 0) ∨ cp3 = 0 ∨ cp4 = 0))

/-- The strict lexicographic comparator passed to `sort` in `convex_hull`:
`a.x < b.x || (a.x == b.x && a.y < b.y)`. -/
def lexLt (a b : Point) : Bool :=
  a.x < b.x || (a.x == b.x && a.y < b.y)

/-- The non-strict total order induced by `lexLt`, used to model `std::sort`
(which orders by `lexLt` and may order comparator-equal elements arbitrarily;
we use a stable sort as the representative behaviour). -/
def lexLe (a b : Point) : Bool :=
  a.x < b.x || (a.x == b.x && a.y ≤ b.y)

/-- The propositional form of `lexLe`. -/
def lexLeP (a b : Point) : Prop := lexLe a b = true

instance : DecidableRel lexLeP := fun a b => by
  unfold lexLeP; infer_instance

/-- The sorted view of the point set produced by `sort(pts.begin(), pts.end(), cmp)`
inside `convex_hull`. -/
def sortPts (l : List Point) : List Point :=
  l.insertionSort lexLeP

/-- One round of the pop loop `while (k >= t0 && cross_product(h[k-2], h[k-1], p) <= 0) k--`
on a stack whose head is the top `h[k-1]`.  Popping stops as soon as fewer than
two elements remain above the protected base, which is exactly when the stack
(as modelled, base included) has fewer than two elements. -/
def popStep (p : Point) : List Point → List Point
  | b :: a :: rest =>
      if cross_product a b p ≤ 0 then popStep p (a :: rest) else b :: a :: rest
  | st => st

/-- Processing a list of points into a chain: for each point, pop then push
(`h[k++] = pts[i]`).  Used for both the lower pass (seed `[]`, guard `k >= 2`)
and the upper pass (seed `[r]`, guard `k >= t`). -/
def chainFold (st : List Point) (l : List Point) : List Point :=
  l.foldl (fun st p => p :: popStep p st) st

/-- Monotone-chain hull construction on an already sorted list (the `n > 2`
branch of `convex_hull`, lines 50-63).  The lower stack ends `[r, ..., m]`
(top first); the upper pass continues on the same array above `t - 2`, which
is a fold seeded with the last sorted point `r`, processing
`pts[n-2], ..., pts[0]`.  `h.resize(k-1)` drops the final copy of `pts[0]`. -/
def buildHull (p : List Point) : List Point :=
  let lower := chainFold [] p
  let upper := chainFold [p.getLastD ⟨0, 0, 0⟩] p.dropLast.reverse
  lower.reverse ++ (upper.reverse.drop 1).dropLast

/-- `convex_hull(pts)` from irrigation.cpp, lines 47-64: the returned hull.
For `n <= 2` the input is returned unchanged (before any sort). -/
def convex_hull (pts : List Point) : List Point :=
  if pts.length ≤ 2 then pts else buildHull (sortPts pts)

/-- The state of the argument vector `pts` after `convex_hull(pts)` returns:
the C++ function takes `pts` by non-const reference and sorts it in place
(line 51), except in the `n <= 2` early return. -/
def convex_hull_post (pts : List Point) : List Point :=
  if pts.length ≤ 2 then pts else sortPts pts

/-- Bounds-checked array access `poly[i]`; every index the source produces is
reduced mod `n`, so the default is never exposed on the paths we verify. -/
def getP (poly : List Point) (i : Nat) : Point :=
  poly.getD i ⟨0, 0, 0⟩

/-- The binary-search loop of `is_inside` (lines 79-83), with explicit fuel;
the loop narrows `r - l` every iteration, so fuel `n` always suffices. -/
def insideSearch (poly : List Point) (p : Point) : Nat → Nat → Nat → Nat × Nat
  | 0, l, r => (l, r)
  | fuel + 1, l, r =>
    if l + 1 < r then
      let mid := (l + r) / 2
      if cross_product (getP poly 0) (getP poly mid) p ≥ 0 then
        insideSearch poly p fuel mid r
      else
        insideSearch poly p fuel l mid
    else (l, r)

/-- `is_inside(poly, p)` from irrigation.cpp, lines 67-85: inclusive
point-in-convex-polygon test with size 0/1/2 special cases and a fan binary
search anchored at `poly[0]` for size >= 3. -/
def is_inside (poly : List Point) (p : Point) : Bool :=
  let n := poly.length
  if n = 0 then false
  else if n = 1 then pEq p (getP poly 0)
  else if n = 2 then
    decide (cross_product (getP poly 0) (getP poly 1) p = 0 ∧
      min (getP poly 0).x (getP poly 1).x ≤ p.x ∧ p.x ≤ max (getP poly 0).x (getP poly 1).x ∧
      min (getP poly 0).y (getP poly 1).y ≤ p.y ∧ p.y ≤ max (getP poly 0).y (getP poly 1).y)
  else
    if cross_product (getP poly 0) (getP poly 1) p < 0 ∨
       cross_product (getP poly 0) (getP poly (n - 1)) p > 0 then false
    else
      let lr := insideSearch poly p n 1 (n - 1)
      decide (cross_product (getP poly lr.1) (getP poly lr.2) p ≥ 0)

/-- The perpendicular projection `dot(idx) = -dy*x + dx*y` of
`intersect_segment_convex_poly_log` (line 106), as a function of the vertex. -/
def dotAB (A B v : Point) : Int :=
  -(B.y - A.y) * v.x + (B.x - A.x) * v.y

/-- The coarse sampling loop of `hill_climb_extreme` (lines 110-120): scan
indices `0, step, 2*step, ...` keeping the first strict improvement. -/
def sampleStart (poly : List Point) (A B : Point) (maximize : Bool) : Nat :=
  let n := poly.length
  let step := max 1 (n / 20)
  (((List.range n).filter (fun i => i % step == 0)).foldl
    (fun acc i =>
      let v := dotAB A B (getP poly i)
      if (if maximize then v > acc.2 else v < acc.2) then (i, v) else acc)
    (0, dotAB A B (getP poly 0))).1

/-- The hill-climbing loop of `hill_climb_extreme` (lines 123-141), with the
source's explicit safety bound as fuel (`for (int iter = 0; iter < n; ++iter)`);
on fuel exhaustion the current index is returned, exactly as in the source. -/
def climb (poly : List Point) (A B : Point) (maximize : Bool) : Nat → Nat → Nat
  | 0, curr => curr
  | fuel + 1, curr =>
    let n := poly.length
    let next := (curr + 1) % n
    let prev := (curr + n - 1) % n
    let vc := dotAB A B (getP poly curr)
    let vn := dotAB A B (getP poly next)
    let vp := dotAB A B (getP poly prev)
    if maximize then
      if vn > vc then climb poly A B maximize fuel next
      else if vp > vc then climb poly A B maximize fuel prev
      else curr
    else
      if vn < vc then climb poly A B maximize fuel next
      else if vp < vc then climb poly A B maximize fuel prev
      else curr

/-- `hill_climb_extreme(maximize)` from irrigation.cpp, lines 109-142. -/
def hill_climb_extreme (poly : List Point) (A B : Point) (maximize : Bool) : Nat :=
  climb poly A B maximize poly.length (sampleStart poly A B maximize)

/-- The binary-search loop of `check_chain` (lines 190-195), with explicit
fuel; returns the final `L`.  `s0` is `sign(cp(start))`. -/
def bsearch (cpf : Nat → Int) (s0 : Int) (start n : Nat) : Nat → Nat → Nat → Nat
  | 0, L, _ => L
  | fuel + 1, L, R =>
    if L + 1 < R then
      let mid := (L + R) / 2
      if sign (cpf ((start + mid) % n)) == s0 then bsearch cpf s0 start n fuel mid R
      else bsearch cpf s0 start n fuel L mid
    else L

/-- `check_chain(start, end)` from irrigation.cpp, lines 160-204.  The bool
result plus the reference-assigned ids `r1, r2` are modelled as an `Option`. -/
def check_chain (A B : Point) (poly : List Point) (fuel start endi : Nat) :
    Option (Int × Int) :=
  let n := poly.length
  let cpf := fun i => cross_product A B (getP poly i)
  if cpf start = 0 then
    let next := (start + 1) % n
    if segments_intersect A B (getP poly start) (getP poly next) then
      some ((getP poly start).id, (getP poly next).id)
    else
      let prev := (start + n - 1) % n
      if segments_intersect A B (getP poly prev) (getP poly start) then
        some ((getP poly prev).id, (getP poly start).id)
      else none
  else
    let len := (endi + n - start) % n
    if sign (cpf start) = sign (cpf endi) then none
    else
      let L := bsearch cpf (sign (cpf start)) start n fuel 0 len
      let idx1 := (start + L) % n
      let idx2 := (start + L + 1) % n
      if segments_intersect A B (getP poly idx1) (getP poly idx2) then
        some ((getP poly idx1).id, (getP poly idx2).id)
      else none

/-- `intersect_segment_convex_poly_log` (lines 90-210) with the binary-search
fuel as an explicit parameter; the canonical entry point passes `poly.length`,
which the termination theorem shows is always enough. -/
def intersectFueled (fuel : Nat) (A B : Point) (poly : List Point) :
    Option (Int × Int) :=
  let n := poly.length
  if n < 2 then none
  else if n = 2 then
    if segments_intersect A B (getP poly 0) (getP poly 1) then
      some ((getP poly 0).id, (getP poly 1).id)
    else none
  else
    let max_idx := hill_climb_extreme poly A B true
    let min_idx := hill_climb_extreme poly A B false
    let cp_max := cross_product A B (getP poly max_idx)
    let cp_min := cross_product A B (getP poly min_idx)
    if cp_max > 0 ∧ cp_min > 0 then none
    else if cp_max < 0 ∧ cp_min < 0 then none
    else
      match check_chain A B poly fuel max_idx min_idx with
      | some r => some r
      | none => check_chain A B poly fuel min_idx max_idx

/-- `intersect_segment_convex_poly_log(A, B, poly, r1, r2)` from
irrigation.cpp: `some (r1, r2)` models a `true` return with the two ids
assigned, `none` models `false` (in the source `r1, r2` stay unassigned). -/
def intersect_segment_convex_poly_log (A B : Point) (poly : List Point) :
    Option (Int × Int) :=
  intersectFueled poly.length A B poly

/-- The output statement of `run_h` (irrigation.cpp lines 258-263): with
`p_is_pump` the line printed is `A.id B.id r1 r2`, otherwise `r1 r2 A.id B.id`. -/
def run_h_report (p_is_pump : Bool) (aId bId r1 r2 : Int) : List Int :=
  if p_is_pump then [aId, bId, r1, r2] else [r1, r2, aId, bId]

/-- All ordered pairs of points of a set; every segment the heuristic stage
`run_h` can ever test is drawn from this list. -/
def allPairs (l : List Point) : List (Point × Point) :=
  l.flatMap (fun a => l.map (fun b => (a, b)))

/-- The `P`-inside-`HR` fallback of `solve` (lines 273-287): find the first
point of the (sorted) `P` inside `HR`; connect it to the first vertex of `HP`
outside `HR` for which the locator succeeds; afterwards `break` regardless. -/
def fallbackPinHR (Psorted HP HR : List Point) : Option (List Int) :=
  match Psorted.find? (fun p => is_inside HR p) with
  | none => none
  | some p =>
      (HP.filterMap (fun q =>
        if is_inside HR q then none
        else
          match intersect_segment_convex_poly_log p q HR with
          | some r => some [p.id, q.id, r.1, r.2]
          | none => none)).head?

/-- The reporting pipeline of `solve` (lines 228-304).  The heuristic stage
sorts by `atan2` (floating point) and adds `rand()` offsets, so the exact
candidate sequences are modelled as parameters `candsP`, `candsR`: any claim
quantifying over "random offsets" quantifies over these lists.  The second
fallback loop of the source ("Check R in HP", lines 290-298) only `break`s and
reports nothing, so it does not appear.  `none` models printing `-1`. -/
def solve_model (P R : List Point) (candsP candsR : List (Point × Point)) :
    Option (List Int) :=
  let HP := convex_hull P
  let HR := convex_hull R
  match candsP.findSome? (fun ab =>
      (intersect_segment_convex_poly_log ab.1 ab.2 HR).map
        (fun r => [ab.1.id, ab.2.id, r.1, r.2])) with
  | some out => some out
  | none =>
    match candsR.findSome? (fun ab =>
        (intersect_segment_convex_poly_log ab.1 ab.2 HP).map
          (fun r => [r.1, r.2, ab.1.id, ab.2.id])) with
    | some out => some out
    | none => fallbackPinHR (convex_hull_post P) HP HR

/-- Decidable sufficient condition under which `solve` prints `-1` no matter
which candidate pairs the heuristic stage happens to sample: no segment
between two points of `P` meets `HR`, no segment between two points of `R`
meets `HP`, and no point of `P` lies inside-or-on `HR`. -/
def sentinel_forced (P R : List Point) : Bool :=
  let HP := convex_hull P
  let HR := convex_hull R
  (allPairs P).all (fun ab => (intersect_segment_convex_poly_log ab.1 ab.2 HR).isNone) &&
  (allPairs R).all (fun ab => (intersect_segment_convex_poly_log ab.1 ab.2 HP).isNone) &&
  (convex_hull_post P).all (fun p => !is_inside HR p)

/-- The cyclic edge list `(H[i], H[(i+1) mod k])` of a polygon. -/
def cyclicEdges (H : List Point) : List (Point × Point) :=
  match H with
  | [] => []
  | h :: _ => H.zip (H.drop 1 ++ [h])

/-- A point strictly inside a CCW polygon: strictly left of every edge. -/
def strictlyInsideHull (H : List Point) (p : Point) : Bool :=
  (cyclicEdges H).all (fun uv => decide (cross_product uv.1 uv.2 p > 0))

/-- Concrete test case for the containment scenario: `P` the corners of a
large square. -/
def exP10 : List Point := [⟨0, 0, 1⟩, ⟨10, 0, 2⟩, ⟨10, 10, 3⟩, ⟨0, 10, 4⟩]

/-- Concrete test case for the containment scenario: `R` a small triangle
strictly inside the hull of `exP10`, positioned off both diagonals. -/
def exR10 : List Point := [⟨5, 2, 1⟩, ⟨6, 2, 2⟩, ⟨5, 3, 3⟩]

/-- Concrete unsorted input showing that `convex_hull` reorders its argument. -/
def exC3 : List Point := [⟨1, 0, 1⟩, ⟨0, 0, 2⟩, ⟨2, 1, 3⟩]

/-- A concrete strictly convex CCW polygon (unit square) for instantiating
the hill-climb optimality theorem. -/
def sqC9 : List Point := [⟨0, 0, 1⟩, ⟨1, 0, 2⟩, ⟨1, 1, 3⟩, ⟨0, 1, 4⟩]

/-- Concrete segment endpoints for instantiating the hill-climb optimality
theorem. -/
def aC9 : Point := ⟨0, 0, 9⟩

/-- Second concrete segment endpoint. -/
def bC9 : Point := ⟨2, 1, 9⟩

/-- A strictly convex polygon listed in counter-clockwise order: every triple
of vertices taken in (cyclic) listing order makes a strict left turn.  This is
the standard formalisation of a strictly convex CCW polygon; note that
requiring it for all ordered triples (not only consecutive ones) is what
rules out self-intersecting star traversals. -/
def ConvexPosCCW (poly : List Point) : Prop :=
  ∀ i j k : Fin poly.length, (i : Nat) < (j : Nat) → (j : Nat) < (k : Nat) →
    0 < cross_product (getP poly i) (getP poly j) (getP poly k)

instance (poly : List Point) : Decidable (ConvexPosCCW poly) := by
  unfold ConvexPosCCW; infer_instance

/-- The coordinates of an integer point as a rational point. -/
def ptQ (p : Point) : ℚ × ℚ := ((p.x : ℚ), (p.y : ℚ))

/-- The affine interpolation `c + t * (d - c)` between two integer points,
as a rational point. -/
def interpQ (c d : Point) (t : ℚ) : ℚ × ℚ :=
  ((c.x : ℚ) + t * ((d.x : ℚ) - (c.x : ℚ)), (c.y : ℚ) + t * ((d.y : ℚ) - (c.y : ℚ)))

/-- Cross product of the integer points `o, a` with a rational third point. -/
def crossQ (o a : Point) (p : ℚ × ℚ) : ℚ :=
  ((a.x : ℚ) - (o.x : ℚ)) * (p.2 - (o.y : ℚ)) - ((a.y : ℚ) - (o.y : ℚ)) * (p.1 - (o.x : ℚ))

/-- Membership of a rational point on the closed segment between the integer
points `a` and `b`, parametrically. -/
def onSegQ (a b : Point) (p : ℚ × ℚ) : Prop :=
  ∃ t : ℚ, 0 ≤ t ∧ t ≤ 1 ∧ p = interpQ a b t

/-- The closed segments `ab` and `cd` share at least one point.  The shared
point is quantified over the rationals: for integer endpoints this loses
nothing, since a nonempty intersection of two such segments always contains a
rational point (a single crossing point solves integer linear equations, and
a collinear overlap contains one of the four endpoints). -/
def segsShare (a b c d : Point) : Prop :=
  ∃ p : ℚ × ℚ, onSegQ a b p ∧ onSegQ c d p

-- ===== NEW definitions for the hull development =====

/-- The propositional form of the strict sort comparator `lexLt`. -/
def lexLtP (a b : Point) : Prop := lexLt a b = true

/-- Coordinate negation; `id` is irrelevant to the geometry.  Conjugating the
chain fold by `negP` turns the upper-hull pass into a lower-hull pass. -/
def negP (p : Point) : Point := ⟨-p.x, -p.y, p.id⟩

/-- The edges of a hull chain listed in stack form (head = top): the pair
`(a, b)` records that `b` sits directly above `a`, i.e. the chain walks
from `a` to `b`. -/
def stackEdges : List Point → List (Point × Point)
  | b :: a :: rest => (a, b) :: stackEdges (a :: rest)
  | _ => []

/-- The edges of a chain listed in chain (walk) order: consecutive pairs. -/
def chainEdges : List Point → List (Point × Point)
  | a :: b :: rest => (a, b) :: chainEdges (b :: rest)
  | _ => []

/-- Every adjacent triple of a stack (head = top) is a strict left turn when
read in chain order: for `[w, v, u, ...]` the walk is `u → v → w`. -/
def Triples3 : List Point → Prop
  | w :: v :: u :: rest => 0 < cross_product u v w ∧ Triples3 (v :: u :: rest)
  | _ => True

/-- The invariant of one monotone-chain pass, processed in nondecreasing
lexicographic order.  `seen` is the chronological list of processed points
(seed included), `st` the stack (head = top = most recent survivor). -/
structure ChainInv (seen st : List Point) : Prop where
  ne : st ≠ []
  mem : ∀ v ∈ st, v ∈ seen
  top_max : ∀ t, st.head? = some t → ∀ q ∈ seen, lexLeP q t
  bot_min : ∀ b, st.getLast? = some b → ∀ q ∈ seen, lexLeP b q
  chain : List.Chain' (fun a b => lexLeP b a) st
  strict : List.Chain' (fun a b => lexLtP b a) st ∨
    ∃ u v, st = [u, v] ∧ u.x = v.x ∧ u.y = v.y
  trip : Triples3 st
  sup : ∀ q ∈ seen, ∀ e ∈ stackEdges st, 0 ≤ cross_product e.1 e.2 q

-- ===== foundation lemmas =====


theorem getP_mem {poly : List Point} {i : Nat} (h : i < poly.length) :
    getP poly i ∈ poly := by
  unfold getP
  rw [List.getD_eq_getElem _ _ h]
  exact List.getElem_mem h

theorem lexLe_trans (a b c : Point) : lexLe a b = true → lexLe b c = true →
    lexLe a c = true := by
  simp only [lexLe, Bool.or_eq_true, beq_iff_eq, Bool.and_eq_true, decide_eq_true_eq]
  omega

theorem lexLe_total (a b : Point) : (lexLe a b || lexLe b a) = true := by
  simp only [lexLe, Bool.or_eq_true, beq_iff_eq, Bool.and_eq_true, decide_eq_true_eq]
  omega

instance : IsTrans Point lexLeP where
  trans a b c hab hbc := lexLe_trans a b c hab hbc

instance : IsTotal Point lexLeP where
  total a b := by
    have h := lexLe_total a b
    simp only [Bool.or_eq_true] at h
    exact h.imp (fun h => h) (fun h => h)

/-- C4 counterexample: in direction R-to-HP (`p_is_pump = false`, segment
endpoint ids 1,2 drawn from R, hull-edge ids 3,4 from HP) the reported
4-tuple is `[3, 4, 1, 2]`: the hull-edge ids precede the segment ids, so it
is false that in every reported tuple the segment-endpoint ids come first. -/
theorem C4_cex : run_h_report false 1 2 3 4 = [3, 4, 1, 2] ∧
    run_h_report false 1 2 3 4 ≠ [1, 2, 3, 4] := by
  constructor
  · rfl
  · decide

/-- C4 amended: the P-side ids always come first.  In direction P-to-HR
(`p_is_pump = true`) the tuple is segment ids then hull-edge ids; in direction
R-to-HP (`p_is_pump = false`) it is hull-edge ids (the P side) then segment
ids. -/
theorem C4_report_order (aId bId r1 r2 : Int) :
    run_h_report true aId bId r1 r2 = [aId, bId, r1, r2] ∧
    run_h_report false aId bId r1 r2 = [r1, r2, aId, bId] := by
  exact ⟨rfl, rfl⟩

/-- C3 counterexample: `convex_hull` sorts its by-reference argument in place,
so for a 3-point unsorted input the point sequence after the call differs from
the sequence before it. -/
theorem C3_cex : convex_hull_post exC3 ≠ exC3 := by
  decide

/-- C3 amended: `convex_hull` leaves inputs of size at most 2 untouched, and
for larger inputs it permutes the argument in place into lexicographic
`(x, y)` order; the multiset of points (with their ids) is always preserved. -/
theorem C3_post_sorted_perm (pts : List Point) :
    (pts.length ≤ 2 → convex_hull_post pts = pts) ∧
    (convex_hull_post pts).Perm pts ∧
    (2 < pts.length → List.Pairwise lexLeP (convex_hull_post pts)) := by
  refine ⟨fun h => ?_, ?_, fun h => ?_⟩
  · simp [convex_hull_post, h]
  · by_cases h : pts.length ≤ 2
    · simp [convex_hull_post, h]
    · simp only [convex_hull_post, if_neg h]
      exact List.perm_insertionSort lexLeP pts
  · have hh : ¬ pts.length ≤ 2 := by omega
    simp only [convex_hull_post, if_neg hh]
    exact List.sorted_insertionSort lexLeP pts

/-- C3 witness: the amended statement instantiated at the concrete unsorted
input `exC3`. -/
theorem C3_post_sorted_perm_witness :
    (convex_hull_post exC3).Perm exC3 ∧ List.Pairwise lexLeP (convex_hull_post exC3) :=
  ⟨(C3_post_sorted_perm exC3).2.1, (C3_post_sorted_perm exC3).2.2 (by decide)⟩

theorem sampleStart_lt (poly : List Point) (A B : Point) (m : Bool)
    (hn : 0 < poly.length) : sampleStart poly A B m < poly.length := by
  unfold sampleStart
  simp only
  have key : ∀ (l : List Nat) (acc : Nat × Int), acc.1 < poly.length →
      (∀ i ∈ l, i < poly.length) →
      (l.foldl (fun acc i =>
        let v := dotAB A B (getP poly i)
        if (if m then v > acc.2 else v < acc.2) then (i, v) else acc) acc).1 <
        poly.length := by
    intro l
    induction l with
    | nil => intro acc h _; simpa using h
    | cons a as ih =>
      intro acc hacc hall
      simp only [List.foldl_cons]
      apply ih
      · dsimp only
        split <;> split
        · exact hall a (List.mem_cons_self a as)
        · exact hacc
        · exact hall a (List.mem_cons_self a as)
        · exact hacc
      · intro i hi; exact hall i (List.mem_cons_of_mem _ hi)
  apply key
  · exact hn
  · intro i hi
    exact List.mem_range.mp (List.mem_filter.mp hi).1

theorem climb_lt (poly : List Point) (A B : Point) (m : Bool) (fuel curr : Nat)
    (h : curr < poly.length) : climb poly A B m fuel curr < poly.length := by
  induction fuel generalizing curr with
  | zero => simpa [climb] using h
  | succ f ih =>
    have hn : 0 < poly.length := Nat.lt_of_le_of_lt (Nat.zero_le _) h
    unfold climb
    simp only
    split
    · split
      · exact ih _ (Nat.mod_lt _ hn)
      · split
        · exact ih _ (Nat.mod_lt _ hn)
        · exact h
    · split
      · exact ih _ (Nat.mod_lt _ hn)
      · split
        · exact ih _ (Nat.mod_lt _ hn)
        · exact h

theorem hill_climb_extreme_lt (poly : List Point) (A B : Point) (m : Bool)
    (hn : 0 < poly.length) : hill_climb_extreme poly A B m < poly.length :=
  climb_lt poly A B m _ _ (sampleStart_lt poly A B m hn)

theorem check_chain_sound {A B : Point} {poly : List Point} {fuel start endi : Nat}
    {r1 r2 : Int} (hs : start < poly.length)
    (h : check_chain A B poly fuel start endi = some (r1, r2)) :
    ∃ e1 ∈ poly, ∃ e2 ∈ poly, e1.id = r1 ∧ e2.id = r2 ∧
      segments_intersect A B e1 e2 = true := by
  have hn : 0 < poly.length := Nat.lt_of_le_of_lt (Nat.zero_le _) hs
  unfold check_chain at h
  simp only at h
  split at h
  · split at h
    · rename_i hseg
      obtain ⟨h1, h2⟩ : (getP poly start).id = r1 ∧
          (getP poly ((start + 1) % poly.length)).id = r2 := by
        simpa using h
      exact ⟨getP poly start, getP_mem hs,
        getP poly ((start + 1) % poly.length), getP_mem (Nat.mod_lt _ hn),
        h1, h2, hseg⟩
    · split at h
      · rename_i hseg
        obtain ⟨h1, h2⟩ : (getP poly ((start + poly.length - 1) % poly.length)).id = r1 ∧
            (getP poly start).id = r2 := by
          simpa using h
        exact ⟨getP poly ((start + poly.length - 1) % poly.length),
          getP_mem (Nat.mod_lt _ hn), getP poly start, getP_mem hs, h1, h2, hseg⟩
      · exact absurd h (by simp)
  · split at h
    · exact absurd h (by simp)
    · split at h
      · rename_i hseg
        obtain ⟨h1, h2⟩ : _ ∧ _ := by simpa using h
        exact ⟨_, getP_mem (Nat.mod_lt _ hn), _, getP_mem (Nat.mod_lt _ hn),
          h1, h2, hseg⟩
      · exact absurd h (by simp)

/-- C1 confirmed: whenever the Hull-Intersection Locator reports ids
`(r1, r2)` for segment `(A, B)` against a polygon of size at least 2, those
ids belong to actual vertices `e1, e2` of the polygon and the exact
`segments_intersect A B e1 e2` test holds.  (Soundness needs no convexity
assumption, so the statement covers all convex polygons in particular.) -/
theorem C1_locator_sound (A B : Point) (poly : List Point) (r1 r2 : Int)
    (hpoly : 2 ≤ poly.length)
    (h : intersect_segment_convex_poly_log A B poly = some (r1, r2)) :
    ∃ e1 ∈ poly, ∃ e2 ∈ poly, e1.id = r1 ∧ e2.id = r2 ∧
      segments_intersect A B e1 e2 = true := by
  have hn : 0 < poly.length := by omega
  unfold intersect_segment_convex_poly_log intersectFueled at h
  simp only at h
  split at h
  · exact absurd h (by simp)
  · split at h
    · split at h
      · rename_i hseg
        obtain ⟨h1, h2⟩ : _ ∧ _ := by simpa using h
        exact ⟨_, getP_mem (by omega), _, getP_mem (by omega), h1, h2, hseg⟩
      · exact absurd h (by simp)
    · split at h
      · exact absurd h (by simp)
      · split at h
        · exact absurd h (by simp)
        · split at h
          · rename_i val heq
            exact check_chain_sound (hill_climb_extreme_lt poly A B true hn)
              (heq.trans h)
          · exact check_chain_sound (hill_climb_extreme_lt poly A B false hn) h

/-- C1 witness: a concrete vertical segment crossing the sole edge of a
two-point polygon, whose hypotheses are discharged by computation. -/
theorem C1_locator_sound_witness :
    ∃ e1 ∈ ([⟨0, 0, 10⟩, ⟨2, 0, 20⟩] : List Point), ∃ e2 ∈
      ([⟨0, 0, 10⟩, ⟨2, 0, 20⟩] : List Point), e1.id = 10 ∧ e2.id = 20 ∧
      segments_intersect ⟨1, -1, 5⟩ ⟨1, 1, 6⟩ e1 e2 = true :=
  C1_locator_sound ⟨1, -1, 5⟩ ⟨1, 1, 6⟩ [⟨0, 0, 10⟩, ⟨2, 0, 20⟩] 10 20
    (by decide) (by decide)

theorem bsearch_done (cpf : Nat → Int) (s0 : Int) (start n : Nat) (f L R : Nat)
    (h : ¬ L + 1 < R) : bsearch cpf s0 start n f L R = L := by
  cases f with
  | zero => rfl
  | succ f => unfold bsearch; rw [if_neg h]

theorem bsearch_stable (cpf : Nat → Int) (s0 : Int) (start n : Nat) :
    ∀ (k L R f g : Nat), R - L ≤ k → R - L ≤ f → R - L ≤ g →
      bsearch cpf s0 start n f L R = bsearch cpf s0 start n g L R := by
  intro k
  induction k with
  | zero =>
    intro L R f g hk _ _
    have h : ¬ L + 1 < R := by omega
    rw [bsearch_done cpf s0 start n f L R h, bsearch_done cpf s0 start n g L R h]
  | succ k ih =>
    intro L R f g _ hf hg
    by_cases hLR : L + 1 < R
    · obtain ⟨f', rfl⟩ : ∃ f', f = f' + 1 := ⟨f - 1, by omega⟩
      obtain ⟨g', rfl⟩ : ∃ g', g = g' + 1 := ⟨g - 1, by omega⟩
      show bsearch cpf s0 start n (f' + 1) L R = bsearch cpf s0 start n (g' + 1) L R
      unfold bsearch
      rw [if_pos hLR, if_pos hLR]
      simp only
      have hmid1 : L < (L + R) / 2 := by omega
      have hmid2 : (L + R) / 2 < R := by omega
      split
      · exact ih ((L + R) / 2) R f' g' (by omega) (by omega) (by omega)
      · exact ih L ((L + R) / 2) f' g' (by omega) (by omega) (by omega)
    · rw [bsearch_done cpf s0 start n _ L R hLR, bsearch_done cpf s0 start n _ L R hLR]

theorem check_chain_stable (A B : Point) (poly : List Point) (f g start endi : Nat)
    (hn : 0 < poly.length) (hf : poly.length ≤ f) (hg : poly.length ≤ g) :
    check_chain A B poly f start endi = check_chain A B poly g start endi := by
  unfold check_chain
  simp only
  split
  · rfl
  · split
    · rfl
    · have hlen : (endi + poly.length - start) % poly.length < poly.length :=
        Nat.mod_lt _ hn
      rw [bsearch_stable _ _ _ _ ((endi + poly.length - start) % poly.length) 0 _ f g
        (by omega) (by omega) (by omega)]

/-- C8 confirmed: the Hull-Intersection Locator always terminates with a
boolean answer, all its internal loops being capped by the polygon size.  The
hill climbs are bounded by `n` iterations by construction (mirroring the
source's `for (iter = 0; iter < n)` safety cap, with the current index
returned on cap exhaustion rather than any fault), and the binary search
strictly narrows `R - L` each step, so fuel `n` fully determines the result:
any fuel of at least the polygon size gives the same answer as the canonical
run, and an unresolved search just yields `false` (`none`), never a fault. -/
theorem C8_loops_capped_terminate (A B : Point) (poly : List Point) (fuel : Nat)
    (h : poly.length ≤ fuel) :
    intersectFueled fuel A B poly = intersect_segment_convex_poly_log A B poly := by
  unfold intersect_segment_convex_poly_log intersectFueled
  simp only
  split
  · rfl
  · split
    · rfl
    · rename_i h1 h2
      have hn : 0 < poly.length := by omega
      rw [check_chain_stable A B poly fuel poly.length
        (hill_climb_extreme poly A B true) (hill_climb_extreme poly A B false)
        hn h le_rfl,
        check_chain_stable A B poly fuel poly.length
        (hill_climb_extreme poly A B false) (hill_climb_extreme poly A B true)
        hn h le_rfl]

/-- C8 witness: a concrete run on a square hull with surplus fuel agrees with
the canonical bounded run. -/
theorem C8_loops_capped_terminate_witness :
    intersectFueled 10 ⟨-1, 5, 7⟩ ⟨11, 5, 8⟩ (convex_hull exP10) =
      intersect_segment_convex_poly_log ⟨-1, 5, 7⟩ ⟨11, 5, 8⟩ (convex_hull exP10) :=
  C8_loops_capped_terminate ⟨-1, 5, 7⟩ ⟨11, 5, 8⟩ (convex_hull exP10) 10 (by decide)

theorem mem_allPairs {l : List Point} {a b : Point} (ha : a ∈ l) (hb : b ∈ l) :
    (a, b) ∈ allPairs l := by
  unfold allPairs
  rw [List.mem_flatMap]
  exact ⟨a, ha, List.mem_map.mpr ⟨b, hb, rfl⟩⟩

/-- C10 amended: when every segment between two points of `P` misses `HR`,
every segment between two points of `R` misses `HP`, and no point of `P` lies
inside-or-on `HR`, the solve procedure reports the sentinel `-1` no matter
which candidate pairs the heuristic stage samples — even if all of `R` lies
strictly inside `HP`.  The R-inside-HP fallback branch of the source only
`break`s without reporting, so the containment fallback covers only the
direction in which a point of `P` lies inside `HR`. -/
theorem C10_sentinel_when_forced (P R : List Point)
    (candsP candsR : List (Point × Point))
    (hP : ∀ ab ∈ candsP, ab.1 ∈ P ∧ ab.2 ∈ P)
    (hR : ∀ ab ∈ candsR, ab.1 ∈ R ∧ ab.2 ∈ R)
    (hforced : sentinel_forced P R = true) :
    solve_model P R candsP candsR = none := by
  unfold sentinel_forced at hforced
  simp only [Bool.and_eq_true, List.all_eq_true] at hforced
  obtain ⟨⟨hPall, hRall⟩, hinside⟩ := hforced
  unfold solve_model
  simp only
  have h1 : candsP.findSome? (fun ab =>
      (intersect_segment_convex_poly_log ab.1 ab.2 (convex_hull R)).map
        (fun r => [ab.1.id, ab.2.id, r.1, r.2])) = none := by
    refine List.findSome?_eq_none_iff.mpr (fun ab hab => ?_)
    have := hPall (ab.1, ab.2) (mem_allPairs (hP ab hab).1 (hP ab hab).2)
    simp only [Option.isNone_iff_eq_none] at this
    rw [this]; rfl
  have h2 : candsR.findSome? (fun ab =>
      (intersect_segment_convex_poly_log ab.1 ab.2 (convex_hull P)).map
        (fun r => [r.1, r.2, ab.1.id, ab.2.id])) = none := by
    refine List.findSome?_eq_none_iff.mpr (fun ab hab => ?_)
    have := hRall (ab.1, ab.2) (mem_allPairs (hR ab hab).1 (hR ab hab).2)
    simp only [Option.isNone_iff_eq_none] at this
    rw [this]; rfl
  rw [h1, h2]
  unfold fallbackPinHR
  have h3 : (convex_hull_post P).find? (fun p => is_inside (convex_hull R) p) = none := by
    rw [List.find?_eq_none]
    intro p hp
    have := hinside p hp
    simp only [Bool.not_eq_true'] at this
    simp [this]
  rw [h3]

/-- C10 witness: the amended statement at the concrete containment scenario
(`exR10` strictly inside the hull of `exP10`), with the heuristic stage given
every pair of each set as candidates. -/
theorem C10_sentinel_when_forced_witness :
    solve_model exP10 exR10 (allPairs exP10) (allPairs exR10) = none :=
  C10_sentinel_when_forced exP10 exR10 (allPairs exP10) (allPairs exR10)
    (by decide) (by decide) (by decide)

/-- C10 counterexample: a concrete test case in which every point of `R` lies
strictly inside the hull of `P` (both sets valid and non-degenerate), yet no
segment between two points of `P` meets `HR`, no segment between two points
of `R` meets `HP`, and no point of `P` lies inside `HR` — so `solve` prints
the sentinel `-1` (shown here with the heuristic given every possible pair,
a superset of any random-offset sampling), contradicting the claim that a
non-sentinel Crossing Result is always reported in this scenario. -/
theorem C10_cex : exR10.all (strictlyInsideHull (convex_hull exP10)) = true ∧
    sentinel_forced exP10 exR10 = true ∧
    solve_model exP10 exR10 (allPairs exP10) (allPairs exR10) = none := by
  exact ⟨by decide, by decide, by decide⟩

theorem cross_cyclic (o a b : Point) : cross_product o a b = cross_product a b o := by
  unfold cross_product; ring

theorem cross_swap_last (o a b : Point) : cross_product o a b = -cross_product o b a := by
  unfold cross_product; ring

theorem crossQ_ptQ (o a p : Point) : crossQ o a (ptQ p) = (cross_product o a p : ℚ) := by
  unfold crossQ ptQ cross_product
  push_cast
  ring

theorem crossQ_interp (o a c d : Point) (t : ℚ) :
    crossQ o a (interpQ c d t) =
      (1 - t) * (cross_product o a c : ℚ) + t * (cross_product o a d : ℚ) := by
  unfold crossQ interpQ cross_product
  push_cast
  ring

theorem onSegQ_cross (a b : Point) (p : ℚ × ℚ) (h : onSegQ a b p) :
    crossQ a b p = 0 := by
  obtain ⟨t, _, _, rfl⟩ := h
  unfold crossQ interpQ
  ring

theorem scalar_between {u v t : ℚ} (h0 : 0 ≤ t) (h1 : t ≤ 1) :
    min u v ≤ u + t * (v - u) ∧ u + t * (v - u) ≤ max u v := by
  rcases le_total u v with h | h
  · rw [min_eq_left h, max_eq_right h]
    constructor <;> nlinarith
  · rw [min_eq_right h, max_eq_left h]
    constructor <;> nlinarith

theorem onSegQ_bbox (a b : Point) (p : ℚ × ℚ) (h : onSegQ a b p) :
    (min a.x b.x : ℚ) ≤ p.1 ∧ p.1 ≤ (max a.x b.x : ℚ) ∧
    (min a.y b.y : ℚ) ≤ p.2 ∧ p.2 ≤ (max a.y b.y : ℚ) := by
  obtain ⟨t, h0, h1, rfl⟩ := h
  have hx := scalar_between (u := (a.x : ℚ)) (v := (b.x : ℚ)) h0 h1
  have hy := scalar_between (u := (a.y : ℚ)) (v := (b.y : ℚ)) h0 h1
  exact ⟨by simpa [interpQ] using hx.1, by simpa [interpQ] using hx.2,
    by simpa [interpQ] using hy.1, by simpa [interpQ] using hy.2⟩

theorem onSegQ_symm {a b : Point} {p : ℚ × ℚ} (h : onSegQ a b p) : onSegQ b a p := by
  obtain ⟨t, h0, h1, rfl⟩ := h
  refine ⟨1 - t, by linarith, by linarith, ?_⟩
  unfold interpQ
  refine Prod.ext ?_ ?_ <;> (simp only; ring)

theorem onSegQ_ptQ_left (a b : Point) : onSegQ a b (ptQ a) := by
  refine ⟨0, le_refl 0, by norm_num, ?_⟩
  unfold ptQ interpQ
  refine Prod.ext ?_ ?_ <;> (simp only; ring)

theorem segsShare_symm_pairs {a b c d : Point} (h : segsShare a b c d) :
    segsShare c d a b := by
  obtain ⟨p, h1, h2⟩ := h; exact ⟨p, h2, h1⟩

theorem segsShare_symm_ab {a b c d : Point} (h : segsShare b a c d) :
    segsShare a b c d := by
  obtain ⟨p, h1, h2⟩ := h; exact ⟨p, onSegQ_symm h1, h2⟩

theorem segsShare_symm_cd {a b c d : Point} (h : segsShare a b d c) :
    segsShare a b c d := by
  obtain ⟨p, h1, h2⟩ := h; exact ⟨p, h1, onSegQ_symm h2⟩

theorem segments_intersect_iff (a b c d : Point) :
    segments_intersect a b c d = true ↔
    ((min c.x d.x ≤ max a.x b.x ∧ min a.x b.x ≤ max c.x d.x ∧
      min c.y d.y ≤ max a.y b.y ∧ min a.y b.y ≤ max c.y d.y) ∧
     ((cross_product a b c > 0 ∧ cross_product a b d < 0) ∨
      (cross_product a b c < 0 ∧ cross_product a b d > 0) ∨
      cross_product a b c = 0 ∨ cross_product a b d = 0) ∧
     ((cross_product c d a > 0 ∧ cross_product c d b < 0) ∨
      (cross_product c d a < 0 ∧ cross_product c d b > 0) ∨
      cross_product c d a = 0 ∨ cross_product c d b = 0)) := by
  unfold segments_intersect
  split
  · rename_i hbox
    simp only [Bool.or_eq_true, decide_eq_true_eq] at hbox
    simp only [Bool.false_eq_true, false_iff, not_and]
    intro hb
    omega
  · rename_i hbox
    simp only [Bool.or_eq_true, decide_eq_true_eq, not_or] at hbox
    simp only [decide_eq_true_eq]
    constructor
    · intro h
      exact ⟨by omega, h.1, h.2⟩
    · intro h
      exact ⟨h.2.1, h.2.2⟩

theorem ratio_interp {u v w : ℚ} (huv : u < v) (h1 : u ≤ w) (h2 : w ≤ v) :
    0 ≤ (w - u) / (v - u) ∧ (w - u) / (v - u) ≤ 1 ∧
      u + (w - u) / (v - u) * (v - u) = w := by
  have hvu : (0 : ℚ) < v - u := by linarith
  refine ⟨div_nonneg (by linarith) hvu.le, (div_le_one hvu).mpr (by linarith), ?_⟩
  field_simp

theorem onSegQ_xlt {a b : Point} {p : ℚ × ℚ}
    (hab : (a.x : ℚ) < (b.x : ℚ)) (hc : crossQ a b p = 0)
    (h1 : (a.x : ℚ) ≤ p.1) (h2 : p.1 ≤ (b.x : ℚ)) : onSegQ a b p := by
  obtain ⟨t0, t1, teq⟩ := ratio_interp hab h1 h2
  refine ⟨(p.1 - (a.x : ℚ)) / ((b.x : ℚ) - (a.x : ℚ)), t0, t1, ?_⟩
  unfold interpQ
  refine Prod.ext ?_ ?_
  · simp only
    linarith [teq]
  · simp only
    unfold crossQ at hc
    have hne : (b.x : ℚ) - (a.x : ℚ) ≠ 0 := by intro h; rw [sub_eq_zero] at h; linarith
    field_simp
    linear_combination hc

theorem onSegQ_nonvertical {a b : Point} {p : ℚ × ℚ} (hx : a.x ≠ b.x)
    (hc : crossQ a b p = 0) (h1 : min (a.x : ℚ) (b.x : ℚ) ≤ p.1)
    (h2 : p.1 ≤ max (a.x : ℚ) (b.x : ℚ)) : onSegQ a b p := by
  rcases lt_or_gt_of_ne hx with h | h
  · have hq : (a.x : ℚ) < (b.x : ℚ) := by exact_mod_cast h
    rw [min_eq_left hq.le] at h1
    rw [max_eq_right hq.le] at h2
    exact onSegQ_xlt hq hc h1 h2
  · have hq : (b.x : ℚ) < (a.x : ℚ) := by exact_mod_cast h
    rw [min_eq_right hq.le] at h1
    rw [max_eq_left hq.le] at h2
    refine onSegQ_symm (onSegQ_xlt hq ?_ h1 h2)
    unfold crossQ at hc ⊢
    linear_combination -hc

theorem onSegQ_ylt {a b : Point} {p : ℚ × ℚ}
    (hx : a.x = b.x) (hab : (a.y : ℚ) < (b.y : ℚ)) (hpx : p.1 = (a.x : ℚ))
    (h1 : (a.y : ℚ) ≤ p.2) (h2 : p.2 ≤ (b.y : ℚ)) : onSegQ a b p := by
  obtain ⟨t0, t1, teq⟩ := ratio_interp hab h1 h2
  refine ⟨(p.2 - (a.y : ℚ)) / ((b.y : ℚ) - (a.y : ℚ)), t0, t1, ?_⟩
  unfold interpQ
  refine Prod.ext ?_ ?_
  · simp only
    rw [hpx, hx]
    ring
  · simp only
    linarith [teq]

theorem onSegQ_vertical {a b : Point} {p : ℚ × ℚ} (hx : a.x = b.x) (hay : a.y ≠ b.y)
    (hpx : p.1 = (a.x : ℚ)) (h1 : min (a.y : ℚ) (b.y : ℚ) ≤ p.2)
    (h2 : p.2 ≤ max (a.y : ℚ) (b.y : ℚ)) : onSegQ a b p := by
  rcases lt_or_gt_of_ne hay with h | h
  · have hq : (a.y : ℚ) < (b.y : ℚ) := by exact_mod_cast h
    rw [min_eq_left hq.le] at h1
    rw [max_eq_right hq.le] at h2
    exact onSegQ_ylt hx hq hpx h1 h2
  · have hq : (b.y : ℚ) < (a.y : ℚ) := by exact_mod_cast h
    rw [min_eq_right hq.le] at h1
    rw [max_eq_left hq.le] at h2
    refine onSegQ_symm (onSegQ_ylt hx.symm hq (by rw [hpx, hx]) h1 h2)

theorem onSegQ_of_cross_bbox {c d : Point} {p : ℚ × ℚ}
    (hc : crossQ c d p = 0)
    (h1 : min (c.x : ℚ) (d.x : ℚ) ≤ p.1) (h2 : p.1 ≤ max (c.x : ℚ) (d.x : ℚ))
    (h3 : min (c.y : ℚ) (d.y : ℚ) ≤ p.2) (h4 : p.2 ≤ max (c.y : ℚ) (d.y : ℚ)) :
    onSegQ c d p := by
  by_cases hx : c.x = d.x
  · by_cases hy : c.y = d.y
    · refine ⟨0, le_refl 0, by norm_num, ?_⟩
      have hpx : p.1 = (c.x : ℚ) := by
        rw [hx] at h1 h2
        simp only [min_self, max_self] at h1 h2
        have : p.1 = (d.x : ℚ) := le_antisymm h2 h1
        rw [this, hx]
      have hpy : p.2 = (c.y : ℚ) := by
        rw [hy] at h3 h4
        simp only [min_self, max_self] at h3 h4
        have : p.2 = (d.y : ℚ) := le_antisymm h4 h3
        rw [this, hy]
      unfold interpQ
      refine Prod.ext ?_ ?_ <;> simp only
      · rw [hpx]; ring
      · rw [hpy]; ring
    · have hpx : p.1 = (c.x : ℚ) := by
        rw [hx] at h1 h2
        simp only [min_self, max_self] at h1 h2
        have : p.1 = (d.x : ℚ) := le_antisymm h2 h1
        rw [this, hx]
      exact onSegQ_vertical hx hy hpx h3 h4
  · exact onSegQ_nonvertical hx hc h1 h2

theorem line_intersection_unique {a b c d : Point} {p q : ℚ × ℚ}
    (hD : cross_product a b c ≠ cross_product a b d)
    (h1 : crossQ a b p = 0) (h2 : crossQ c d p = 0)
    (h3 : crossQ a b q = 0) (h4 : crossQ c d q = 0) : p = q := by
  have hDq : (((b.x : ℚ) - a.x) * ((d.y : ℚ) - c.y) -
      ((b.y : ℚ) - a.y) * ((d.x : ℚ) - c.x)) ≠ 0 := by
    intro h
    apply hD
    have hInt : ((cross_product a b d : ℤ) : ℚ) - ((cross_product a b c : ℤ) : ℚ) = 0 := by
      unfold cross_product
      push_cast
      linear_combination h
    have heq : (cross_product a b d : ℤ) = cross_product a b c := by
      have := sub_eq_zero.mp hInt
      exact_mod_cast this
    exact heq.symm
  unfold crossQ at h1 h2 h3 h4
  have hx : (((b.x : ℚ) - a.x) * ((d.y : ℚ) - c.y) -
      ((b.y : ℚ) - a.y) * ((d.x : ℚ) - c.x)) * (p.1 - q.1) = 0 := by
    linear_combination ((d.x : ℚ) - c.x) * h1 - ((d.x : ℚ) - c.x) * h3 -
      ((b.x : ℚ) - a.x) * h2 + ((b.x : ℚ) - a.x) * h4
  have hy : (((b.x : ℚ) - a.x) * ((d.y : ℚ) - c.y) -
      ((b.y : ℚ) - a.y) * ((d.x : ℚ) - c.x)) * (p.2 - q.2) = 0 := by
    linear_combination ((d.y : ℚ) - c.y) * h1 - ((d.y : ℚ) - c.y) * h3 -
      ((b.y : ℚ) - a.y) * h2 + ((b.y : ℚ) - a.y) * h4
  have hx' : p.1 = q.1 := by
    rcases mul_eq_zero.mp hx with h | h
    · exact absurd h hDq
    · linarith [sub_eq_zero.mp h]
  have hy' : p.2 = q.2 := by
    rcases mul_eq_zero.mp hy with h | h
    · exact absurd h hDq
    · linarith [sub_eq_zero.mp h]
  exact Prod.ext hx' hy'

theorem ratio01_of_opp {u v : ℚ} (h : u * v < 0) :
    0 ≤ u / (u - v) ∧ u / (u - v) ≤ 1 := by
  rcases mul_neg_iff.mp h with ⟨hu, hv⟩ | ⟨hu, hv⟩
  · have hd : (0 : ℚ) < u - v := by linarith
    exact ⟨div_nonneg hu.le hd.le, (div_le_one hd).mpr (by linarith)⟩
  · have hd : (0 : ℚ) < v - u := by linarith
    have hrw : u / (u - v) = (-u) / (v - u) := by
      rw [div_eq_div_iff (by linarith) (by linarith)]
      ring
    rw [hrw]
    exact ⟨div_nonneg (by linarith) hd.le, (div_le_one hd).mpr (by linarith)⟩

theorem interp_on_line {a b c d : Point}
    (h : cross_product a b c ≠ cross_product a b d) :
    crossQ a b (interpQ c d
      ((cross_product a b c : ℚ) /
        ((cross_product a b c : ℚ) - (cross_product a b d : ℚ)))) = 0 := by
  rw [crossQ_interp]
  have hne : (cross_product a b c : ℚ) - (cross_product a b d : ℚ) ≠ 0 := by
    intro hh
    apply h
    have : (cross_product a b c : ℚ) = (cross_product a b d : ℚ) := by linarith
    exact_mod_cast this
  field_simp
  ring

theorem vertical_x_eq {a b c : Point} (hx : a.x = b.x) (hay : a.y ≠ b.y)
    (h1 : cross_product a b c = 0) : c.x = a.x := by
  unfold cross_product at h1
  have hbx : b.x - a.x = 0 := by omega
  have key : (b.y - a.y) * (c.x - a.x) = 0 := by
    linear_combination (c.y - a.y) * hbx - h1
  rcases mul_eq_zero.mp key with h | h
  · exact absurd (by omega : a.y = b.y) hay
  · omega

theorem nonvertical_y_eq {a b c d : Point} (hx : a.x ≠ b.x)
    (h1 : cross_product a b c = 0) (h2 : cross_product a b d = 0)
    (hcd : c.x = d.x) : c.y = d.y := by
  unfold cross_product at h1 h2
  have hc0 : c.x - d.x = 0 := by omega
  have key : (b.x - a.x) * (c.y - d.y) = 0 := by
    linear_combination h1 - h2 + (b.y - a.y) * hc0
  rcases mul_eq_zero.mp key with h | h
  · exact absurd (by omega : a.x = b.x) hx
  · omega

theorem collinear_trans {a c b d : Point} (hac : ¬(a.x = c.x ∧ a.y = c.y))
    (h1 : cross_product a c b = 0) (h2 : cross_product a c d = 0) :
    cross_product a b d = 0 := by
  unfold cross_product at h1 h2 ⊢
  have keyx : (c.x - a.x) * ((b.x - a.x) * (d.y - a.y) - (b.y - a.y) * (d.x - a.x)) = 0 := by
    linear_combination (b.x - a.x) * h2 - (d.x - a.x) * h1
  have keyy : (c.y - a.y) * ((b.x - a.x) * (d.y - a.y) - (b.y - a.y) * (d.x - a.x)) = 0 := by
    linear_combination (b.y - a.y) * h2 - (d.y - a.y) * h1
  by_cases hx : a.x = c.x
  · have hy : a.y ≠ c.y := fun h => hac ⟨hx, h⟩
    rcases mul_eq_zero.mp keyy with h | h
    · exact absurd (by omega : a.y = c.y) hy
    · exact h
  · rcases mul_eq_zero.mp keyx with h | h
    · exact absurd (by omega : a.x = c.x) hx
    · exact h

theorem crossQ_transfer {a b c d : Point} {p : ℚ × ℚ}
    (hab : ¬(a.x = b.x ∧ a.y = b.y))
    (h1 : cross_product a b c = 0) (h2 : cross_product a b d = 0)
    (hp : crossQ a b p = 0) : crossQ c d p = 0 := by
  have h1q : ((b.x : ℚ) - a.x) * ((c.y : ℚ) - a.y) -
      ((b.y : ℚ) - a.y) * ((c.x : ℚ) - a.x) = 0 := by
    have := h1
    unfold cross_product at this
    exact_mod_cast congrArg (fun z : ℤ => (z : ℚ)) this
  have h2q : ((b.x : ℚ) - a.x) * ((d.y : ℚ) - a.y) -
      ((b.y : ℚ) - a.y) * ((d.x : ℚ) - a.x) = 0 := by
    have := h2
    unfold cross_product at this
    exact_mod_cast congrArg (fun z : ℤ => (z : ℚ)) this
  unfold crossQ at hp ⊢
  have keyx : ((b.x : ℚ) - a.x) *
      (((d.x : ℚ) - c.x) * (p.2 - (c.y : ℚ)) - ((d.y : ℚ) - c.y) * (p.1 - (c.x : ℚ))) = 0 := by
    linear_combination ((d.x : ℚ) - c.x) * hp - ((d.x : ℚ) - c.x) * h1q -
      (p.1 - (c.x : ℚ)) * h2q + (p.1 - (c.x : ℚ)) * h1q
  have keyy : ((b.y : ℚ) - a.y) *
      (((d.x : ℚ) - c.x) * (p.2 - (c.y : ℚ)) - ((d.y : ℚ) - c.y) * (p.1 - (c.x : ℚ))) = 0 := by
    linear_combination ((d.y : ℚ) - c.y) * hp - ((d.y : ℚ) - c.y) * h1q -
      (p.2 - (c.y : ℚ)) * h2q + (p.2 - (c.y : ℚ)) * h1q
  by_cases hx : a.x = b.x
  · have hy : a.y ≠ b.y := fun h => hab ⟨hx, h⟩
    rcases mul_eq_zero.mp keyy with h | h
    · exfalso
      apply hy
      have : ((b.y : ℚ)) = ((a.y : ℚ)) := by linarith [sub_eq_zero.mp h]
      exact_mod_cast this.symm
    · exact h
  · rcases mul_eq_zero.mp keyx with h | h
    · exfalso
      apply hx
      have : ((b.x : ℚ)) = ((a.x : ℚ)) := by linarith [sub_eq_zero.mp h]
      exact_mod_cast this.symm
    · exact h

theorem collinear_box_share {a b c d : Point}
    (hab : ¬(a.x = b.x ∧ a.y = b.y))
    (h1 : cross_product a b c = 0) (h2 : cross_product a b d = 0)
    (b1 : min c.x d.x ≤ max a.x b.x) (b2 : min a.x b.x ≤ max c.x d.x)
    (b3 : min c.y d.y ≤ max a.y b.y) (b4 : min a.y b.y ≤ max c.y d.y) :
    segsShare a b c d := by
  by_cases hcd : c.x = d.x ∧ c.y = d.y
  · refine ⟨ptQ c, ?_, onSegQ_ptQ_left c d⟩
    refine onSegQ_of_cross_bbox ?_ ?_ ?_ ?_ ?_
    · rw [crossQ_ptQ]; exact_mod_cast h1
    · show min (a.x : ℚ) (b.x : ℚ) ≤ (ptQ c).1
      unfold ptQ; simp only
      have h : min a.x b.x ≤ c.x := by omega
      exact_mod_cast h
    · show (ptQ c).1 ≤ max (a.x : ℚ) (b.x : ℚ)
      unfold ptQ; simp only
      have h : c.x ≤ max a.x b.x := by omega
      exact_mod_cast h
    · show min (a.y : ℚ) (b.y : ℚ) ≤ (ptQ c).2
      unfold ptQ; simp only
      have h : min a.y b.y ≤ c.y := by omega
      exact_mod_cast h
    · show (ptQ c).2 ≤ max (a.y : ℚ) (b.y : ℚ)
      unfold ptQ; simp only
      have h : c.y ≤ max a.y b.y := by omega
      exact_mod_cast h
  · by_cases hx : a.x = b.x
    · have hay : a.y ≠ b.y := fun h => hab ⟨hx, h⟩
      have hcx : c.x = a.x := vertical_x_eq hx hay h1
      have hdx : d.x = a.x := vertical_x_eq hx hay h2
      have hcy_dy : c.y ≠ d.y := fun h => hcd ⟨by omega, h⟩
      refine ⟨((a.x : ℚ), max (min (a.y : ℚ) (b.y : ℚ)) (min (c.y : ℚ) (d.y : ℚ))), ?_, ?_⟩
      · refine onSegQ_vertical hx hay rfl (le_max_left _ _) ?_
        refine max_le min_le_max ?_
        have h : min c.y d.y ≤ max a.y b.y := b3
        exact_mod_cast h
      · refine onSegQ_vertical (by omega : c.x = d.x) hcy_dy ?_ (le_max_right _ _) ?_
        · show ((a.x : ℚ)) = (c.x : ℚ)
          exact_mod_cast (by omega : a.x = c.x)
        · refine max_le ?_ min_le_max
          have h : min a.y b.y ≤ max c.y d.y := b4
          exact_mod_cast h
    · have hcd_x : c.x ≠ d.x := by
        intro h
        exact hcd ⟨h, nonvertical_y_eq hx h1 h2 h⟩
      have hbax : (b.x : ℚ) - (a.x : ℚ) ≠ 0 := by
        intro h
        apply hx
        have hb := sub_eq_zero.mp h
        exact_mod_cast hb.symm
      have hcross : crossQ a b
          ((max (min (a.x : ℚ) (b.x : ℚ)) (min (c.x : ℚ) (d.x : ℚ))),
           ((a.y : ℚ) + (max (min (a.x : ℚ) (b.x : ℚ)) (min (c.x : ℚ) (d.x : ℚ)) - (a.x : ℚ)) *
             ((b.y : ℚ) - (a.y : ℚ)) / ((b.x : ℚ) - (a.x : ℚ)))) = 0 := by
        unfold crossQ
        simp only
        field_simp
        ring
      refine ⟨((max (min (a.x : ℚ) (b.x : ℚ)) (min (c.x : ℚ) (d.x : ℚ))),
           ((a.y : ℚ) + (max (min (a.x : ℚ) (b.x : ℚ)) (min (c.x : ℚ) (d.x : ℚ)) - (a.x : ℚ)) *
             ((b.y : ℚ) - (a.y : ℚ)) / ((b.x : ℚ) - (a.x : ℚ)))), ?_, ?_⟩
      · refine onSegQ_nonvertical hx hcross (le_max_left _ _) ?_
        refine max_le min_le_max ?_
        have h : min c.x d.x ≤ max a.x b.x := b1
        exact_mod_cast h
      · refine onSegQ_nonvertical hcd_x ?_ (le_max_right _ _) ?_
        · exact crossQ_transfer hab h1 h2 hcross
        · refine max_le ?_ min_le_max
          have h : min a.x b.x ≤ max c.x d.x := b2
          exact_mod_cast h

theorem zc_main {a b c d : Point}
    (h1 : cross_product a b c = 0) (h3 : cross_product c d a = 0)
    (b1 : min c.x d.x ≤ max a.x b.x) (b2 : min a.x b.x ≤ max c.x d.x)
    (b3 : min c.y d.y ≤ max a.y b.y) (b4 : min a.y b.y ≤ max c.y d.y) :
    segsShare a b c d := by
  by_cases hab : a.x = b.x ∧ a.y = b.y
  · refine ⟨ptQ a, onSegQ_ptQ_left a b, ?_⟩
    refine onSegQ_of_cross_bbox ?_ ?_ ?_ ?_ ?_
    · rw [crossQ_ptQ]; exact_mod_cast h3
    · show min (c.x : ℚ) (d.x : ℚ) ≤ (ptQ a).1
      unfold ptQ; simp only
      have h : min c.x d.x ≤ a.x := by omega
      exact_mod_cast h
    · show (ptQ a).1 ≤ max (c.x : ℚ) (d.x : ℚ)
      unfold ptQ; simp only
      have h : a.x ≤ max c.x d.x := by omega
      exact_mod_cast h
    · show min (c.y : ℚ) (d.y : ℚ) ≤ (ptQ a).2
      unfold ptQ; simp only
      have h : min c.y d.y ≤ a.y := by omega
      exact_mod_cast h
    · show (ptQ a).2 ≤ max (c.y : ℚ) (d.y : ℚ)
      unfold ptQ; simp only
      have h : a.y ≤ max c.y d.y := by omega
      exact_mod_cast h
  · by_cases hac : a.x = c.x ∧ a.y = c.y
    · refine ⟨ptQ a, onSegQ_ptQ_left a b, ?_⟩
      have heq : ptQ a = ptQ c := by unfold ptQ; rw [hac.1, hac.2]
      rw [heq]
      exact onSegQ_ptQ_left c d
    · have h1' : cross_product a c b = 0 := by
        have e := cross_swap_last a b c
        omega
      have h3' : cross_product a c d = 0 := by
        have e1 := cross_cyclic c d a
        have e2 := cross_cyclic d a c
        omega
      have habd : cross_product a b d = 0 := collinear_trans hac h1' h3'
      exact collinear_box_share hab h1 habd b1 b2 b3 b4

theorem zc_cross {a b c d : Point}
    (h1 : cross_product a b c = 0)
    (h34 : cross_product c d a * cross_product c d b < 0) : segsShare a b c d := by
  have hne : cross_product c d a ≠ cross_product c d b := by
    intro h; rw [h] at h34; nlinarith
  have hopp : ((cross_product c d a : ℚ)) * ((cross_product c d b : ℚ)) < 0 := by
    exact_mod_cast h34
  obtain ⟨t0, t1⟩ := ratio01_of_opp hopp
  have hs_ab : onSegQ a b (interpQ a b ((cross_product c d a : ℚ) /
      ((cross_product c d a : ℚ) - (cross_product c d b : ℚ)))) := by
    exact ⟨_, t0, t1, rfl⟩
  have hs_cd_line : crossQ c d (interpQ a b ((cross_product c d a : ℚ) /
      ((cross_product c d a : ℚ) - (cross_product c d b : ℚ)))) = 0 :=
    interp_on_line hne
  have hpar : cross_product a b c ≠ cross_product a b d := by
    intro heq
    apply hne
    unfold cross_product at heq ⊢
    linear_combination -heq
  have hc_ab : crossQ a b (ptQ c) = 0 := by rw [crossQ_ptQ]; exact_mod_cast h1
  have hc_cd : crossQ c d (ptQ c) = 0 := by
    rw [crossQ_ptQ]
    have h : cross_product c d c = 0 := by unfold cross_product; ring
    exact_mod_cast h
  have hab_line : crossQ a b (interpQ a b ((cross_product c d a : ℚ) /
      ((cross_product c d a : ℚ) - (cross_product c d b : ℚ)))) = 0 :=
    onSegQ_cross _ _ _ hs_ab
  have heqp : ptQ c = interpQ a b ((cross_product c d a : ℚ) /
      ((cross_product c d a : ℚ) - (cross_product c d b : ℚ))) :=
    line_intersection_unique hpar hc_ab hc_cd hab_line hs_cd_line
  refine ⟨ptQ c, ?_, onSegQ_ptQ_left c d⟩
  rw [heqp]
  exact hs_ab

theorem cross_swap_first (o a b : Point) : cross_product o a b = -cross_product a o b := by
  unfold cross_product; ring

theorem proper_cross {a b c d : Point}
    (h12 : cross_product a b c * cross_product a b d < 0)
    (h34 : cross_product c d a * cross_product c d b < 0) : segsShare a b c d := by
  have hne12 : cross_product a b c ≠ cross_product a b d := by
    intro h; rw [h] at h12; nlinarith
  have hne34 : cross_product c d a ≠ cross_product c d b := by
    intro h; rw [h] at h34; nlinarith
  have hopp12 : ((cross_product a b c : ℚ)) * ((cross_product a b d : ℚ)) < 0 := by
    exact_mod_cast h12
  have hopp34 : ((cross_product c d a : ℚ)) * ((cross_product c d b : ℚ)) < 0 := by
    exact_mod_cast h34
  obtain ⟨s0, s1⟩ := ratio01_of_opp hopp12
  obtain ⟨u0, u1⟩ := ratio01_of_opp hopp34
  have hs_cd : onSegQ c d (interpQ c d ((cross_product a b c : ℚ) /
      ((cross_product a b c : ℚ) - (cross_product a b d : ℚ)))) := ⟨_, s0, s1, rfl⟩
  have hs_ab_line : crossQ a b (interpQ c d ((cross_product a b c : ℚ) /
      ((cross_product a b c : ℚ) - (cross_product a b d : ℚ)))) = 0 :=
    interp_on_line hne12
  have hs2_ab : onSegQ a b (interpQ a b ((cross_product c d a : ℚ) /
      ((cross_product c d a : ℚ) - (cross_product c d b : ℚ)))) := ⟨_, u0, u1, rfl⟩
  have hs2_cd_line : crossQ c d (interpQ a b ((cross_product c d a : ℚ) /
      ((cross_product c d a : ℚ) - (cross_product c d b : ℚ)))) = 0 :=
    interp_on_line hne34
  have h_s_cd_line : crossQ c d (interpQ c d ((cross_product a b c : ℚ) /
      ((cross_product a b c : ℚ) - (cross_product a b d : ℚ)))) = 0 :=
    onSegQ_cross _ _ _ hs_cd
  have h_s2_ab_line : crossQ a b (interpQ a b ((cross_product c d a : ℚ) /
      ((cross_product c d a : ℚ) - (cross_product c d b : ℚ)))) = 0 :=
    onSegQ_cross _ _ _ hs2_ab
  have heq := line_intersection_unique hne12 h_s2_ab_line hs2_cd_line hs_ab_line h_s_cd_line
  refine ⟨interpQ a b ((cross_product c d a : ℚ) /
      ((cross_product c d a : ℚ) - (cross_product c d b : ℚ))), hs2_ab, ?_⟩
  rw [heq]
  exact hs_cd

/-- C2 confirmed: the source's `segments_intersect` (bounding-box rejection
plus the inclusive two-orientation test, zero cross products counting as
contact) returns true exactly when the closed segments `ab` and `cd` share at
least one point. -/
theorem C2_segments_intersect_iff_share (a b c d : Point) :
    segments_intersect a b c d = true ↔ segsShare a b c d := by
  rw [segments_intersect_iff]
  constructor
  · rintro ⟨⟨b1, b2, b3, b4⟩, hc1, hc2⟩
    by_cases h1 : cross_product a b c = 0
    · rcases hc2 with ⟨h3p, h4n⟩ | ⟨h3n, h4p⟩ | h3 | h4
      · exact zc_cross h1 (mul_neg_of_pos_of_neg h3p h4n)
      · exact zc_cross h1 (mul_neg_of_neg_of_pos h3n h4p)
      · exact zc_main h1 h3 b1 b2 b3 b4
      · refine segsShare_symm_ab (zc_main ?_ h4 (by omega) (by omega) (by omega) (by omega))
        have e1 := cross_cyclic b a c
        have e2 := cross_swap_last a c b
        have e3 := cross_cyclic a b c
        omega
    · by_cases h2 : cross_product a b d = 0
      · rcases hc2 with ⟨h3p, h4n⟩ | ⟨h3n, h4p⟩ | h3 | h4
        · refine segsShare_symm_cd (zc_cross h2 ?_)
          have e3 := cross_swap_first c d a
          have e4 := cross_swap_first c d b
          nlinarith
        · refine segsShare_symm_cd (zc_cross h2 ?_)
          have e3 := cross_swap_first c d a
          have e4 := cross_swap_first c d b
          nlinarith
        · refine segsShare_symm_cd (zc_main h2 ?_ (by omega) (by omega) (by omega) (by omega))
          have e3 := cross_swap_first c d a
          omega
        · refine segsShare_symm_ab (segsShare_symm_cd (zc_main ?_ ?_
            (by omega) (by omega) (by omega) (by omega)))
          · have e1 := cross_cyclic b a d
            have e2 := cross_swap_last a d b
            have e3 := cross_cyclic a b d
            omega
          · have e4 := cross_swap_first c d b
            omega
      · have h12 : cross_product a b c * cross_product a b d < 0 := by
          rcases hc1 with ⟨hp, hn⟩ | ⟨hn, hp⟩ | h | h
          · exact mul_neg_of_pos_of_neg hp hn
          · exact mul_neg_of_neg_of_pos hn hp
          · exact absurd h h1
          · exact absurd h h2
        by_cases h3 : cross_product c d a = 0
        · exact segsShare_symm_pairs (zc_cross h3 h12)
        · by_cases h4 : cross_product c d b = 0
          · refine segsShare_symm_ab (segsShare_symm_pairs (zc_cross h4 ?_))
            have f1 : cross_product b a c = -cross_product a b c := by
              have e1 := cross_cyclic b a c
              have e2 := cross_swap_last a c b
              omega
            have f2 : cross_product b a d = -cross_product a b d := by
              have e4 := cross_cyclic b a d
              have e5 := cross_swap_last a d b
              omega
            rw [f1, f2, neg_mul_neg]
            exact h12
          · have h34 : cross_product c d a * cross_product c d b < 0 := by
              rcases hc2 with ⟨hp, hn⟩ | ⟨hn, hp⟩ | h | h
              · exact mul_neg_of_pos_of_neg hp hn
              · exact mul_neg_of_neg_of_pos hn hp
              · exact absurd h h3
              · exact absurd h h4
            exact proper_cross h12 h34
  · rintro ⟨p, hab, hcd⟩
    have e1 := onSegQ_bbox a b p hab
    have e2 := onSegQ_bbox c d p hcd
    have hcp_ab : crossQ a b p = 0 := onSegQ_cross _ _ _ hab
    have hcp_cd : crossQ c d p = 0 := onSegQ_cross _ _ _ hcd
    refine ⟨⟨?_, ?_, ?_, ?_⟩, ?_, ?_⟩
    · exact_mod_cast le_trans e2.1 e1.2.1
    · exact_mod_cast le_trans e1.1 e2.2.1
    · exact_mod_cast le_trans e2.2.2.1 e1.2.2.2
    · exact_mod_cast le_trans e1.2.2.1 e2.2.2.2
    · have hnotpos : ¬(cross_product a b c > 0 ∧ cross_product a b d > 0) := by
        rintro ⟨hcp, hdp⟩
        obtain ⟨t, t0, t1, rfl⟩ := hcd
        rw [crossQ_interp] at hcp_ab
        have c1 : (0 : ℚ) < (cross_product a b c : ℚ) := by exact_mod_cast hcp
        have c2 : (0 : ℚ) < (cross_product a b d : ℚ) := by exact_mod_cast hdp
        nlinarith [mul_nonneg t0 c2.le, mul_nonneg (sub_nonneg.mpr t1) c1.le]
      have hnotneg : ¬(cross_product a b c < 0 ∧ cross_product a b d < 0) := by
        rintro ⟨hcp, hdp⟩
        obtain ⟨t, t0, t1, rfl⟩ := hcd
        rw [crossQ_interp] at hcp_ab
        have c1 : (cross_product a b c : ℚ) < 0 := by exact_mod_cast hcp
        have c2 : (cross_product a b d : ℚ) < 0 := by exact_mod_cast hdp
        nlinarith [mul_nonneg t0 (neg_nonneg.mpr c2.le), mul_nonneg (sub_nonneg.mpr t1) (neg_nonneg.mpr c1.le)]
      omega
    · have hnotpos : ¬(cross_product c d a > 0 ∧ cross_product c d b > 0) := by
        rintro ⟨hcp, hdp⟩
        obtain ⟨t, t0, t1, rfl⟩ := hab
        rw [crossQ_interp] at hcp_cd
        have c1 : (0 : ℚ) < (cross_product c d a : ℚ) := by exact_mod_cast hcp
        have c2 : (0 : ℚ) < (cross_product c d b : ℚ) := by exact_mod_cast hdp
        nlinarith [mul_nonneg t0 c2.le, mul_nonneg (sub_nonneg.mpr t1) c1.le]
      have hnotneg : ¬(cross_product c d a < 0 ∧ cross_product c d b < 0) := by
        rintro ⟨hcp, hdp⟩
        obtain ⟨t, t0, t1, rfl⟩ := hab
        rw [crossQ_interp] at hcp_cd
        have c1 : (cross_product c d a : ℚ) < 0 := by exact_mod_cast hcp
        have c2 : (cross_product c d b : ℚ) < 0 := by exact_mod_cast hdp
        nlinarith [mul_nonneg t0 (neg_nonneg.mpr c2.le), mul_nonneg (sub_nonneg.mpr t1) (neg_nonneg.mpr c1.le)]
      omega

theorem filter_length_mono {α : Type} (l : List α) (p q : α → Bool)
    (hpq : ∀ x ∈ l, p x = true → q x = true) :
    (l.filter p).length ≤ (l.filter q).length := by
  induction l with
  | nil => simp
  | cons a as ih =>
    have ih' := ih (fun z hz => hpq z (List.mem_cons_of_mem _ hz))
    cases hpa : p a
    · cases hqa : q a
      · simp only [List.filter_cons, hpa, hqa]
        simpa using ih'
      · simp only [List.filter_cons, hpa, hqa]
        simp only [Bool.false_eq_true, if_false, if_true, List.length_cons]
        omega
    · have hqa := hpq a (List.mem_cons_self a as) hpa
      simp only [List.filter_cons, hpa, hqa]
      simp only [if_true, List.length_cons]
      omega

theorem filter_length_lt {α : Type} (l : List α) (p q : α → Bool)
    (hpq : ∀ x ∈ l, p x = true → q x = true)
    (x : α) (hx : x ∈ l) (hqx : q x = true) (hpx : p x = false) :
    (l.filter p).length < (l.filter q).length := by
  induction l with
  | nil => cases hx
  | cons a as ih =>
    have hmono := filter_length_mono as p q (fun z hz => hpq z (List.mem_cons_of_mem _ hz))
    rcases List.mem_cons.mp hx with rfl | hx'
    · simp only [List.filter_cons, hpx, hqx]
      simp only [Bool.false_eq_true, if_false, if_true, List.length_cons]
      omega
    · have ih' := ih (fun z hz => hpq z (List.mem_cons_of_mem _ hz)) hx'
      cases hpa : p a
      · cases hqa : q a
        · simp only [List.filter_cons, hpa, hqa]
          simpa using ih'
        · simp only [List.filter_cons, hpa, hqa]
          simp only [Bool.false_eq_true, if_false, if_true, List.length_cons]
          omega
      · have hqa := hpq a (List.mem_cons_self a as) hpa
        simp only [List.filter_cons, hpa, hqa]
        simp only [if_true, List.length_cons]
        omega

theorem climb_true_succ (poly : List Point) (A B : Point) (f curr : Nat) :
    climb poly A B true (f + 1) curr =
      (if dotAB A B (getP poly ((curr + 1) % poly.length)) >
          dotAB A B (getP poly curr) then
        climb poly A B true f ((curr + 1) % poly.length)
      else if dotAB A B (getP poly ((curr + poly.length - 1) % poly.length)) >
          dotAB A B (getP poly curr) then
        climb poly A B true f ((curr + poly.length - 1) % poly.length)
      else curr) := rfl

theorem climb_false_succ (poly : List Point) (A B : Point) (f curr : Nat) :
    climb poly A B false (f + 1) curr =
      (if dotAB A B (getP poly ((curr + 1) % poly.length)) <
          dotAB A B (getP poly curr) then
        climb poly A B false f ((curr + 1) % poly.length)
      else if dotAB A B (getP poly ((curr + poly.length - 1) % poly.length)) <
          dotAB A B (getP poly curr) then
        climb poly A B false f ((curr + poly.length - 1) % poly.length)
      else curr) := rfl

theorem climb_localmax (poly : List Point) (A B : Point) :
    ∀ (fuel curr : Nat), curr < poly.length →
    ((List.range poly.length).filter
      (fun i => decide (dotAB A B (getP poly curr) < dotAB A B (getP poly i)))).length
        < fuel →
    dotAB A B (getP poly ((climb poly A B true fuel curr + 1) % poly.length)) ≤
      dotAB A B (getP poly (climb poly A B true fuel curr)) ∧
    dotAB A B (getP poly
        ((climb poly A B true fuel curr + poly.length - 1) % poly.length)) ≤
      dotAB A B (getP poly (climb poly A B true fuel curr)) := by
  intro fuel
  induction fuel with
  | zero => intro curr _ hf; exact absurd hf (Nat.not_lt_zero _)
  | succ f ih =>
    intro curr hc hf
    have hn : 0 < poly.length := by omega
    rw [climb_true_succ]
    split
    · rename_i hgt
      apply ih _ (Nat.mod_lt _ hn)
      have hlt := filter_length_lt (List.range poly.length)
        (fun i => decide (dotAB A B (getP poly ((curr + 1) % poly.length)) <
          dotAB A B (getP poly i)))
        (fun i => decide (dotAB A B (getP poly curr) < dotAB A B (getP poly i)))
        (fun x _ hx => by
          simp only [decide_eq_true_eq] at hx ⊢
          omega)
        ((curr + 1) % poly.length)
        (List.mem_range.mpr (Nat.mod_lt _ hn))
        (by simp only [decide_eq_true_eq]; omega)
        (by simp only [decide_eq_false_iff_not]; omega)
      omega
    · split
      · rename_i hng hgt
        apply ih _ (Nat.mod_lt _ hn)
        have hlt := filter_length_lt (List.range poly.length)
          (fun i => decide (dotAB A B (getP poly ((curr + poly.length - 1) % poly.length)) <
            dotAB A B (getP poly i)))
          (fun i => decide (dotAB A B (getP poly curr) < dotAB A B (getP poly i)))
          (fun x _ hx => by
            simp only [decide_eq_true_eq] at hx ⊢
            omega)
          ((curr + poly.length - 1) % poly.length)
          (List.mem_range.mpr (Nat.mod_lt _ hn))
          (by simp only [decide_eq_true_eq]; omega)
          (by simp only [decide_eq_false_iff_not]; omega)
        omega
      · rename_i hng hng2
        exact ⟨by omega, by omega⟩

theorem climb_localmin (poly : List Point) (A B : Point) :
    ∀ (fuel curr : Nat), curr < poly.length →
    ((List.range poly.length).filter
      (fun i => decide (dotAB A B (getP poly i) < dotAB A B (getP poly curr)))).length
        < fuel →
    dotAB A B (getP poly (climb poly A B false fuel curr)) ≤
      dotAB A B (getP poly ((climb poly A B false fuel curr + 1) % poly.length)) ∧
    dotAB A B (getP poly (climb poly A B false fuel curr)) ≤
      dotAB A B (getP poly
        ((climb poly A B false fuel curr + poly.length - 1) % poly.length)) := by
  intro fuel
  induction fuel with
  | zero => intro curr _ hf; exact absurd hf (Nat.not_lt_zero _)
  | succ f ih =>
    intro curr hc hf
    have hn : 0 < poly.length := by omega
    rw [climb_false_succ]
    split
    · rename_i hgt
      apply ih _ (Nat.mod_lt _ hn)
      have hlt := filter_length_lt (List.range poly.length)
        (fun i => decide (dotAB A B (getP poly i) <
          dotAB A B (getP poly ((curr + 1) % poly.length))))
        (fun i => decide (dotAB A B (getP poly i) < dotAB A B (getP poly curr)))
        (fun x _ hx => by
          simp only [decide_eq_true_eq] at hx ⊢
          omega)
        ((curr + 1) % poly.length)
        (List.mem_range.mpr (Nat.mod_lt _ hn))
        (by simp only [decide_eq_true_eq]; omega)
        (by simp only [decide_eq_false_iff_not]; omega)
      omega
    · split
      · rename_i hng hgt
        apply ih _ (Nat.mod_lt _ hn)
        have hlt := filter_length_lt (List.range poly.length)
          (fun i => decide (dotAB A B (getP poly i) <
            dotAB A B (getP poly ((curr + poly.length - 1) % poly.length))))
          (fun i => decide (dotAB A B (getP poly i) < dotAB A B (getP poly curr)))
          (fun x _ hx => by
            simp only [decide_eq_true_eq] at hx ⊢
            omega)
          ((curr + poly.length - 1) % poly.length)
          (List.mem_range.mpr (Nat.mod_lt _ hn))
          (by simp only [decide_eq_true_eq]; omega)
          (by simp only [decide_eq_false_iff_not]; omega)
        omega
      · rename_i hng hng2
        exact ⟨by omega, by omega⟩

theorem cyc3 {poly : List Point} (hconv : ConvexPosCCW poly) {u v w : Nat}
    (hu : u < poly.length) (hv : v < poly.length) (hw : w < poly.length)
    (hord : (u < v ∧ v < w) ∨ (v < w ∧ w < u) ∨ (w < u ∧ u < v)) :
    0 < cross_product (getP poly u) (getP poly v) (getP poly w) := by
  rcases hord with ⟨h1, h2⟩ | ⟨h1, h2⟩ | ⟨h1, h2⟩
  · exact hconv ⟨u, hu⟩ ⟨v, hv⟩ ⟨w, hw⟩ h1 h2
  · have h : 0 < cross_product (getP poly v) (getP poly w) (getP poly u) :=
      hconv ⟨v, hv⟩ ⟨w, hw⟩ ⟨u, hu⟩ h1 h2
    have e := cross_cyclic (getP poly u) (getP poly v) (getP poly w)
    omega
  · have h : 0 < cross_product (getP poly w) (getP poly u) (getP poly v) :=
      hconv ⟨w, hw⟩ ⟨u, hu⟩ ⟨v, hv⟩ h1 h2
    have e1 := cross_cyclic (getP poly u) (getP poly v) (getP poly w)
    have e2 := cross_cyclic (getP poly v) (getP poly w) (getP poly u)
    omega

theorem dot_cross_identity (A B P C N J : Point) :
    cross_product C P J * (dotAB A B N - dotAB A B C)
      - (dotAB A B J - dotAB A B C) * cross_product C P N
      - (dotAB A B P - dotAB A B C) * cross_product C N J = 0 := by
  unfold cross_product dotAB
  ring

theorem localmax_global {poly : List Point} {A B : Point}
    (hconv : ConvexPosCCW poly) (hn : 3 ≤ poly.length) {c : Nat} (hc : c < poly.length)
    (hnext : dotAB A B (getP poly ((c + 1) % poly.length)) ≤ dotAB A B (getP poly c))
    (hprev : dotAB A B (getP poly ((c + poly.length - 1) % poly.length)) ≤
      dotAB A B (getP poly c))
    {j : Nat} (hj : j < poly.length) :
    dotAB A B (getP poly j) ≤ dotAB A B (getP poly c) := by
  by_contra hlt0
  push_neg at hlt0
  have hNval : (c + 1) % poly.length = if c + 1 = poly.length then 0 else c + 1 := by
    split
    · rename_i h; rw [h, Nat.mod_self]
    · exact Nat.mod_eq_of_lt (by omega)
  have hPval : (c + poly.length - 1) % poly.length =
      if c = 0 then poly.length - 1 else c - 1 := by
    split
    · rename_i h
      subst h
      simp only [Nat.zero_add]
      exact Nat.mod_eq_of_lt (by omega)
    · rename_i h
      have he : c + poly.length - 1 = (c - 1) + poly.length := by omega
      rw [he, Nat.add_mod_right]
      exact Nat.mod_eq_of_lt (by omega)
  have hNlt : (c + 1) % poly.length < poly.length := Nat.mod_lt _ (by omega)
  have hPlt : (c + poly.length - 1) % poly.length < poly.length := Nat.mod_lt _ (by omega)
  have hjc : j ≠ c := by intro h; rw [h] at hlt0; omega
  have hjN : j ≠ (c + 1) % poly.length := by
    intro h; rw [← h] at hnext; omega
  have hjP : j ≠ (c + poly.length - 1) % poly.length := by
    intro h; rw [← h] at hprev; omega
  have hPv : (c + poly.length - 1) % poly.length =
      (if c = 0 then poly.length - 1 else c - 1) := hPval
  have hNv : (c + 1) % poly.length = (if c + 1 = poly.length then 0 else c + 1) := hNval
  have hPv2 : ((c = 0 ∧ (c + poly.length - 1) % poly.length = poly.length - 1) ∨
      (c ≠ 0 ∧ (c + poly.length - 1) % poly.length = c - 1)) := by
    by_cases h0 : c = 0
    · left; exact ⟨h0, by rw [hPv, if_pos h0]⟩
    · right; exact ⟨h0, by rw [hPv, if_neg h0]⟩
  have hNv2 : ((c + 1 = poly.length ∧ (c + 1) % poly.length = 0) ∨
      (c + 1 ≠ poly.length ∧ (c + 1) % poly.length = c + 1)) := by
    by_cases h0 : c + 1 = poly.length
    · left; exact ⟨h0, by rw [hNv, if_pos h0]⟩
    · right; exact ⟨h0, by rw [hNv, if_neg h0]⟩
  have X1 : 0 < cross_product (getP poly ((c + poly.length - 1) % poly.length))
      (getP poly c) (getP poly j) := by
    apply cyc3 hconv hPlt hc hj
    omega
  have X2 : 0 < cross_product (getP poly c) (getP poly ((c + 1) % poly.length))
      (getP poly j) := by
    apply cyc3 hconv hc hNlt hj
    omega
  have X3 : 0 < cross_product (getP poly ((c + poly.length - 1) % poly.length))
      (getP poly c) (getP poly ((c + 1) % poly.length)) := by
    apply cyc3 hconv hPlt hc hNlt
    omega
  have key := dot_cross_identity A B (getP poly ((c + poly.length - 1) % poly.length))
    (getP poly c) (getP poly ((c + 1) % poly.length)) (getP poly j)
  have s1 := cross_swap_first (getP poly ((c + poly.length - 1) % poly.length))
    (getP poly c) (getP poly j)
  have s2 := cross_swap_first (getP poly ((c + poly.length - 1) % poly.length))
    (getP poly c) (getP poly ((c + 1) % poly.length))
  have ha : cross_product (getP poly c)
      (getP poly ((c + poly.length - 1) % poly.length)) (getP poly j) < 0 := by omega
  have hg : cross_product (getP poly c)
      (getP poly ((c + poly.length - 1) % poly.length))
      (getP poly ((c + 1) % poly.length)) < 0 := by omega
  nlinarith [key, mul_nonneg
      (by omega : (0:ℤ) ≤ -cross_product (getP poly c)
        (getP poly ((c + poly.length - 1) % poly.length)) (getP poly j))
      (by omega : (0:ℤ) ≤ dotAB A B (getP poly c) -
        dotAB A B (getP poly ((c + 1) % poly.length))),
    mul_pos
      (by omega : (0:ℤ) < dotAB A B (getP poly j) - dotAB A B (getP poly c))
      (by omega : (0:ℤ) < -cross_product (getP poly c)
        (getP poly ((c + poly.length - 1) % poly.length))
        (getP poly ((c + 1) % poly.length))),
    mul_nonneg
      (by omega : (0:ℤ) ≤ dotAB A B (getP poly c) -
        dotAB A B (getP poly ((c + poly.length - 1) % poly.length)))
      (by omega : (0:ℤ) ≤ cross_product (getP poly c)
        (getP poly ((c + 1) % poly.length)) (getP poly j))]

theorem localmin_global {poly : List Point} {A B : Point}
    (hconv : ConvexPosCCW poly) (hn : 3 ≤ poly.length) {c : Nat} (hc : c < poly.length)
    (hnext : dotAB A B (getP poly c) ≤ dotAB A B (getP poly ((c + 1) % poly.length)))
    (hprev : dotAB A B (getP poly c) ≤
      dotAB A B (getP poly ((c + poly.length - 1) % poly.length)))
    {j : Nat} (hj : j < poly.length) :
    dotAB A B (getP poly c) ≤ dotAB A B (getP poly j) := by
  by_contra hlt0
  push_neg at hlt0
  have hNval : (c + 1) % poly.length = if c + 1 = poly.length then 0 else c + 1 := by
    split
    · rename_i h; rw [h, Nat.mod_self]
    · exact Nat.mod_eq_of_lt (by omega)
  have hPval : (c + poly.length - 1) % poly.length =
      if c = 0 then poly.length - 1 else c - 1 := by
    split
    · rename_i h
      subst h
      simp only [Nat.zero_add]
      exact Nat.mod_eq_of_lt (by omega)
    · rename_i h
      have he : c + poly.length - 1 = (c - 1) + poly.length := by omega
      rw [he, Nat.add_mod_right]
      exact Nat.mod_eq_of_lt (by omega)
  have hNlt : (c + 1) % poly.length < poly.length := Nat.mod_lt _ (by omega)
  have hPlt : (c + poly.length - 1) % poly.length < poly.length := Nat.mod_lt _ (by omega)
  have hjc : j ≠ c := by intro h; rw [h] at hlt0; omega
  have hjN : j ≠ (c + 1) % poly.length := by
    intro h; rw [← h] at hnext; omega
  have hjP : j ≠ (c + poly.length - 1) % poly.length := by
    intro h; rw [← h] at hprev; omega
  have hPv2 : ((c = 0 ∧ (c + poly.length - 1) % poly.length = poly.length - 1) ∨
      (c ≠ 0 ∧ (c + poly.length - 1) % poly.length = c - 1)) := by
    by_cases h0 : c = 0
    · left; exact ⟨h0, by rw [hPval, if_pos h0]⟩
    · right; exact ⟨h0, by rw [hPval, if_neg h0]⟩
  have hNv2 : ((c + 1 = poly.length ∧ (c + 1) % poly.length = 0) ∨
      (c + 1 ≠ poly.length ∧ (c + 1) % poly.length = c + 1)) := by
    by_cases h0 : c + 1 = poly.length
    · left; exact ⟨h0, by rw [hNval, if_pos h0]⟩
    · right; exact ⟨h0, by rw [hNval, if_neg h0]⟩
  have X1 : 0 < cross_product (getP poly ((c + poly.length - 1) % poly.length))
      (getP poly c) (getP poly j) := by
    apply cyc3 hconv hPlt hc hj
    omega
  have X2 : 0 < cross_product (getP poly c) (getP poly ((c + 1) % poly.length))
      (getP poly j) := by
    apply cyc3 hconv hc hNlt hj
    omega
  have X3 : 0 < cross_product (getP poly ((c + poly.length - 1) % poly.length))
      (getP poly c) (getP poly ((c + 1) % poly.length)) := by
    apply cyc3 hconv hPlt hc hNlt
    omega
  have key := dot_cross_identity A B (getP poly ((c + poly.length - 1) % poly.length))
    (getP poly c) (getP poly ((c + 1) % poly.length)) (getP poly j)
  have s1 := cross_swap_first (getP poly ((c + poly.length - 1) % poly.length))
    (getP poly c) (getP poly j)
  have s2 := cross_swap_first (getP poly ((c + poly.length - 1) % poly.length))
    (getP poly c) (getP poly ((c + 1) % poly.length))
  nlinarith [key, mul_nonneg
      (by omega : (0:ℤ) ≤ -cross_product (getP poly c)
        (getP poly ((c + poly.length - 1) % poly.length)) (getP poly j))
      (by omega : (0:ℤ) ≤ dotAB A B (getP poly ((c + 1) % poly.length)) -
        dotAB A B (getP poly c)),
    mul_pos
      (by omega : (0:ℤ) < dotAB A B (getP poly c) - dotAB A B (getP poly j))
      (by omega : (0:ℤ) < -cross_product (getP poly c)
        (getP poly ((c + poly.length - 1) % poly.length))
        (getP poly ((c + 1) % poly.length))),
    mul_nonneg
      (by omega : (0:ℤ) ≤ dotAB A B (getP poly ((c + poly.length - 1) % poly.length)) -
        dotAB A B (getP poly c))
      (by omega : (0:ℤ) ≤ cross_product (getP poly c)
        (getP poly ((c + 1) % poly.length)) (getP poly j))]

/-- C9 confirmed: on a strictly convex CCW polygon with at least 3 vertices,
the hill climb of the Hull-Intersection Locator returns a global optimum of
the perpendicular projection `dot`: `hill_climb_extreme(true)` attains the
maximum over all polygon vertices and `hill_climb_extreme(false)` the
minimum, for every segment direction `(A, B)`. -/
theorem C9_hill_climb_extreme_optimal (A B : Point) (poly : List Point)
    (hconv : ConvexPosCCW poly) (hn : 3 ≤ poly.length) :
    (∀ j, j < poly.length →
      dotAB A B (getP poly j) ≤
        dotAB A B (getP poly (hill_climb_extreme poly A B true))) ∧
    (∀ j, j < poly.length →
      dotAB A B (getP poly (hill_climb_extreme poly A B false)) ≤
        dotAB A B (getP poly j)) := by
  have hn0 : 0 < poly.length := by omega
  constructor
  · intro j hj
    have hs := sampleStart_lt poly A B true hn0
    have hcount : ((List.range poly.length).filter
        (fun i => decide (dotAB A B (getP poly (sampleStart poly A B true)) <
          dotAB A B (getP poly i)))).length < poly.length := by
      have h := filter_length_lt (List.range poly.length)
        (fun i => decide (dotAB A B (getP poly (sampleStart poly A B true)) <
          dotAB A B (getP poly i)))
        (fun _ => true)
        (fun x _ _ => rfl) (sampleStart poly A B true) (List.mem_range.mpr hs)
        rfl (decide_eq_false (lt_irrefl _))
      rwa [List.filter_true, List.length_range] at h
    have hloc := climb_localmax poly A B poly.length (sampleStart poly A B true)
      hs hcount
    exact localmax_global hconv hn
      (climb_lt poly A B true poly.length (sampleStart poly A B true) hs)
      hloc.1 hloc.2 hj
  · intro j hj
    have hs := sampleStart_lt poly A B false hn0
    have hcount : ((List.range poly.length).filter
        (fun i => decide (dotAB A B (getP poly i) <
          dotAB A B (getP poly (sampleStart poly A B false))))).length < poly.length := by
      have h := filter_length_lt (List.range poly.length)
        (fun i => decide (dotAB A B (getP poly i) <
          dotAB A B (getP poly (sampleStart poly A B false))))
        (fun _ => true)
        (fun x _ _ => rfl) (sampleStart poly A B false) (List.mem_range.mpr hs)
        rfl (decide_eq_false (lt_irrefl _))
      rwa [List.filter_true, List.length_range] at h
    have hloc := climb_localmin poly A B poly.length (sampleStart poly A B false)
      hs hcount
    exact localmin_global hconv hn
      (climb_lt poly A B false poly.length (sampleStart poly A B false) hs)
      hloc.1 hloc.2 hj

/-- C9 witness: the optimality statement instantiated on a concrete strictly
convex square and segment direction, at vertex index 2. -/
theorem C9_hill_climb_extreme_optimal_witness :
    dotAB aC9 bC9 (getP sqC9 2) ≤
      dotAB aC9 bC9 (getP sqC9 (hill_climb_extreme sqC9 aC9 bC9 true)) ∧
    dotAB aC9 bC9 (getP sqC9 (hill_climb_extreme sqC9 aC9 bC9 false)) ≤
      dotAB aC9 bC9 (getP sqC9 2) :=
  ⟨(C9_hill_climb_extreme_optimal aC9 bC9 sqC9 (by decide) (by decide)).1 2 (by decide),
   (C9_hill_climb_extreme_optimal aC9 bC9 sqC9 (by decide) (by decide)).2 2 (by decide)⟩

theorem lexLe_refl (a : Point) : lexLe a a = true := by
  simp [lexLe]

theorem lexLeP_x {a b : Point} (h : lexLeP a b) : a.x ≤ b.x := by
  simp only [lexLeP, lexLe, Bool.or_eq_true, beq_iff_eq, Bool.and_eq_true,
    decide_eq_true_eq] at h
  omega

theorem lexLeP_same_x {a b : Point} (h : lexLeP a b) (hx : a.x = b.x) :
    a.y ≤ b.y := by
  simp only [lexLeP, lexLe, Bool.or_eq_true, beq_iff_eq, Bool.and_eq_true,
    decide_eq_true_eq] at h
  omega

theorem lexLeP_antisymm {a b : Point} (h1 : lexLeP a b) (h2 : lexLeP b a) :
    a.x = b.x ∧ a.y = b.y := by
  simp only [lexLeP, lexLe, Bool.or_eq_true, beq_iff_eq, Bool.and_eq_true,
    decide_eq_true_eq] at h1 h2
  omega

theorem lexLtP_of_le_ne {a b : Point} (h : lexLeP a b)
    (hne : ¬(a.x = b.x ∧ a.y = b.y)) : lexLtP a b := by
  simp only [lexLeP, lexLe, Bool.or_eq_true, beq_iff_eq, Bool.and_eq_true,
    decide_eq_true_eq] at h
  simp only [lexLtP, lexLt, Bool.or_eq_true, beq_iff_eq, Bool.and_eq_true,
    decide_eq_true_eq]
  omega

theorem lexLtP_le {a b : Point} (h : lexLtP a b) : lexLeP a b := by
  simp only [lexLtP, lexLt, Bool.or_eq_true, beq_iff_eq, Bool.and_eq_true,
    decide_eq_true_eq] at h
  simp only [lexLeP, lexLe, Bool.or_eq_true, beq_iff_eq, Bool.and_eq_true,
    decide_eq_true_eq]
  omega

theorem lexLtP_x {a b : Point} (h : lexLtP a b) : a.x ≤ b.x := lexLeP_x (lexLtP_le h)

theorem lexLtP_ne {a b : Point} (h : lexLtP a b) : ¬(a.x = b.x ∧ a.y = b.y) := by
  simp only [lexLtP, lexLt, Bool.or_eq_true, beq_iff_eq, Bool.and_eq_true,
    decide_eq_true_eq] at h
  omega

theorem lexLtP_same_x {a b : Point} (h : lexLtP a b) (hx : a.x = b.x) :
    a.y < b.y := by
  simp only [lexLtP, lexLt, Bool.or_eq_true, beq_iff_eq, Bool.and_eq_true,
    decide_eq_true_eq] at h
  omega

/-- The cross product is blind to the `id` field: replacing the last argument
by a coordinate-equal point changes nothing. -/
theorem cross_congr₃ (o a : Point) {p q : Point} (hx : p.x = q.x)
    (hy : p.y = q.y) : cross_product o a p = cross_product o a q := by
  unfold cross_product; rw [hx, hy]

theorem cross_congr₂ (o : Point) {a b : Point} (p : Point) (hx : a.x = b.x)
    (hy : a.y = b.y) : cross_product o a p = cross_product o b p := by
  unfold cross_product; rw [hx, hy]

theorem cross_congr₁ {o o' : Point} (a p : Point) (hx : o.x = o'.x)
    (hy : o.y = o'.y) : cross_product o a p = cross_product o' a p := by
  unfold cross_product; rw [hx, hy]

theorem cross_last_self (o a : Point) : cross_product o a a = 0 := by
  unfold cross_product; ring

theorem cross_degenerate {o a p : Point} (hx : o.x = a.x) (hy : o.y = a.y) :
    cross_product o a p = 0 := by
  unfold cross_product; rw [hx, hy]; ring

-- negation transfer

theorem negP_x (p : Point) : (negP p).x = -p.x := rfl

theorem negP_y (p : Point) : (negP p).y = -p.y := rfl

theorem cross_neg3 (o a b : Point) :
    cross_product (negP o) (negP a) (negP b) = cross_product o a b := by
  simp only [cross_product, negP]; ring

theorem lexLeP_neg {a b : Point} : lexLeP (negP a) (negP b) ↔ lexLeP b a := by
  simp only [lexLeP, lexLe, negP, Bool.or_eq_true, beq_iff_eq, Bool.and_eq_true,
    decide_eq_true_eq]
  omega

theorem lexLtP_neg {a b : Point} : lexLtP (negP a) (negP b) ↔ lexLtP b a := by
  simp only [lexLtP, lexLt, negP, Bool.or_eq_true, beq_iff_eq, Bool.and_eq_true,
    decide_eq_true_eq]
  omega

theorem popStep_neg (p : Point) : ∀ st : List Point,
    popStep (negP p) (st.map negP) = (popStep p st).map negP := by
  intro st
  induction st with
  | nil => rfl
  | cons b t ih =>
    cases t with
    | nil => rfl
    | cons a rest =>
      simp only [List.map_cons, popStep, cross_neg3]
      by_cases h : cross_product a b p ≤ 0
      · simp only [if_pos h]
        simpa using ih
      · simp only [if_neg h, List.map_cons]

theorem chainFold_neg (l : List Point) : ∀ st : List Point,
    chainFold (st.map negP) (l.map negP) = (chainFold st l).map negP := by
  induction l with
  | nil => intro st; rfl
  | cons p rest ih =>
    intro st
    simp only [List.map_cons, chainFold, List.foldl_cons]
    have : negP p :: popStep (negP p) (st.map negP) = (p :: popStep p st).map negP := by
      rw [popStep_neg]; rfl
    rw [this]
    exact ih (p :: popStep p st)

theorem stackEdges_map_neg : ∀ st : List Point,
    stackEdges (st.map negP) = (stackEdges st).map (fun e => (negP e.1, negP e.2)) := by
  intro st
  induction st with
  | nil => rfl
  | cons b t ih =>
    cases t with
    | nil => rfl
    | cons a rest =>
      simp only [List.map_cons, stackEdges, List.map_cons] at ih ⊢
      rw [ih]

theorem Triples3_map_neg : ∀ st : List Point, Triples3 (st.map negP) ↔ Triples3 st := by
  intro st
  induction st with
  | nil => simp [Triples3]
  | cons w t ih =>
    cases t with
    | nil => simp [Triples3]
    | cons v t2 =>
      cases t2 with
      | nil => simp [Triples3]
      | cons u rest =>
        simp only [List.map_cons, Triples3, cross_neg3]
        constructor
        · rintro ⟨h1, h2⟩
          exact ⟨h1, by
            have := ih
            simp only [List.map_cons] at this
            exact this.mp h2⟩
        · rintro ⟨h1, h2⟩
          exact ⟨h1, by
            have := ih
            simp only [List.map_cons] at this
            exact this.mpr h2⟩

-- ===== popStep structural facts =====

theorem popStep_suffix (p : Point) : ∀ st : List Point, popStep p st <:+ st := by
  intro st
  induction st with
  | nil => exact List.suffix_rfl
  | cons b t ih =>
    cases t with
    | nil => exact List.suffix_rfl
    | cons a rest =>
      simp only [popStep]
      by_cases h : cross_product a b p ≤ 0
      · simp only [if_pos h]
        exact ih.trans (List.suffix_cons b (a :: rest))
      · simp only [if_neg h]
        exact List.suffix_rfl

theorem popStep_ne (p : Point) : ∀ st : List Point, st ≠ [] → popStep p st ≠ [] := by
  intro st
  induction st with
  | nil => intro h; exact absurd rfl h
  | cons b t ih =>
    intro _
    cases t with
    | nil => simp [popStep]
    | cons a rest =>
      simp only [popStep]
      by_cases h : cross_product a b p ≤ 0
      · simp only [if_pos h]
        exact ih (by simp)
      · simp [if_neg h]

theorem popStep_exit (p : Point) : ∀ st b a rest, popStep p st = b :: a :: rest →
    0 < cross_product a b p := by
  intro st
  induction st with
  | nil => intro b a rest h; simp [popStep] at h
  | cons b0 t ih =>
    intro b a rest h
    cases t with
    | nil => simp [popStep] at h
    | cons a0 rest0 =>
      simp only [popStep] at h
      by_cases hc : cross_product a0 b0 p ≤ 0
      · rw [if_pos hc] at h
        exact ih b a rest h
      · rw [if_neg hc] at h
        simp only [List.cons.injEq] at h
        obtain ⟨rfl, rfl, -⟩ := h
        omega

/-- When pops actually happened, the new stack top `a` had, in the old stack,
a direct upper neighbour `u` (the last point popped), with the failing
left-turn test `cross(a, u, p) <= 0`; the old stack decomposes around them. -/
theorem popStep_popped (p : Point) : ∀ st, popStep p st ≠ st →
    ∃ a u rest pre, popStep p st = a :: rest ∧ st = pre ++ u :: a :: rest ∧
      cross_product a u p ≤ 0 := by
  intro st
  induction st with
  | nil => intro h; exact absurd rfl h
  | cons b t ih =>
    intro hne
    cases t with
    | nil => exact absurd rfl hne
    | cons a rest =>
      simp only [popStep] at hne ⊢
      by_cases hc : cross_product a b p ≤ 0
      · rw [if_pos hc] at hne ⊢
        by_cases heq : popStep p (a :: rest) = a :: rest
        · exact ⟨a, b, rest, [], heq, rfl, hc⟩
        · obtain ⟨a', u', rest', pre', h1, h2, h3⟩ := ih heq
          exact ⟨a', u', rest', b :: pre', h1, by rw [List.cons_append, ← h2], h3⟩
      · rw [if_neg hc] at hne
        exact absurd rfl hne

-- ===== suffix transfer =====

theorem Triples3_tail : ∀ (x : Point) (t : List Point), Triples3 (x :: t) → Triples3 t := by
  intro x t h
  cases t with
  | nil => trivial
  | cons v t2 =>
    cases t2 with
    | nil => trivial
    | cons u rest =>
      cases rest with
      | nil => trivial
      | cons z r2 => exact h.2

theorem Triples3_suffix {s st : List Point} (hs : s <:+ st) (h : Triples3 st) :
    Triples3 s := by
  obtain ⟨pre, rfl⟩ := hs
  induction pre with
  | nil => simpa using h
  | cons x pre ih => exact ih (Triples3_tail x _ h)

theorem stackEdges_cons_subset (x : Point) (t : List Point) :
    stackEdges t ⊆ stackEdges (x :: t) := by
  cases t with
  | nil => simp [stackEdges]
  | cons a rest =>
    intro e he
    simp only [stackEdges]
    exact List.mem_cons_of_mem _ he

theorem stackEdges_suffix_subset {s st : List Point} (hs : s <:+ st) :
    stackEdges s ⊆ stackEdges st := by
  obtain ⟨pre, rfl⟩ := hs
  induction pre with
  | nil => simp
  | cons x pre ih => exact ih.trans (stackEdges_cons_subset x _)

theorem getLast?_suffix {s st : List Point} (hs : s <:+ st) (hne : s ≠ []) :
    s.getLast? = st.getLast? := by
  obtain ⟨pre, rfl⟩ := hs
  exact (List.getLast?_append_of_ne_nil pre hne).symm

/-- Adjacent pairs of a stack are exactly the `stackEdges`; the chain relation
holds across each of them. -/
theorem stackEdges_chain {S : Point → Point → Prop} : ∀ st : List Point,
    List.Chain' S st → ∀ a b : Point, (a, b) ∈ stackEdges st → S b a := by
  intro st
  induction st with
  | nil => intro _ a b h; simp [stackEdges] at h
  | cons x t ih =>
    intro hc a b hab
    cases t with
    | nil => simp [stackEdges] at hab
    | cons y rest =>
      simp only [stackEdges, List.mem_cons] at hab
      rcases hab with h | h
      · simp only [Prod.mk.injEq] at h
        obtain ⟨rfl, rfl⟩ := h
        exact (List.chain'_cons.mp hc).1
      · exact ih (List.chain'_cons.mp hc).2 a b h

theorem stackEdges_mem_of_decomp : ∀ (pre : List Point) (b a : Point) (l2 : List Point),
    (a, b) ∈ stackEdges (pre ++ b :: a :: l2) := by
  intro pre
  induction pre with
  | nil => intro b a l2; simp [stackEdges]
  | cons x pre ih =>
    intro b a l2
    rw [List.cons_append]
    exact stackEdges_cons_subset x _ (ih b a l2)

/-- Extract the strict-left-turn fact for any adjacent triple of a stack. -/
theorem triples3_extract : ∀ (pre : List Point) (w v u : Point) (l2 : List Point),
    Triples3 (pre ++ w :: v :: u :: l2) → 0 < cross_product u v w := by
  intro pre
  induction pre with
  | nil => intro w v u l2 h; exact h.1
  | cons x pre ih =>
    intro w v u l2 h
    exact ih w v u l2 (Triples3_tail x _ h)

-- ===== geometric step lemmas (support-line propagation) =====

/-- Left-side support step: a point `q` weakly left of the chain edge `(u, v)`
and not to the right of `v` stays weakly left of the steeper new edge
`(v, w)`, provided the turn `u -> v -> w` is strictly left and the walk is
x-monotone with `u <=_lex v`. -/
theorem cross_left_step {u v w q : Point}
    (h1 : 0 ≤ cross_product u v q) (h2 : 0 < cross_product u v w)
    (hq : q.x ≤ v.x) (hx1 : u.x ≤ v.x) (hx2 : v.x ≤ w.x)
    (hlex : u.x = v.x → u.y ≤ v.y) :
    0 ≤ cross_product v w q := by
  rcases lt_or_eq_of_le hx1 with hlt | heq
  · have key : (v.x - u.x) * cross_product v w q =
        (v.x - q.x) * cross_product u v w + (w.x - v.x) * cross_product u v q := by
      unfold cross_product; ring
    have t1 : 0 ≤ (v.x - q.x) * cross_product u v w :=
      mul_nonneg (by omega) (le_of_lt h2)
    have t2 : 0 ≤ (w.x - v.x) * cross_product u v q := mul_nonneg (by omega) h1
    have t3 : 0 ≤ (v.x - u.x) * cross_product v w q := by rw [key]; linarith
    exact nonneg_of_mul_nonneg_right t3 (by omega)
  · exfalso
    have hy : u.y ≤ v.y := hlex heq
    unfold cross_product at h2
    rw [← heq] at h2
    nlinarith [mul_nonneg (show (0:ℤ) ≤ v.y - u.y by omega)
      (show (0:ℤ) ≤ w.x - u.x by omega)]

/-- Right-side support step: after popping the edge `(a, u)` (the new point
`p` is weakly right of it), any processed `q` weakly left of `(a, u)` and
with `a.x <= q.x <= p.x` is weakly left of the new edge `(a, p)`.  Only the
non-vertical case is needed here; vertical popped edges are handled at the
call site. -/
theorem cross_right_step {a u p q : Point}
    (h1 : 0 ≤ cross_product a u q) (h2 : cross_product a u p ≤ 0)
    (hau : a.x < u.x) (hap : a.x ≤ p.x) (hqa : a.x ≤ q.x) :
    0 ≤ cross_product a p q := by
  have key : (u.x - a.x) * cross_product a p q =
      (p.x - a.x) * cross_product a u q - (q.x - a.x) * cross_product a u p := by
    unfold cross_product; ring
  have t1 : 0 ≤ (p.x - a.x) * cross_product a u q := mul_nonneg (by omega) h1
  have t2 : (q.x - a.x) * cross_product a u p ≤ 0 :=
    mul_nonpos_of_nonneg_of_nonpos (by omega) h2
  have t3 : 0 ≤ (u.x - a.x) * cross_product a p q := by rw [key]; linarith
  exact nonneg_of_mul_nonneg_right t3 (by omega)

/-- Backward support step: a point `q` weakly left of the chain edge `(a, b)`
and at least as far right as `a` is weakly left of the previous, flatter edge
`(c, a)`, provided the turn `c -> a -> b` is strictly left.  Non-vertical
case. -/
theorem cross_back_step {c a b q : Point}
    (h1 : 0 ≤ cross_product a b q) (h2 : 0 < cross_product c a b)
    (hca : c.x ≤ a.x) (hqa : a.x ≤ q.x) (hab : a.x < b.x) :
    0 ≤ cross_product c a q := by
  have key : (b.x - a.x) * cross_product c a q =
      (q.x - a.x) * cross_product c a b + (a.x - c.x) * cross_product a b q := by
    unfold cross_product; ring
  have t1 : 0 ≤ (q.x - a.x) * cross_product c a b := mul_nonneg (by omega) (le_of_lt h2)
  have t2 : 0 ≤ (a.x - c.x) * cross_product a b q := mul_nonneg (by omega) h1
  have t3 : 0 ≤ (b.x - a.x) * cross_product c a q := by rw [key]; linarith
  exact nonneg_of_mul_nonneg_right t3 (by omega)

/-- Back-propagation of the support property for a freshly pushed point `p`
(lexicographically maximal so far): being weakly left of the top edge of a
strictly increasing, strictly convex stack, it is weakly left of every edge. -/
theorem backprop (p : Point) : ∀ st : List Point, Triples3 st →
    List.Chain' (fun a b => lexLtP b a) st →
    (∀ v ∈ st, lexLeP v p) →
    (∀ b a rest, st = b :: a :: rest → 0 ≤ cross_product a b p) →
    ∀ e ∈ stackEdges st, 0 ≤ cross_product e.1 e.2 p := by
  intro st
  induction st with
  | nil => intro _ _ _ _ e he; simp [stackEdges] at he
  | cons b t ih =>
    intro htr hch hmem htop e he
    cases t with
    | nil => simp [stackEdges] at he
    | cons a rest =>
      simp only [stackEdges, List.mem_cons] at he
      rcases he with he | he
      · subst he
        exact htop b a rest rfl
      · refine ih (Triples3_tail b _ htr) (List.chain'_cons.mp hch).2
          (fun v hv => hmem v (List.mem_cons_of_mem b hv)) ?_ e he
        intro b' a' rest' hshape
        -- the new top fact for the tail: rest = a' :: rest' with b' = a
        obtain ⟨rfl, rfl⟩ : b' = a ∧ rest = a' :: rest' := by
          have := hshape
          simp only [List.cons.injEq] at this
          exact ⟨this.1.symm, this.2⟩
        have htrip : 0 < cross_product a' b' b := htr.1
        have htopf : 0 ≤ cross_product b' b p := htop b b' (a' :: rest') rfl
        have hba : lexLtP b' b := (List.chain'_cons.mp hch).1
        have hca : a'.x ≤ b'.x :=
          lexLtP_x ((List.chain'_cons.mp (List.chain'_cons.mp hch).2).1)
        have hbp : lexLeP b p := hmem b (List.mem_cons_self b _)
        have hap : lexLeP b' p := hmem b' (by simp)
        rcases lt_or_eq_of_le (lexLtP_x hba) with hlt | heqx
        · exact cross_back_step htopf htrip hca (lexLeP_x hap) hlt
        · -- vertical top edge (b', b): p is forced onto the same vertical line
          have hyy : b'.y < b.y := lexLtP_same_x hba heqx
          have hpxle : p.x ≤ b'.x := by
            by_contra hgt
            push_neg at hgt
            unfold cross_product at htopf
            rw [← heqx] at htopf
            nlinarith [mul_pos (show (0:ℤ) < b.y - b'.y by omega)
              (show (0:ℤ) < p.x - b'.x by omega)]
          have hpx : p.x = b'.x := le_antisymm hpxle (lexLeP_x hap)
          have hpy : b.y ≤ p.y := lexLeP_same_x hbp (by omega)
          have hfac : (0:ℤ) ≤ (b'.x - a'.x) * (p.y - b'.y) :=
            mul_nonneg (by omega) (by omega)
          have hzz : (b'.y - a'.y) * (p.x - b'.x) = 0 := by
            rw [show p.x - b'.x = (0:ℤ) by omega]; ring
          unfold cross_product
          nlinarith [hfac, hzz]

theorem cross_o_a_o (o a : Point) : cross_product o a o = 0 := by
  unfold cross_product; ring

/-- One step of the chain fold preserves the chain invariant, when the new
point is lexicographically at least every processed point. -/
theorem step_inv {seen st : List Point} (p : Point)
    (inv : ChainInv seen st) (hp : ∀ q ∈ seen, lexLeP q p) :
    ChainInv (seen ++ [p]) (p :: popStep p st) := by
  obtain ⟨hne, hmem, htopm, hbotm, hchain, hstrict, htrip, hsup⟩ := inv
  have hsuf : popStep p st <:+ st := popStep_suffix p st
  have hne1 : popStep p st ≠ [] := popStep_ne p st hne
  obtain ⟨t, rest1, hshape⟩ : ∃ t rest1, popStep p st = t :: rest1 := by
    cases hps : popStep p st with
    | nil => exact absurd hps hne1
    | cons t r => exact ⟨t, r, rfl⟩
  have hmem1 : ∀ v ∈ popStep p st, v ∈ seen := fun v hv => hmem v (hsuf.subset hv)
  have htmem : t ∈ seen := hmem1 t (by rw [hshape]; simp)
  have htp : lexLeP t p := hp t htmem
  have hexit : ∀ b a r2, popStep p st = b :: a :: r2 → 0 < cross_product a b p :=
    popStep_exit p st
  have hdup_singleton : ∀ u v : Point, st = [u, v] → u.x = v.x → u.y = v.y →
      popStep p st = [v] := by
    intro u v hst hx hy
    rw [hst]
    simp only [popStep]
    rw [if_pos (le_of_eq (cross_degenerate hx.symm hy.symm))]
  have hstrict1 : List.Chain' (fun a b => lexLtP b a) (popStep p st) := by
    rcases hstrict with h | ⟨u, v, hst, hx, hy⟩
    · exact h.suffix hsuf
    · rw [hdup_singleton u v hst hx hy]
      simp
  have htrip1 : Triples3 (popStep p st) := Triples3_suffix hsuf htrip
  have hchain1 : List.Chain' (fun a b => lexLeP b a) (popStep p st) :=
    hchain.suffix hsuf
  refine ⟨by simp, ?_, ?_, ?_, ?_, ?_, ?_, ?_⟩
  · -- mem
    intro v hv
    rcases List.mem_cons.mp hv with rfl | hv
    · simp
    · exact List.mem_append_left _ (hmem1 v hv)
  · -- top_max
    intro t' ht' q hq
    have hpt : p = t' := by simpa using ht'
    rw [← hpt]
    rcases List.mem_append.mp hq with hq | hq
    · exact hp q hq
    · have hq2 : q = p := by simpa using hq
      rw [hq2]
      exact lexLe_refl p
  · -- bot_min
    intro b hb q hq
    have hb' : st.getLast? = some b := by
      rw [← getLast?_suffix hsuf hne1]
      rw [show (p :: popStep p st).getLast? = (popStep p st).getLast? from
        List.getLast?_append_of_ne_nil [p] hne1] at hb
      exact hb
    rcases List.mem_append.mp hq with hq | hq
    · exact hbotm b hb' q hq
    · have hq2 : q = p := by simpa using hq
      rw [hq2]
      exact hp b (hmem b (List.mem_of_mem_getLast? hb'))
  · -- chain
    refine List.chain'_cons'.mpr ⟨?_, hchain1⟩
    intro y hy
    rw [hshape] at hy
    obtain rfl : t = y := by simpa using hy
    exact htp
  · -- strict-or-dup
    cases hr1 : rest1 with
    | nil =>
      rw [hr1] at hshape
      by_cases hPt : p.x = t.x ∧ p.y = t.y
      · exact Or.inr ⟨p, t, by rw [hshape], hPt.1, hPt.2⟩
      · refine Or.inl ?_
        rw [hshape]
        refine List.chain'_cons.mpr ⟨?_, by simp⟩
        exact lexLtP_of_le_ne htp (fun hc => hPt ⟨hc.1.symm, hc.2.symm⟩)
    | cons a r2 =>
      rw [hr1] at hshape
      refine Or.inl ?_
      rw [hshape]
      refine List.chain'_cons.mpr ⟨?_, by rw [← hshape]; exact hstrict1⟩
      have hex := hexit t a r2 hshape
      refine lexLtP_of_le_ne htp (fun hc => ?_)
      rw [cross_congr₃ a t hc.1.symm hc.2.symm, cross_last_self] at hex
      exact lt_irrefl 0 hex
  · -- triples
    cases hr1 : rest1 with
    | nil =>
      rw [hr1] at hshape
      rw [hshape]
      trivial
    | cons a r2 =>
      rw [hr1] at hshape
      rw [hshape]
      exact ⟨hexit t a r2 hshape, by rw [← hshape]; exact htrip1⟩
  · -- sup
    intro q hq e he
    rw [hshape] at he
    simp only [stackEdges, List.mem_cons] at he
    rcases List.mem_append.mp hq with hqseen | hqp'
    swap
    · -- q = p
      have hq2 : q = p := by simpa using hqp'
      rw [hq2]
      rcases he with he | he
      · subst he
        simp only
        rw [cross_last_self]
      · refine backprop p (popStep p st) htrip1 hstrict1
          (fun v hv => hp v (hmem1 v hv)) ?_ e (by rw [hshape]; exact he)
        intro b a r2 hsh2
        exact (hexit b a r2 hsh2).le
    · rcases he with he | he
      swap
      · -- old edge of the surviving stack
        exact hsup q hqseen e
          (stackEdges_suffix_subset hsuf (by rw [hshape]; exact he))
      · -- the new edge (t, p)
        subst he
        simp only
        have hqp2 : lexLeP q p := hp q hqseen
        by_cases hpop : popStep p st = st
        · -- no pops: t is the old top
          have hqt : lexLeP q t := htopm t (by rw [← hpop, hshape]; rfl) q hqseen
          cases hr1 : rest1 with
          | nil =>
            rw [hr1] at hshape
            have hbot : lexLeP t q := by
              refine hbotm t ?_ q hqseen
              rw [← hpop, hshape]
              rfl
            obtain ⟨hx, hy⟩ := lexLeP_antisymm hbot hqt
            rw [cross_congr₃ t p hx.symm hy.symm, cross_o_a_o]
          | cons a r2 =>
            rw [hr1] at hshape
            have hx2 := hexit t a r2 hshape
            have hedge : (a, t) ∈ stackEdges st := by
              rw [← hpop, hshape]
              simp [stackEdges]
            have h1 : 0 ≤ cross_product a t q := hsup q hqseen (a, t) hedge
            have hch1 : lexLeP a t := stackEdges_chain st hchain a t hedge
            exact cross_left_step h1 hx2 (lexLeP_x hqt) (lexLeP_x hch1)
              (lexLeP_x htp) (fun hxx => lexLeP_same_x hch1 hxx)
        · -- pops happened
          obtain ⟨a0, u, r0, pre, hps2, hdecomp, hpopfact⟩ := popStep_popped p st hpop
          obtain ⟨rfl, rfl⟩ : t = a0 ∧ rest1 = r0 := by
            rw [hshape] at hps2
            simp only [List.cons.injEq] at hps2
            exact ⟨hps2.1, hps2.2⟩
          have hedge_tu : (t, u) ∈ stackEdges st := by
            rw [hdecomp]
            exact stackEdges_mem_of_decomp pre u t rest1
          have h1 : 0 ≤ cross_product t u q := hsup q hqseen (t, u) hedge_tu
          have hchtu : lexLeP t u := stackEdges_chain st hchain t u hedge_tu
          rcases le_total q.x t.x with hqle | htle
          · -- left of the new top, reuse the exit fact
            cases hr1 : rest1 with
            | nil =>
              rw [hr1] at hshape
              have hbot : lexLeP t q := by
                refine hbotm t ?_ q hqseen
                rw [← getLast?_suffix hsuf hne1, hshape]
                rfl
              have hqx : q.x = t.x := le_antisymm hqle (lexLeP_x hbot)
              have hqy : t.y ≤ q.y := lexLeP_same_x hbot hqx.symm
              have hpxx : t.x ≤ p.x := lexLeP_x htp
              unfold cross_product
              have hzz : (p.y - t.y) * (q.x - t.x) = 0 := by
                rw [show q.x - t.x = (0:ℤ) by omega]; ring
              nlinarith [mul_nonneg (show (0:ℤ) ≤ p.x - t.x by omega)
                (show (0:ℤ) ≤ q.y - t.y by omega), hzz]
            | cons a r2 =>
              rw [hr1] at hshape
              have hx2 := hexit t a r2 hshape
              have hedge : (a, t) ∈ stackEdges st := by
                refine stackEdges_suffix_subset hsuf ?_
                rw [hshape]
                simp [stackEdges]
              have h1' : 0 ≤ cross_product a t q := hsup q hqseen (a, t) hedge
              have hch1 : lexLeP a t := stackEdges_chain st hchain a t hedge
              exact cross_left_step h1' hx2 hqle (lexLeP_x hch1)
                (lexLeP_x htp) (fun hxx => lexLeP_same_x hch1 hxx)
          · -- right of the new top, reuse the pop fact
            rcases lt_or_eq_of_le (lexLeP_x hchtu) with htu | htu
            · exact cross_right_step h1 hpopfact htu (lexLeP_x htp) htle
            · by_cases hcoords : t.x = u.x ∧ t.y = u.y
              · -- duplicate pair: the whole processed prefix collapses to one point
                rcases hstrict with hstr | ⟨u', v', hst, hx', hy'⟩
                · exact absurd hcoords (lexLtP_ne (stackEdges_chain st hstr t u hedge_tu))
                · obtain ⟨rfl, rfl⟩ : t = v' ∧ u = u' := by
                    rw [hst] at hedge_tu
                    simp only [stackEdges, List.mem_cons, Prod.mk.injEq] at hedge_tu
                    rcases hedge_tu with ⟨h1', h2'⟩ | h'
                    · exact ⟨h1', h2'⟩
                    · simp [stackEdges] at h'
                  have hq1 : lexLeP q u := htopm u (by rw [hst]; rfl) q hqseen
                  have hq2 : lexLeP t q := hbotm t (by rw [hst]; rfl) q hqseen
                  have hqx : q.x = t.x := by
                    have := lexLeP_x hq1
                    have := lexLeP_x hq2
                    omega
                  have hqy : q.y = t.y := by
                    have h3 : q.y ≤ u.y := by
                      rcases lt_or_eq_of_le (lexLeP_x hq1) with h | h
                      · omega
                      · exact lexLeP_same_x hq1 h
                    have h4 : t.y ≤ q.y := lexLeP_same_x hq2 hqx.symm
                    omega
                  rw [cross_congr₃ t p hqx hqy, cross_o_a_o]
              · -- strict vertical popped edge
                have hty : t.y < u.y := by
                  have := lexLeP_same_x hchtu htu
                  rcases lt_or_eq_of_le this with h | h
                  · exact h
                  · exact absurd ⟨htu, h⟩ hcoords
                have hqx : q.x = t.x := by
                  by_contra hne'
                  have hgt : t.x < q.x := by omega
                  unfold cross_product at h1
                  rw [← htu] at h1
                  nlinarith [mul_pos (show (0:ℤ) < u.y - t.y by omega)
                    (show (0:ℤ) < q.x - t.x by omega)]
                have hqy : t.y ≤ q.y := by
                  cases hr1 : rest1 with
                  | nil =>
                    rw [hr1] at hshape
                    have hbot : lexLeP t q := by
                      refine hbotm t ?_ q hqseen
                      rw [← getLast?_suffix hsuf hne1, hshape]
                      rfl
                    exact lexLeP_same_x hbot hqx.symm
                  | cons w' r2 =>
                    rw [hr1] at hshape
                    have hedge_wt : (w', t) ∈ stackEdges st := by
                      refine stackEdges_suffix_subset hsuf ?_
                      rw [hshape]
                      simp [stackEdges]
                    have htrip3 : 0 < cross_product w' t u := by
                      have hd2 : st = pre ++ u :: t :: w' :: r2 := by
                        rw [hdecomp, hr1]
                      exact triples3_extract pre u t w' r2 (by rw [← hd2]; exact htrip)
                    have hwt : lexLeP w' t := stackEdges_chain st hchain w' t hedge_wt
                    have hwx : w'.x < t.x := by
                      rcases lt_or_eq_of_le (lexLeP_x hwt) with h | h
                      · exact h
                      · exfalso
                        unfold cross_product at htrip3
                        rw [← htu, ← h] at htrip3
                        nlinarith
                    have hsupw : 0 ≤ cross_product w' t q := hsup q hqseen (w', t) hedge_wt
                    by_contra hlt
                    push_neg at hlt
                    unfold cross_product at hsupw
                    rw [hqx] at hsupw
                    nlinarith [mul_pos (show (0:ℤ) < t.x - w'.x by omega)
                      (show (0:ℤ) < t.y - q.y by omega)]
                have hpxx : t.x ≤ p.x := lexLeP_x htp
                unfold cross_product
                have hzz : (p.y - t.y) * (q.x - t.x) = 0 := by
                  rw [show q.x - t.x = (0:ℤ) by omega]; ring
                nlinarith [mul_nonneg (show (0:ℤ) ≤ p.x - t.x by omega)
                  (show (0:ℤ) ≤ q.y - t.y by omega), hzz]

-- ===== fold induction =====

theorem getLast?_cons_ne (a : Point) (l : List Point) (h : l ≠ []) :
    (a :: l).getLast? = l.getLast? :=
  List.getLast?_append_of_ne_nil [a] h

theorem chainFold_inv (l : List Point) : ∀ seen st : List Point, ChainInv seen st →
    List.Pairwise lexLeP (seen ++ l) →
    ChainInv (seen ++ l) (chainFold st l) := by
  induction l with
  | nil =>
    intro seen st h _
    simpa [chainFold] using h
  | cons p rest ih =>
    intro seen st hinv hpair
    have hfold : chainFold st (p :: rest) = chainFold (p :: popStep p st) rest := rfl
    have hp : ∀ q ∈ seen, lexLeP q p := by
      intro q hq
      exact (List.pairwise_append.mp hpair).2.2 q hq p (by simp)
    have hstep := step_inv p hinv hp
    have hpair2 : List.Pairwise lexLeP ((seen ++ [p]) ++ rest) := by
      rw [List.append_assoc]
      simpa using hpair
    have hres := ih (seen ++ [p]) (p :: popStep p st) hstep hpair2
    rw [hfold, show seen ++ p :: rest = (seen ++ [p]) ++ rest by simp]
    exact hres

theorem chainFold_inv_start (p0 : Point) (rest : List Point)
    (hpair : List.Pairwise lexLeP (p0 :: rest)) :
    ChainInv (p0 :: rest) (chainFold [] (p0 :: rest)) := by
  have h1 : chainFold [] (p0 :: rest) = chainFold [p0] rest := rfl
  have hinit : ChainInv [p0] [p0] := by
    refine ⟨by simp, by simp, ?_, ?_, by simp, Or.inl (by simp), trivial, ?_⟩
    · intro t ht q hq
      have ht' : p0 = t := by simpa using ht
      have hq' : q = p0 := by simpa using hq
      rw [hq', ← ht']
      exact lexLe_refl p0
    · intro b hb q hq
      have hb' : p0 = b := by simpa using hb
      have hq' : q = p0 := by simpa using hq
      rw [hq', ← hb']
      exact lexLe_refl p0
    · intro q hq e he
      simp [stackEdges] at he
  have hres := chainFold_inv rest [p0] [p0] hinit (by simpa using hpair)
  rw [h1]
  simpa using hres

-- ===== auxiliary chainFold facts =====

theorem chainFold_head (l : List Point) (hl : l ≠ []) : ∀ st : List Point,
    (chainFold st l).head? = some (l.getLast hl) := by
  induction l with
  | nil => cases hl rfl
  | cons p rest ih =>
    intro st
    cases rest with
    | nil => rfl
    | cons p2 r2 =>
      have : chainFold st (p :: p2 :: r2) = chainFold (p :: popStep p st) (p2 :: r2) := rfl
      rw [this, ih (by simp) (p :: popStep p st)]
      simp [List.getLast]

theorem chainFold_getLast? (l : List Point) : ∀ st : List Point, st ≠ [] →
    (chainFold st l).getLast? = st.getLast? := by
  induction l with
  | nil => intro st h; rfl
  | cons p rest ih =>
    intro st h
    have h1 : chainFold st (p :: rest) = chainFold (p :: popStep p st) rest := rfl
    rw [h1, ih _ (by simp), getLast?_cons_ne p _ (popStep_ne p st h)]
    exact getLast?_suffix (popStep_suffix p st) (popStep_ne p st h)

theorem chainFold_length2 (l : List Point) : ∀ st : List Point, st ≠ [] → l ≠ [] →
    2 ≤ (chainFold st l).length := by
  induction l with
  | nil => intro st h hl; cases hl rfl
  | cons p rest ih =>
    intro st h _
    cases rest with
    | nil =>
      have h1 : chainFold st [p] = p :: popStep p st := rfl
      rw [h1]
      have h2 := popStep_ne p st h
      cases hps : popStep p st with
      | nil => exact absurd hps h2
      | cons a r => simp [hps]
    | cons p2 r2 => exact ih (p :: popStep p st) (by simp) (by simp)

-- ===== negation transfer for the upper pass =====

theorem negP_inj {a b : Point} (h : negP a = negP b) : a = b := by
  cases a; cases b
  simp only [negP, Point.mk.injEq] at h ⊢
  omega

/-- All invariant facts of an upper-hull pass `chainFold [r] lu`, processed in
nonincreasing lexicographic order, by conjugating with `negP`. -/
theorem upper_inv (r : Point) (lu : List Point)
    (hpair : List.Pairwise (fun a b => lexLeP b a) (r :: lu)) :
    (∀ v ∈ chainFold [r] lu, v ∈ r :: lu) ∧
    List.Chain' (fun a b => lexLeP a b) (chainFold [r] lu) ∧
    (List.Chain' (fun a b => lexLtP a b) (chainFold [r] lu) ∨
      ∃ u v, chainFold [r] lu = [u, v] ∧ u.x = v.x ∧ u.y = v.y) ∧
    Triples3 (chainFold [r] lu) ∧
    (∀ q ∈ r :: lu, ∀ e ∈ stackEdges (chainFold [r] lu),
      0 ≤ cross_product e.1 e.2 q) := by
  have hpairN : List.Pairwise lexLeP (negP r :: lu.map negP) := by
    rw [show negP r :: lu.map negP = (r :: lu).map negP from rfl]
    rw [List.pairwise_map]
    exact hpair.imp (fun h => lexLeP_neg.mpr h)
  have hinvN := chainFold_inv_start (negP r) (lu.map negP) hpairN
  have hfoldN : chainFold [] (negP r :: lu.map negP) =
      (chainFold [r] lu).map negP := by
    have h1 : chainFold [] (negP r :: lu.map negP) =
        chainFold [negP r] (lu.map negP) := rfl
    rw [h1, show [negP r] = ([r] : List Point).map negP from rfl, chainFold_neg]
  rw [hfoldN] at hinvN
  obtain ⟨hneN, hmemN, htopN, hbotN, hchainN, hstrictN, htripN, hsupN⟩ := hinvN
  refine ⟨?_, ?_, ?_, ?_, ?_⟩
  · intro v hv
    have : negP v ∈ (r :: lu).map negP := by
      have h2 := hmemN (negP v) (List.mem_map_of_mem negP hv)
      simpa using h2
    obtain ⟨w, hw, hweq⟩ := List.mem_map.mp this
    rwa [← negP_inj hweq]
  · exact ((List.chain'_map negP).mp hchainN).imp (fun a b h => lexLeP_neg.mp h)
  · rcases hstrictN with hN | ⟨u, v, huv, hx, hy⟩
    · exact Or.inl (((List.chain'_map negP).mp hN).imp (fun a b h => lexLtP_neg.mp h))
    · right
      cases hS : chainFold [r] lu with
      | nil => rw [hS] at huv; simp at huv
      | cons a0 t0 =>
        cases t0 with
        | nil => rw [hS] at huv; simp at huv
        | cons b0 t1 =>
          cases t1 with
          | nil =>
            rw [hS] at huv
            simp only [List.map_cons, List.map_nil, List.cons.injEq, and_true] at huv
            obtain ⟨h1, h2⟩ := huv
            rw [← h1, ← h2] at hx hy
            simp only [negP] at hx hy
            exact ⟨a0, b0, rfl, by omega, by omega⟩
          | cons c0 t2 => rw [hS] at huv; simp at huv
  · exact (Triples3_map_neg _).mp htripN
  · intro q hq e he
    have hqN : negP q ∈ (r :: lu).map negP := List.mem_map_of_mem negP hq
    have heN : (negP e.1, negP e.2) ∈ stackEdges ((chainFold [r] lu).map negP) := by
      rw [stackEdges_map_neg]
      exact List.mem_map.mpr ⟨e, he, rfl⟩
    have hres := hsupN (negP q) (by simpa using hqN) (negP e.1, negP e.2) heN
    simpa [cross_neg3] using hres

-- ===== edge-list surgery =====

theorem chainEdges_append (l2 : List Point) (x y : Point) : ∀ l1 : List Point,
    chainEdges ((l1 ++ [x]) ++ (y :: l2)) =
      chainEdges (l1 ++ [x]) ++ (x, y) :: chainEdges (y :: l2) := by
  intro l1
  induction l1 with
  | nil => simp [chainEdges]
  | cons a t ih =>
    cases t with
    | nil => simp [chainEdges]
    | cons c t' =>
      simp only [List.cons_append, chainEdges] at ih ⊢
      simpa using ih

theorem chainEdges_reverse_mem : ∀ (st : List Point) (e : Point × Point),
    e ∈ chainEdges st.reverse ↔ e ∈ stackEdges st := by
  intro st
  induction st with
  | nil => intro e; simp [chainEdges, stackEdges]
  | cons x t ih =>
    intro e
    cases t with
    | nil => simp [chainEdges, stackEdges]
    | cons c t' =>
      have hrev : (x :: c :: t').reverse = ((c :: t').reverse ++ [x]) := by simp
      have hrev2 : (c :: t').reverse = t'.reverse ++ [c] := by simp
      rw [hrev, hrev2, chainEdges_append ([] : List Point) c x t'.reverse]
      simp only [stackEdges, List.mem_append, List.mem_cons]
      rw [← hrev2]
      constructor
      · rintro (h | h)
        · exact Or.inr ((ih e).mp h)
        · simp only [chainEdges, List.not_mem_nil, or_false] at h
          exact Or.inl h
      · rintro (h | h)
        · exact Or.inr (by simp [chainEdges, h])
        · exact Or.inl ((ih e).mpr h)

theorem zip_drop_eq (z : Point) : ∀ (l0 : List Point) (w : Point),
    (l0 ++ [w]).zip ((l0 ++ [w]).drop 1 ++ [z]) =
      chainEdges (l0 ++ [w]) ++ [(w, z)] := by
  intro l0
  induction l0 with
  | nil => intro w; simp [chainEdges]
  | cons a t ih =>
    intro w
    cases t with
    | nil => simp [chainEdges]
    | cons c t' =>
      simp only [List.cons_append, List.drop_succ_cons, List.drop_zero, List.zip_cons_cons,
        chainEdges] at ih ⊢
      simpa using ih w

theorem cyclicEdges_eq (l0 : List Point) (w : Point) :
    cyclicEdges (l0 ++ [w]) = chainEdges (l0 ++ [w]) ++ [(w, (l0 ++ [w]).headD w)] := by
  cases l0 with
  | nil => simp [cyclicEdges, chainEdges]
  | cons h t =>
    simp only [List.cons_append, cyclicEdges, List.headD_cons]
    have := zip_drop_eq h (h :: t) w
    simp only [List.cons_append, List.drop_succ_cons, List.drop_zero] at this
    exact this

theorem list_decomp2 (l : List Point) (hd lt : Point) (h2 : 2 ≤ l.length)
    (hh : l.head? = some hd) (hl : l.getLast? = some lt) :
    l = hd :: ((l.drop 1).dropLast ++ [lt]) := by
  cases l with
  | nil => simp at hh
  | cons a t =>
    obtain rfl : hd = a := by
      have : a = hd := by simpa using hh
      exact this.symm
    have htne : t ≠ [] := by
      cases t with
      | nil => simp at h2
      | cons b t2 => simp
    have hlast : t.getLast htne = lt := by
      have h1 : t.getLast? = some lt := by
        rw [← getLast?_cons_ne hd t htne]
        exact hl
      rwa [List.getLast?_eq_getLast t htne, Option.some.injEq] at h1
    simp only [List.drop_succ_cons, List.drop_zero, List.cons.injEq, true_and]
    rw [← hlast]
    exact (List.dropLast_append_getLast htne).symm

-- ===== hull decomposition =====

theorem buildHull_decomp (s : List Point) (hlen : 3 ≤ s.length) :
    ∃ (m r : Point) (body kept : List Point),
      s.head? = some m ∧ s.getLast? = some r ∧
      (chainFold [] s).reverse = m :: (body ++ [r]) ∧
      (chainFold [s.getLastD ⟨0,0,0⟩] s.dropLast.reverse).reverse = r :: (kept ++ [m]) ∧
      buildHull s = (m :: (body ++ [r])) ++ kept := by
  obtain ⟨m, tail, rfl⟩ : ∃ m tail, s = m :: tail := by
    cases s with
    | nil => simp at hlen
    | cons a t => exact ⟨a, t, rfl⟩
  have hsne : (m :: tail) ≠ [] := by simp
  have htailne : tail ≠ [] := by
    cases tail with
    | nil => simp at hlen
    | cons b t2 => simp
  have hrl : (m :: tail).getLast? = some ((m :: tail).getLast hsne) :=
    List.getLast?_eq_getLast _ hsne
  set r := (m :: tail).getLast hsne with hr
  have hLhead : (chainFold [] (m :: tail)).head? = some r :=
    chainFold_head (m :: tail) hsne []
  have hfold0 : chainFold [] (m :: tail) = chainFold [m] tail := rfl
  have hLlast : (chainFold [] (m :: tail)).getLast? = some m := by
    rw [hfold0, chainFold_getLast? tail [m] (by simp)]
    rfl
  have hL2 : 2 ≤ (chainFold [] (m :: tail)).length := by
    rw [hfold0]
    exact chainFold_length2 tail [m] (by simp) htailne
  have hLrev := list_decomp2 (chainFold [] (m :: tail)).reverse m r
      (by rwa [List.length_reverse])
      (by rw [List.head?_reverse]; exact hLlast)
      (by rw [List.getLast?_reverse]; exact hLhead)
  have hdropl : (m :: tail).dropLast = m :: tail.dropLast := by
    cases tail with
    | nil => exact absurd rfl htailne
    | cons b t2 => rfl
  have hlune : (m :: tail).dropLast.reverse ≠ [] := by
    rw [hdropl]
    simp
  have hlulast? : (m :: tail).dropLast.reverse.getLast? = some m := by
    rw [List.getLast?_reverse, hdropl]
    rfl
  have hlulast : (m :: tail).dropLast.reverse.getLast hlune = m := by
    have h1 := List.getLast?_eq_getLast (m :: tail).dropLast.reverse hlune
    rw [hlulast?] at h1
    exact (Option.some.injEq .. ▸ h1.symm :)
  have hUhead : (chainFold [r] (m :: tail).dropLast.reverse).head? = some m := by
    rw [chainFold_head (m :: tail).dropLast.reverse hlune [r], hlulast]
  have hUlast : (chainFold [r] (m :: tail).dropLast.reverse).getLast? = some r := by
    rw [chainFold_getLast? (m :: tail).dropLast.reverse [r] (by simp)]
    rfl
  have hU2 : 2 ≤ (chainFold [r] (m :: tail).dropLast.reverse).length :=
    chainFold_length2 (m :: tail).dropLast.reverse [r] (by simp) hlune
  have hUrev := list_decomp2 (chainFold [r] (m :: tail).dropLast.reverse).reverse r m
      (by rwa [List.length_reverse])
      (by rw [List.head?_reverse]; exact hUlast)
      (by rw [List.getLast?_reverse]; exact hUhead)
  have hseed : (m :: tail).getLastD ⟨0,0,0⟩ = r := by
    rw [List.getLastD_eq_getLast?, hrl]
    rfl
  refine ⟨m, r, ((chainFold [] (m :: tail)).reverse.drop 1).dropLast,
      ((chainFold [r] (m :: tail).dropLast.reverse).reverse.drop 1).dropLast,
      rfl, hrl, hLrev, by rw [hseed]; exact hUrev, ?_⟩
  show (chainFold [] (m :: tail)).reverse ++
      ((chainFold [(m :: tail).getLastD ⟨0,0,0⟩] (m :: tail).dropLast.reverse).reverse.drop 1).dropLast = _
  rw [hseed]
  conv_lhs => rw [hLrev]

theorem chainEdges_cons_subset (x : Point) (l : List Point) :
    chainEdges l ⊆ chainEdges (x :: l) := by
  cases l with
  | nil => simp [chainEdges]
  | cons a t =>
    intro e he
    simp only [chainEdges, List.mem_cons]
    exact Or.inr he

theorem chainEdges_append_right_subset (post : List Point) : ∀ l : List Point,
    chainEdges l ⊆ chainEdges (l ++ post) := by
  intro l
  induction l with
  | nil => simp [chainEdges]
  | cons a t ih =>
    cases t with
    | nil => simp [chainEdges]
    | cons b t' =>
      intro e he
      simp only [chainEdges, List.mem_cons, List.cons_append] at he ⊢
      rcases he with he | he
      · exact Or.inl he
      · exact Or.inr (ih he)

theorem chainEdges_pre_subset : ∀ (pre l : List Point),
    chainEdges l ⊆ chainEdges (pre ++ l) := by
  intro pre
  induction pre with
  | nil => intro l; simp
  | cons x p ih =>
    intro l e he
    rw [List.cons_append]
    exact chainEdges_cons_subset x _ (ih l he)

theorem chainEdges_mem_of_decomp (x y : Point) (post : List Point) :
    ∀ pre : List Point, (x, y) ∈ chainEdges (pre ++ x :: y :: post) := by
  intro pre
  induction pre with
  | nil => simp [chainEdges]
  | cons a p ih =>
    rw [List.cons_append]
    exact chainEdges_cons_subset a _ ih

/-- Every input point is weakly left of every cyclic edge of the built hull. -/
theorem buildHull_sup (s : List Point) (hlen : 3 ≤ s.length)
    (hpair : List.Pairwise lexLeP s) :
    ∀ q ∈ s, ∀ e ∈ cyclicEdges (buildHull s), 0 ≤ cross_product e.1 e.2 q := by
  intro q hq e he
  obtain ⟨m, r, body, kept, hsh, hsl, hLrev, hUrev, hH⟩ := buildHull_decomp s hlen
  obtain ⟨tail, rfl⟩ : ∃ tail, s = m :: tail := by
    cases s with
    | nil => simp at hsh
    | cons a t => exact ⟨t, by rw [show a = m by simpa using hsh]⟩
  have hinvL : ChainInv (m :: tail) (chainFold [] (m :: tail)) :=
    chainFold_inv_start m tail hpair
  have hlastr : (m :: tail).getLast (by simp) = r := by
    have h1 := List.getLast?_eq_getLast (m :: tail) (by simp)
    rw [hsl] at h1
    exact (Option.some.injEq .. ▸ h1.symm :)
  have hsrev : (m :: tail).reverse = r :: (m :: tail).dropLast.reverse := by
    conv_lhs => rw [← List.dropLast_append_getLast (show (m :: tail) ≠ [] by simp), hlastr]
    rw [List.reverse_append]
    rfl
  have hpairU : List.Pairwise (fun a b => lexLeP b a)
      (r :: (m :: tail).dropLast.reverse) := by
    rw [← hsrev]
    exact (List.pairwise_reverse).mpr hpair
  obtain ⟨hUmem, hUchain, hUstrict, hUtrip, hUsup⟩ :=
    upper_inv r (m :: tail).dropLast.reverse hpairU
  have hqU : q ∈ r :: (m :: tail).dropLast.reverse := by
    rw [← hsrev]
    exact List.mem_reverse.mpr hq
  have hlow : ∀ e' ∈ stackEdges (chainFold [] (m :: tail)),
      0 ≤ cross_product e'.1 e'.2 q := fun e' he' => hinvL.sup q hq e' he'
  have hup : ∀ e' ∈ stackEdges (chainFold [r] (m :: tail).dropLast.reverse),
      0 ≤ cross_product e'.1 e'.2 q := fun e' he' => hUsup q hqU e' he'
  -- seed for the upper pass as written in buildHull
  have hseed : (m :: tail).getLastD ⟨0,0,0⟩ = r := by
    rw [List.getLastD_eq_getLast?, hsl]
    rfl
  rw [hseed] at hUrev
  rw [hH] at he
  cases hk : kept with
  | nil =>
    rw [hk] at he hUrev
    simp only [List.append_nil, List.nil_append] at he hUrev
    have he2 : e ∈ cyclicEdges ((m :: body) ++ [r]) := by
      simpa using he
    rw [cyclicEdges_eq (m :: body) r] at he2
    rcases List.mem_append.mp he2 with he3 | he3
    · -- a lower-chain edge
      refine hlow e (chainEdges_reverse_mem (chainFold [] (m :: tail)) e |>.mp ?_)
      rw [hLrev]
      simpa using he3
    · -- the wrap edge (r, m) is the single upper edge
      have he4 : e = (r, m) := by simpa using he3
      refine hup e (chainEdges_reverse_mem (chainFold [r] (m :: tail).dropLast.reverse) e |>.mp ?_)
      rw [hUrev, he4]
      simp [chainEdges]
  | cons k0 k' =>
    have hkne : kept ≠ [] := by rw [hk]; simp
    have hkdec : kept = kept.dropLast ++ [kept.getLast hkne] :=
      (List.dropLast_append_getLast hkne).symm
    have hHform : (m :: (body ++ [r])) ++ kept =
        ((m :: (body ++ [r])) ++ kept.dropLast) ++ [kept.getLast hkne] := by
      conv_lhs => rw [hkdec]
      rw [List.append_assoc]
    rw [hHform, cyclicEdges_eq _ _] at he
    rcases List.mem_append.mp he with he3 | he3
    · -- a chain edge of the full open chain
      rw [List.append_assoc, ← hkdec] at he3
      have he4 : e ∈ chainEdges (((m :: body) ++ [r]) ++ (k0 :: k')) := by
        rw [hk] at he3
        simpa using he3
      rw [chainEdges_append k' r k0 (m :: body)] at he4
      rcases List.mem_append.mp he4 with he5 | he5
      · -- lower-chain edge
        refine hlow e (chainEdges_reverse_mem (chainFold [] (m :: tail)) e |>.mp ?_)
        rw [hLrev]
        simpa using he5
      · -- junction edge or kept-interior edge: all upper-chain edges
        refine hup e (chainEdges_reverse_mem (chainFold [r] (m :: tail).dropLast.reverse) e |>.mp ?_)
        rw [hUrev, hk]
        rcases List.mem_cons.mp he5 with he6 | he6
        · rw [he6]
          simp [chainEdges]
        · have : chainEdges (k0 :: k') ⊆ chainEdges (r :: (k0 :: k' ++ [m])) := by
            intro e' he'
            have h1 := chainEdges_append_right_subset [m] (k0 :: k') he'
            exact chainEdges_cons_subset r _ (by simpa using h1)
          simpa using this he6
    · -- the wrap edge (keptLast, m)
      have he4 : e = (kept.getLast hkne, m) := by
        simpa using he3
      refine hup e (chainEdges_reverse_mem (chainFold [r] (m :: tail).dropLast.reverse) e |>.mp ?_)
      rw [hUrev, he4]
      have hform2 : r :: (kept ++ [m]) =
          (r :: kept.dropLast) ++ (kept.getLast hkne :: m :: []) := by
        conv_lhs => rw [hkdec]
        simp
      rw [hform2]
      exact chainEdges_mem_of_decomp _ _ _ _

-- ===== indexed access to edges =====

theorem getP_pair_chainEdges : ∀ (H : List Point) (i : Nat), i + 1 < H.length →
    (getP H i, getP H (i + 1)) ∈ chainEdges H := by
  intro H
  induction H with
  | nil => intro i h; simp at h
  | cons a t ih =>
    intro i h
    cases t with
    | nil => simp at h
    | cons b t' =>
      cases i with
      | zero =>
        simp [getP, chainEdges, List.getD]
      | succ j =>
        have h2 : j + 1 < (b :: t').length := by simpa using h
        have := ih j h2
        simp only [chainEdges, List.mem_cons]
        right
        simpa [getP, List.getD_cons_succ] using this

theorem headD_eq_head (l : List Point) (d : Point) (h : l ≠ []) :
    l.headD d = l.head h := by
  cases l with
  | nil => exact absurd rfl h
  | cons a t => rfl

theorem chainEdges_subset_cyclic (H : List Point) (h : H ≠ []) :
    chainEdges H ⊆ cyclicEdges H := by
  conv_rhs => rw [← List.dropLast_append_getLast h]
  rw [cyclicEdges_eq]
  intro e he
  refine List.mem_append_left _ ?_
  rwa [List.dropLast_append_getLast h]

theorem wrap_mem_cyclic (H : List Point) (h : H ≠ []) :
    (H.getLast h, H.head h) ∈ cyclicEdges H := by
  have hH : H = H.dropLast ++ [H.getLast h] := (List.dropLast_append_getLast h).symm
  have h1 : (H.dropLast ++ [H.getLast h]).headD (H.getLast h) = H.head h := by
    conv_lhs => rw [List.dropLast_append_getLast h]
    exact headD_eq_head H _ h
  have h2 : cyclicEdges H = chainEdges H ++ [(H.getLast h, H.head h)] := by
    conv_lhs => rw [hH]
    rw [cyclicEdges_eq, h1, ← hH]
  rw [h2]
  exact List.mem_append_right _ (by simp)

theorem getP_zero_head (H : List Point) (h : H ≠ []) : getP H 0 = H.head h := by
  cases H with
  | nil => exact absurd rfl h
  | cons a t => rfl

theorem getP_last (H : List Point) (h : H ≠ []) :
    getP H (H.length - 1) = H.getLast h := by
  have hlt : H.length - 1 < H.length := by
    cases H with
    | nil => exact absurd rfl h
    | cons a t => simp
  unfold getP
  rw [List.getD_eq_getElem _ _ hlt, List.getLast_eq_getElem]

-- ===== the binary fan search of is_inside =====

theorem insideSearch_spec (poly : List Point) (p : Point) : ∀ (fuel l r : Nat), l < r →
    l ≤ (insideSearch poly p fuel l r).1 ∧
    (insideSearch poly p fuel l r).1 < (insideSearch poly p fuel l r).2 ∧
    (insideSearch poly p fuel l r).2 ≤ r ∧
    (r - l ≤ fuel + 1 → (insideSearch poly p fuel l r).2 = (insideSearch poly p fuel l r).1 + 1) := by
  intro fuel
  induction fuel with
  | zero =>
    intro l r hlr
    simp only [insideSearch]
    exact ⟨le_refl l, hlr, le_refl r, fun h => by omega⟩
  | succ fuel ih =>
    intro l r hlr
    simp only [insideSearch]
    split
    · rename_i hcond
      split
      · have hmid : l < (l + r) / 2 ∧ (l + r) / 2 < r := by omega
        obtain ⟨h1, h2, h3, h4⟩ := ih ((l + r) / 2) r hmid.2
        exact ⟨le_trans (le_of_lt hmid.1) h1, h2, h3, fun hf => h4 (by omega)⟩
      · have hmid : l < (l + r) / 2 ∧ (l + r) / 2 < r := by omega
        obtain ⟨h1, h2, h3, h4⟩ := ih l ((l + r) / 2) hmid.1
        exact ⟨h1, h2, le_trans h3 (le_of_lt hmid.2), fun hf => h4 (by omega)⟩
    · exact ⟨le_refl l, hlr, le_refl r, fun h => by omega⟩

-- ===== is_inside derivations =====

theorem is_inside_of_sup3 (H : List Point) (q : Point) (h3 : 3 ≤ H.length)
    (hsup : ∀ e ∈ cyclicEdges H, 0 ≤ cross_product e.1 e.2 q) :
    is_inside H q = true := by
  have hne : H ≠ [] := by
    cases H with
    | nil => simp at h3
    | cons a t => simp
  have hedge : ∀ i, i + 1 < H.length →
      0 ≤ cross_product (getP H i) (getP H (i + 1)) q :=
    fun i hi => hsup _ (chainEdges_subset_cyclic H hne (getP_pair_chainEdges H i hi))
  have hwrap : 0 ≤ cross_product (getP H (H.length - 1)) (getP H 0) q := by
    rw [getP_last H hne, getP_zero_head H hne]
    exact hsup _ (wrap_mem_cyclic H hne)
  simp only [is_inside]
  rw [if_neg (by omega), if_neg (by omega), if_neg (by omega), if_neg ?hgates]
  case hgates =>
    rintro (h | h)
    · have h0 := hedge 0 (by omega)
      simp only [Nat.zero_add] at h0
      omega
    · rw [cross_swap_first] at h
      omega
  obtain ⟨hl1, hl2, hl3, hl4⟩ := insideSearch_spec H q H.length 1 (H.length - 1) (by omega)
  have hr' := hl4 (by omega)
  rw [decide_eq_true_eq, hr']
  exact hedge _ (by omega)

theorem is_inside_two (m r q : Point) (hcol : cross_product m r q = 0)
    (hmq : lexLeP m q) (hqr : lexLeP q r) :
    is_inside [m, r] q = true := by
  have hx1 : m.x ≤ q.x := lexLeP_x hmq
  have hx2 : q.x ≤ r.x := lexLeP_x hqr
  have hmr : lexLeP m r := lexLe_trans m q r hmq hqr
  have hcol' : (r.x - m.x) * (q.y - m.y) - (r.y - m.y) * (q.x - m.x) = 0 := by
    unfold cross_product at hcol
    linarith
  have hyb : min m.y r.y ≤ q.y ∧ q.y ≤ max m.y r.y := by
    rcases lt_or_eq_of_le (le_trans hx1 hx2) with hxx | hxx
    · have key : (r.x - m.x) * (q.y - r.y) = (r.y - m.y) * (q.x - r.x) := by
        linear_combination hcol'
      constructor
      · by_contra h'
        push_neg at h'
        have hm : q.y < m.y := by omega
        have hr2 : q.y < r.y := by omega
        rcases le_total m.y r.y with hyy | hyy
        · nlinarith [mul_pos (show (0:ℤ) < r.x - m.x by omega)
            (show (0:ℤ) < m.y - q.y by omega),
            mul_nonneg (show (0:ℤ) ≤ r.y - m.y by omega)
            (show (0:ℤ) ≤ q.x - m.x by omega)]
        · nlinarith [mul_pos (show (0:ℤ) < r.x - m.x by omega)
            (show (0:ℤ) < r.y - q.y by omega),
            mul_nonneg (show (0:ℤ) ≤ m.y - r.y by omega)
            (show (0:ℤ) ≤ r.x - q.x by omega), key]
      · by_contra h'
        push_neg at h'
        have hm : m.y < q.y := by omega
        have hr2 : r.y < q.y := by omega
        rcases le_total m.y r.y with hyy | hyy
        · nlinarith [mul_pos (show (0:ℤ) < r.x - m.x by omega)
            (show (0:ℤ) < q.y - r.y by omega),
            mul_nonneg (show (0:ℤ) ≤ r.y - m.y by omega)
            (show (0:ℤ) ≤ r.x - q.x by omega), key]
        · nlinarith [mul_pos (show (0:ℤ) < r.x - m.x by omega)
            (show (0:ℤ) < q.y - m.y by omega),
            mul_nonneg (show (0:ℤ) ≤ m.y - r.y by omega)
            (show (0:ℤ) ≤ q.x - m.x by omega)]
    · have hqx : q.x = m.x := by omega
      have h1 : m.y ≤ q.y := lexLeP_same_x hmq hqx.symm
      have h2 : q.y ≤ r.y := lexLeP_same_x hqr (by omega)
      constructor
      · omega
      · omega
  simp only [is_inside]
  rw [if_neg (by simp), if_neg (by simp), if_pos (by simp), decide_eq_true_eq]
  exact ⟨hcol, by simp [getP, List.getD]; omega, by simp [getP, List.getD]; omega,
    by simp [getP, List.getD]; omega, by simp [getP, List.getD]; omega⟩

theorem is_inside_small (pts : List Point) (hlen : pts.length ≤ 2) (p : Point)
    (hp : p ∈ pts) : is_inside pts p = true := by
  cases pts with
  | nil => simp at hp
  | cons a t =>
    cases t with
    | nil =>
      have hpa : p = a := by simpa using hp
      rw [hpa]
      simp [is_inside, pEq, getP, List.getD]
    | cons b t2 =>
      cases t2 with
      | nil =>
        simp only [is_inside]
        rw [if_neg (by simp), if_neg (by simp), if_pos (by simp), decide_eq_true_eq]
        have hga : getP [a, b] 0 = a := rfl
        have hgb : getP [a, b] 1 = b := rfl
        rw [hga, hgb]
        rcases List.mem_cons.mp hp with hpa | hp2
        · rw [hpa]
          exact ⟨cross_o_a_o a b, by omega, by omega, by omega, by omega⟩
        · have hpb : p = b := by simpa using hp2
          rw [hpb]
          exact ⟨cross_last_self a b, by omega, by omega, by omega, by omega⟩
      | cons c t3 => simp at hlen

theorem sorted_head_le (m : Point) (tail : List Point)
    (hpair : List.Pairwise lexLeP (m :: tail)) : ∀ q ∈ m :: tail, lexLeP m q := by
  intro q hq
  rcases List.mem_cons.mp hq with rfl | hq2
  · exact lexLe_refl q
  · exact List.rel_of_pairwise_cons hpair hq2

theorem sorted_le_last (s : List Point) (h : s ≠ [])
    (hpair : List.Pairwise lexLeP s) : ∀ q ∈ s, lexLeP q (s.getLast h) := by
  intro q hq
  have hdec : s = s.dropLast ++ [s.getLast h] := (List.dropLast_append_getLast h).symm
  rw [hdec] at hq hpair
  rcases List.mem_append.mp hq with hq2 | hq2
  · exact (List.pairwise_append.mp hpair).2.2 q hq2 _ (by simp)
  · have : q = s.getLast h := by simpa using hq2
    rw [this]
    exact lexLe_refl _

/-- Every point of a sorted list is inside-or-on the hull built from it. -/
theorem buildHull_contains (s : List Point) (hlen3 : 3 ≤ s.length)
    (hpair : List.Pairwise lexLeP s) : ∀ q ∈ s, is_inside (buildHull s) q = true := by
  intro q hq
  have hsup := buildHull_sup s hlen3 hpair q hq
  obtain ⟨m, r, body, kept, hsh, hsl, hLrev, hUrev, hH⟩ := buildHull_decomp s hlen3
  by_cases hbig : 3 ≤ (buildHull s).length
  · exact is_inside_of_sup3 _ q hbig hsup
  · have hlen2 : (buildHull s).length = 2 := by
      rw [hH] at hbig ⊢
      simp only [List.length_append, List.length_cons] at hbig ⊢
      omega
    have hbody : body = [] := by
      rw [hH] at hlen2
      simp only [List.length_append, List.length_cons] at hlen2
      exact List.length_eq_zero.mp (by omega)
    have hkept : kept = [] := by
      rw [hH] at hlen2
      simp only [List.length_append, List.length_cons] at hlen2
      exact List.length_eq_zero.mp (by omega)
    have hH2 : buildHull s = [m, r] := by
      rw [hH, hbody, hkept]
      rfl
    rw [hH2]
    rw [hH2] at hsup
    have h1 := hsup (m, r) (by simp [cyclicEdges])
    have h2 := hsup (r, m) (by simp [cyclicEdges])
    dsimp only at h1 h2
    rw [cross_swap_first] at h2
    have hcol : cross_product m r q = 0 := by omega
    have hsne : s ≠ [] := by
      cases s with
      | nil => simp at hlen3
      | cons a t => simp
    obtain ⟨tail, hs0⟩ : ∃ tail, s = m :: tail := by
      cases s with
      | nil => simp at hsh
      | cons a t => exact ⟨t, by rw [show a = m by simpa using hsh]⟩
    have hmq : lexLeP m q := by
      rw [hs0] at hpair hq
      exact sorted_head_le m tail hpair q hq
    have hlastr : s.getLast hsne = r := by
      have h3 := List.getLast?_eq_getLast s hsne
      rw [hsl] at h3
      exact (Option.some.injEq .. ▸ h3.symm :)
    have hqr : lexLeP q r := by
      rw [← hlastr]
      exact sorted_le_last s hsne hpair q hq
    exact is_inside_two m r q hcol hmq hqr

/-- Every vertex of the built hull is one of the (sorted) input points. -/
theorem buildHull_mem : ∀ (s : List Point), 3 ≤ s.length →
    List.Pairwise lexLeP s → ∀ v ∈ buildHull s, v ∈ s := by
  intro s hlen3 hpair v hv
  cases s with
  | nil => simp at hlen3
  | cons m tail =>
  have hsne : (m :: tail) ≠ [] := by simp
  have htailne : tail ≠ [] := by
    cases tail with
    | nil => simp at hlen3
    | cons b t2 => simp
  have hinvL : ChainInv (m :: tail) (chainFold [] (m :: tail)) :=
    chainFold_inv_start m tail hpair
  have hrl : (m :: tail).getLast? = some ((m :: tail).getLast hsne) :=
    List.getLast?_eq_getLast _ hsne
  set r := (m :: tail).getLast hsne with hr
  have hsrev : (m :: tail).reverse = r :: (m :: tail).dropLast.reverse := by
    conv_lhs => rw [← List.dropLast_append_getLast hsne]
    rw [List.reverse_append]
    rfl
  have hpairU : List.Pairwise (fun a b => lexLeP b a)
      (r :: (m :: tail).dropLast.reverse) := by
    rw [← hsrev]
    exact (List.pairwise_reverse).mpr hpair
  obtain ⟨hUmem, -, -, -, -⟩ := upper_inv r (m :: tail).dropLast.reverse hpairU
  have hseed : (m :: tail).getLastD ⟨0,0,0⟩ = r := by
    rw [List.getLastD_eq_getLast?, hrl]
    rfl
  simp only [buildHull] at hv
  rw [hseed] at hv
  rcases List.mem_append.mp hv with hv2 | hv2
  · exact hinvL.mem v (List.mem_reverse.mp hv2)
  · have hv3 : v ∈ (chainFold [r] (m :: tail).dropLast.reverse).reverse :=
      List.drop_subset 1 _ (List.dropLast_subset _ hv2)
    have hv4 := hUmem v (List.mem_reverse.mp hv3)
    rw [← hsrev] at hv4
    exact List.mem_reverse.mp hv4

/-- Combined C5 statement over the raw `convex_hull`. -/
theorem hull_containment (pts : List Point) :
    (∀ p ∈ pts, is_inside (convex_hull pts) p = true) ∧
    (∀ v ∈ convex_hull pts, v ∈ pts) := by
  unfold convex_hull
  by_cases hlen : pts.length ≤ 2
  · rw [if_pos hlen]
    exact ⟨fun p hp => is_inside_small pts hlen p hp, fun v hv => hv⟩
  · rw [if_neg hlen]
    push_neg at hlen
    have hperm : (sortPts pts).Perm pts := List.perm_insertionSort lexLeP pts
    have hlen3 : 3 ≤ (sortPts pts).length := by
      rw [hperm.length_eq]
      omega
    have hpair : List.Pairwise lexLeP (sortPts pts) :=
      List.sorted_insertionSort lexLeP pts
    constructor
    · intro p hp
      exact buildHull_contains (sortPts pts) hlen3 hpair p (hperm.mem_iff.mpr hp)
    · intro v hv
      exact hperm.mem_iff.mp (buildHull_mem (sortPts pts) hlen3 hpair v hv)

-- ===== junction-triple lemmas =====

/-- At the lexicographic maximum `z` of the hull cycle, the incoming vertex
`b` and outgoing vertex `d` cannot be collinear with `z`, given the next
strict turn `(z, d, w)` and `w` weakly right of the line `(z, b)`. -/
theorem junction_max (z b d w : Point) (hcol : cross_product z b d = 0)
    (hw : 0 < cross_product z d w) (hbw : cross_product z b w ≤ 0)
    (hbz : lexLtP b z) (hdz : lexLtP d z) : False := by
  have key : (b.x - z.x) * cross_product z d w - (d.x - z.x) * cross_product z b w =
      -(w.x - z.x) * cross_product z b d := by
    unfold cross_product; ring
  rw [hcol, mul_zero] at key
  rcases lt_or_eq_of_le (lexLtP_x hbz) with hbx | hbx
  · nlinarith [mul_pos (show (0:ℤ) < z.x - b.x by omega) hw,
      mul_nonneg (show (0:ℤ) ≤ z.x - d.x from by have := lexLtP_x hdz; omega)
        (show (0:ℤ) ≤ -cross_product z b w by omega)]
  · have hby : b.y < z.y := lexLtP_same_x hbz hbx
    have hdx : d.x = z.x := by
      unfold cross_product at hcol
      rw [hbx] at hcol
      have h2 : (b.y - z.y) * (d.x - z.x) = 0 := by linarith
      rcases mul_eq_zero.mp h2 with h3 | h3
      · omega
      · omega
    have hdy : d.y < z.y := lexLtP_same_x hdz hdx
    have key2 : (b.y - z.y) * cross_product z d w - (d.y - z.y) * cross_product z b w =
        -(w.y - z.y) * cross_product z b d := by
      unfold cross_product; ring
    rw [hcol, mul_zero] at key2
    nlinarith [mul_pos (show (0:ℤ) < z.y - b.y by omega) hw,
      mul_nonneg (show (0:ℤ) ≤ z.y - d.y by omega)
        (show (0:ℤ) ≤ -cross_product z b w by omega)]

/-- Mirror of `junction_max` at the lexicographic minimum. -/
theorem junction_min (z b d w : Point) (hcol : cross_product z b d = 0)
    (hw : 0 < cross_product z d w) (hbw : cross_product z b w ≤ 0)
    (hzb : lexLtP z b) (hzd : lexLtP z d) : False := by
  refine junction_max (negP z) (negP b) (negP d) (negP w) ?_ ?_ ?_ ?_ ?_
  · rw [cross_neg3]; exact hcol
  · rw [cross_neg3]; exact hw
  · rw [cross_neg3]; exact hbw
  · exact lexLtP_neg.mpr hzb
  · exact lexLtP_neg.mpr hzd

/-- A vertex cannot appear on both open chains strictly between the two
extremes: the mixed collinearity configuration is impossible. -/
theorem junction_mixed (z b d w : Point) (hcol : cross_product z b d = 0)
    (hw : 0 < cross_product z d w) (hbw : 0 ≤ cross_product z b w)
    (hzb : lexLtP z b) (hdz : lexLtP d z) : False := by
  have key : (b.x - z.x) * cross_product z d w - (d.x - z.x) * cross_product z b w =
      -(w.x - z.x) * cross_product z b d := by
    unfold cross_product; ring
  rw [hcol, mul_zero] at key
  rcases lt_or_eq_of_le (lexLtP_x hzb) with hbx | hbx
  · nlinarith [mul_pos (show (0:ℤ) < b.x - z.x by omega) hw,
      mul_nonneg (show (0:ℤ) ≤ z.x - d.x from by have := lexLtP_x hdz; omega) hbw]
  · have hby : z.y < b.y := lexLtP_same_x hzb hbx
    have hdx : d.x = z.x := by
      unfold cross_product at hcol
      rw [← hbx] at hcol
      have h2 : (b.y - z.y) * (d.x - z.x) = 0 := by linarith
      rcases mul_eq_zero.mp h2 with h3 | h3
      · omega
      · omega
    have hdy : d.y < z.y := lexLtP_same_x hdz hdx
    have key2 : (b.y - z.y) * cross_product z d w - (d.y - z.y) * cross_product z b w =
        -(w.y - z.y) * cross_product z b d := by
      unfold cross_product; ring
    rw [hcol, mul_zero] at key2
    nlinarith [mul_pos (show (0:ℤ) < b.y - z.y by omega) hw,
      mul_nonneg (show (0:ℤ) ≤ z.y - d.y by omega) hbw]

-- ===== indexed access into chains =====

theorem getP_append_left {l1 : List Point} (l2 : List Point) {i : Nat}
    (h : i < l1.length) : getP (l1 ++ l2) i = getP l1 i := by
  unfold getP
  rw [List.getD_eq_getElem _ _ (by simp; omega), List.getD_eq_getElem _ _ h]
  exact List.getElem_append_left h

theorem getP_append_right (l1 : List Point) {l2 : List Point} {i : Nat}
    (h1 : l1.length ≤ i) (h2 : i < l1.length + l2.length) :
    getP (l1 ++ l2) i = getP l2 (i - l1.length) := by
  unfold getP
  rw [List.getD_eq_getElem _ _ (by simp; omega), List.getD_eq_getElem _ _ (by omega)]
  exact List.getElem_append_right h1

theorem getP_cons_succ (a : Point) (l : List Point) (i : Nat) :
    getP (a :: l) (i + 1) = getP l i := by
  unfold getP
  rw [List.getD_cons_succ]

theorem getP_cons_zero (a : Point) (l : List Point) : getP (a :: l) 0 = a := rfl

/-- Strict turn at every adjacent triple of the reversed stack, by index. -/
theorem triples3_reverse_getP (st : List Point) (htr : Triples3 st) :
    ∀ i, i + 2 < st.length →
      0 < cross_product (getP st.reverse i) (getP st.reverse (i + 1))
        (getP st.reverse (i + 2)) := by
  intro i hi
  have hlen : st.reverse.length = st.length := List.length_reverse st
  have h0 : i < st.reverse.length := by omega
  have h1 : i + 1 < st.reverse.length := by omega
  have h2 : i + 2 < st.reverse.length := by omega
  have hd0 : st.reverse.drop i = st.reverse[i] :: st.reverse.drop (i + 1) :=
    List.drop_eq_getElem_cons h0
  have hd1 : st.reverse.drop (i + 1) = st.reverse[i + 1] :: st.reverse.drop (i + 2) :=
    List.drop_eq_getElem_cons h1
  have hd2 : st.reverse.drop (i + 2) = st.reverse[i + 2] :: st.reverse.drop (i + 3) :=
    List.drop_eq_getElem_cons h2
  have hdec : st.reverse = st.reverse.take i ++
      (st.reverse[i] :: st.reverse[i + 1] :: st.reverse[i + 2] :: st.reverse.drop (i + 3)) := by
    conv_lhs => rw [← List.take_append_drop i st.reverse]
    rw [hd0, hd1, hd2]
  have hst : st = (st.reverse.drop (i + 3)).reverse ++
      (st.reverse[i + 2] :: st.reverse[i + 1] :: st.reverse[i] ::
        (st.reverse.take i).reverse) := by
    conv_lhs => rw [← List.reverse_reverse st]
    conv_lhs => rw [hdec]
    simp [List.reverse_append]
  have hext := triples3_extract ((st.reverse.drop (i + 3)).reverse)
    (st.reverse[i + 2]) (st.reverse[i + 1]) (st.reverse[i])
    ((st.reverse.take i).reverse) (by rw [← hst]; exact htr)
  unfold getP
  rw [List.getD_eq_getElem _ _ h0, List.getD_eq_getElem _ _ h1,
    List.getD_eq_getElem _ _ h2]
  exact hext

/-- Adjacent relation at every index of a `Chain'`. -/
theorem chain'_getP {R : Point → Point → Prop} {l : List Point}
    (h : List.Chain' R l) : ∀ i, i + 1 < l.length → R (getP l i) (getP l (i + 1)) := by
  intro i hi
  have h0 : i < l.length := by omega
  have h1 : i + 1 < l.length := hi
  unfold getP
  rw [List.getD_eq_getElem _ _ h0, List.getD_eq_getElem _ _ h1]
  exact List.chain'_iff_get.mp h i (by omega)

theorem lexLt_trans3 {a b c : Point} (h1 : lexLtP a b) (h2 : lexLtP b c) : lexLtP a c := by
  simp only [lexLtP, lexLt, Bool.or_eq_true, beq_iff_eq, Bool.and_eq_true,
    decide_eq_true_eq] at h1 h2 ⊢
  omega

instance : IsTrans Point (fun a b => lexLtP a b) where
  trans a b c h1 h2 := lexLt_trans3 h1 h2

instance : IsTrans Point (fun a b => lexLtP b a) where
  trans a b c h1 h2 := lexLt_trans3 h2 h1

theorem pairwise_getP {R : Point → Point → Prop} {l : List Point}
    (h : List.Pairwise R l) : ∀ i j, i < j → j < l.length → R (getP l i) (getP l j) := by
  intro i j hij hj
  unfold getP
  rw [List.getD_eq_getElem _ _ (by omega), List.getD_eq_getElem _ _ hj]
  exact List.pairwise_iff_getElem.mp h i j (by omega) hj hij

set_option maxHeartbeats 2000000 in
/-- The full geometric scenario of a built hull of size at least 3: index-level
access to both chains, their strict orders, strict turns, and the support
property of every cyclic edge. -/
theorem buildHull_scenario (s : List Point) (hlen3 : 3 ≤ s.length)
    (hpair : List.Pairwise lexLeP s) (hH3 : 3 ≤ (buildHull s).length) :
    ∃ (m r : Point) (kept : List Point) (nL : Nat),
      2 ≤ nL ∧
      (buildHull s).length = nL + kept.length ∧
      (∀ v ∈ buildHull s, v ∈ s) ∧
      (∀ i, i + 1 < (buildHull s).length → ∀ q ∈ s,
        0 ≤ cross_product (getP (buildHull s) i) (getP (buildHull s) (i + 1)) q) ∧
      (∀ q ∈ s, 0 ≤ cross_product (getP (buildHull s) ((buildHull s).length - 1))
          (getP (buildHull s) 0) q) ∧
      getP (buildHull s) 0 = m ∧
      getP (buildHull s) (nL - 1) = r ∧
      (∀ j, j < kept.length → getP (buildHull s) (nL + j) = getP kept j) ∧
      (∀ i j, i < j → j < nL → lexLtP (getP (buildHull s) i) (getP (buildHull s) j)) ∧
      (∀ i, i + 2 < nL → 0 < cross_product (getP (buildHull s) i)
          (getP (buildHull s) (i + 1)) (getP (buildHull s) (i + 2))) ∧
      (∀ i j, i < j → j < kept.length + 2 →
        lexLtP (getP (r :: (kept ++ [m])) j) (getP (r :: (kept ++ [m])) i)) ∧
      (∀ j, j + 2 < kept.length + 2 → 0 < cross_product (getP (r :: (kept ++ [m])) j)
          (getP (r :: (kept ++ [m])) (j + 1)) (getP (r :: (kept ++ [m])) (j + 2))) ∧
      (∀ t, t < kept.length + 2 → getP (r :: (kept ++ [m])) t ∈ s) := by
  obtain ⟨m, r, body, kept, hsh, hsl, hLrev, hUrev, hH⟩ := buildHull_decomp s hlen3
  obtain ⟨tail, rfl⟩ : ∃ tail, s = m :: tail := by
    cases s with
    | nil => simp at hsh
    | cons a t => exact ⟨t, by rw [show a = m by simpa using hsh]⟩
  have hsne : (m :: tail) ≠ [] := by simp
  have hinvL : ChainInv (m :: tail) (chainFold [] (m :: tail)) :=
    chainFold_inv_start m tail hpair
  have hlastr : (m :: tail).getLast hsne = r := by
    have h1 := List.getLast?_eq_getLast (m :: tail) hsne
    rw [hsl] at h1
    exact (Option.some.injEq .. ▸ h1.symm :)
  have hsrev : (m :: tail).reverse = r :: (m :: tail).dropLast.reverse := by
    conv_lhs => rw [← List.dropLast_append_getLast hsne, hlastr]
    rw [List.reverse_append]
    rfl
  have hpairU : List.Pairwise (fun a b => lexLeP b a)
      (r :: (m :: tail).dropLast.reverse) := by
    rw [← hsrev]
    exact (List.pairwise_reverse).mpr hpair
  obtain ⟨hUmem, hUchain, hUstrict, hUtrip, hUsup⟩ :=
    upper_inv r (m :: tail).dropLast.reverse hpairU
  have hseed : (m :: tail).getLastD ⟨0,0,0⟩ = r := by
    rw [List.getLastD_eq_getLast?, hsl]
    rfl
  rw [hseed] at hUrev
  have hsup := buildHull_sup (m :: tail) hlen3 hpair
  have hmemH : ∀ v ∈ buildHull (m :: tail), v ∈ (m :: tail) :=
    buildHull_mem (m :: tail) hlen3 hpair
  have hHne : buildHull (m :: tail) ≠ [] := by
    cases hcc : buildHull (m :: tail) with
    | nil => rw [hcc] at hH3; simp at hH3
    | cons a t => simp
  -- index-level SUP
  have hedge : ∀ i, i + 1 < (buildHull (m :: tail)).length → ∀ q ∈ (m :: tail),
      0 ≤ cross_product (getP (buildHull (m :: tail)) i)
        (getP (buildHull (m :: tail)) (i + 1)) q := by
    intro i hi q hq
    exact hsup q hq _ (chainEdges_subset_cyclic _ hHne
      (getP_pair_chainEdges _ i hi))
  have hwrapS : ∀ q ∈ (m :: tail),
      0 ≤ cross_product (getP (buildHull (m :: tail)) ((buildHull (m :: tail)).length - 1))
        (getP (buildHull (m :: tail)) 0) q := by
    intro q hq
    rw [getP_last _ hHne, getP_zero_head _ hHne]
    exact hsup q hq _ (wrap_mem_cyclic _ hHne)
  -- lengths and identifications
  have hHL : buildHull (m :: tail) = (chainFold [] (m :: tail)).reverse ++ kept := by
    rw [hH, hLrev]
  have hnL : (chainFold [] (m :: tail)).reverse.length = body.length + 2 := by
    rw [hLrev]
    simp
  have hHlen : (buildHull (m :: tail)).length = (body.length + 2) + kept.length := by
    rw [hHL, List.length_append, hnL]
  have hgetL : ∀ i, i < body.length + 2 →
      getP (buildHull (m :: tail)) i = getP (chainFold [] (m :: tail)).reverse i := by
    intro i hi
    rw [hHL, getP_append_left _ (by omega)]
  have hidx_m : getP (buildHull (m :: tail)) 0 = m := by
    rw [hgetL 0 (by omega), hLrev]
    rfl
  have hidx_r : getP (buildHull (m :: tail)) (body.length + 2 - 1) = r := by
    rw [hgetL _ (by omega), hLrev, show body.length + 2 - 1 = body.length + 1 from rfl,
      getP_cons_succ, getP_append_right body (le_refl _) (by simp)]
    simp [getP]
  have hgetK : ∀ j, j < kept.length →
      getP (buildHull (m :: tail)) (body.length + 2 + j) = getP kept j := by
    intro j hj
    rw [hHL, getP_append_right _ (by omega) (by omega), hnL]
    congr 1
    omega
  -- strictness of the lower chain
  have hLstrict : List.Chain' (fun a b => lexLtP b a) (chainFold [] (m :: tail)) := by
    rcases hinvL.strict with h | ⟨u, v, hLuv, hx, hy⟩
    · exact h
    · exfalso
      have hnL2 : body.length + 2 = 2 := by
        have := hnL
        rw [hLuv] at this
        simp only [List.length_reverse, List.length_cons, List.length_nil] at this
        omega
      have hklpos : 1 ≤ kept.length := by omega
      have hall : ∀ q ∈ (m :: tail), q.x = v.x ∧ q.y = v.y := by
        intro q hq
        have h1 := hinvL.top_max u (by rw [hLuv]; rfl) q hq
        have h2 := hinvL.bot_min v (by rw [hLuv]; rfl) q hq
        have h1x := lexLeP_x h1
        have h2x := lexLeP_x h2
        have hqx : q.x = v.x := by omega
        have h3 := lexLeP_same_x h2 hqx.symm
        have h4 := lexLeP_same_x h1 (by omega)
        constructor
        · exact hqx
        · omega
      have hUmem' : ∀ w ∈ chainFold [r] (m :: tail).dropLast.reverse, w ∈ (m :: tail) := by
        intro w hw
        have := hUmem w hw
        rw [← hsrev] at this
        exact List.mem_reverse.mp this
      rcases hUstrict with hU | ⟨u', v', hUuv, hx', hy'⟩
      · have hUlen : 3 ≤ (chainFold [r] (m :: tail).dropLast.reverse).length := by
          have : (chainFold [r] (m :: tail).dropLast.reverse).reverse.length =
              kept.length + 2 := by
            rw [hUrev]
            simp
          rw [List.length_reverse] at this
          omega
        obtain ⟨x1, x2, rest, hUshape⟩ : ∃ x1 x2 rest,
            chainFold [r] (m :: tail).dropLast.reverse = x1 :: x2 :: rest := by
          cases hc : chainFold [r] (m :: tail).dropLast.reverse with
          | nil => rw [hc] at hUlen; simp at hUlen
          | cons a t =>
            cases t with
            | nil => rw [hc] at hUlen; simp at hUlen
            | cons b t2 => exact ⟨a, b, t2, rfl⟩
        rw [hUshape] at hU
        have hlt := (List.chain'_cons.mp hU).1
        have hm1 := hall x1 (hUmem' x1 (by rw [hUshape]; simp))
        have hm2 := hall x2 (hUmem' x2 (by rw [hUshape]; simp))
        exact lexLtP_ne hlt ⟨by omega, by omega⟩
      · have : (chainFold [r] (m :: tail).dropLast.reverse).reverse.length =
            kept.length + 2 := by
          rw [hUrev]
          simp
        rw [hUuv] at this
        simp only [List.length_reverse, List.length_cons, List.length_nil] at this
        omega
  -- strictness of the upper chain (when kept is nonempty)
  have hUstrict' : 1 ≤ kept.length →
      List.Chain' (fun a b => lexLtP a b) (chainFold [r] (m :: tail).dropLast.reverse) := by
    intro hkl
    rcases hUstrict with h | ⟨u', v', hUuv, hx', hy'⟩
    · exact h
    · exfalso
      have : (chainFold [r] (m :: tail).dropLast.reverse).reverse.length =
          kept.length + 2 := by
        rw [hUrev]
        simp
      rw [hUuv] at this
      simp only [List.length_reverse, List.length_cons, List.length_nil] at this
      omega
  -- lower chain: strict lex increasing by index
  have hLpair : List.Pairwise (fun a b => lexLtP a b)
      (chainFold [] (m :: tail)).reverse := by
    have h1 : List.Chain' (fun a b => lexLtP a b)
        (chainFold [] (m :: tail)).reverse := by
      rw [List.chain'_reverse]
      exact hLstrict
    exact List.chain'_iff_pairwise.mp h1
  have hlowlex : ∀ i j, i < j → j < body.length + 2 →
      lexLtP (getP (buildHull (m :: tail)) i) (getP (buildHull (m :: tail)) j) := by
    intro i j hij hj
    rw [hgetL i (by omega), hgetL j hj]
    exact pairwise_getP hLpair i j hij (by omega)
  have hlowtrip : ∀ i, i + 2 < body.length + 2 →
      0 < cross_product (getP (buildHull (m :: tail)) i)
        (getP (buildHull (m :: tail)) (i + 1)) (getP (buildHull (m :: tail)) (i + 2)) := by
    intro i hi
    rw [hgetL i (by omega), hgetL (i+1) (by omega), hgetL (i+2) (by omega)]
    exact triples3_reverse_getP _ hinvL.trip i (by rw [← List.length_reverse, hnL]; omega)
  -- upper chain index facts over V = r :: (kept ++ [m])
  have hVeq : (chainFold [r] (m :: tail).dropLast.reverse).reverse =
      r :: (kept ++ [m]) := hUrev
  have hVlen : (r :: (kept ++ [m])).length = kept.length + 2 := by simp
  have hVtrip : ∀ j, j + 2 < kept.length + 2 →
      0 < cross_product (getP (r :: (kept ++ [m])) j)
        (getP (r :: (kept ++ [m])) (j + 1)) (getP (r :: (kept ++ [m])) (j + 2)) := by
    intro j hj
    rw [← hVeq]
    exact triples3_reverse_getP _ hUtrip j
      (by rw [← List.length_reverse, hVeq, hVlen]; omega)
  have hVmem : ∀ t, t < kept.length + 2 → getP (r :: (kept ++ [m])) t ∈ (m :: tail) := by
    intro t ht
    have h1 : getP (r :: (kept ++ [m])) t ∈ (r :: (kept ++ [m])) :=
      getP_mem (by rw [hVlen]; omega)
    have h1' : getP (r :: (kept ++ [m])) t ∈
        (chainFold [r] (m :: tail).dropLast.reverse).reverse := by
      rw [hVeq]
      exact h1
    have h2 := hUmem _ (List.mem_reverse.mp h1')
    rw [← hsrev] at h2
    exact List.mem_reverse.mp h2
  have hVlex : ∀ i j, i < j → j < kept.length + 2 →
      lexLtP (getP (r :: (kept ++ [m])) j) (getP (r :: (kept ++ [m])) i) := by
    intro i j hij hj
    by_cases hkl : 1 ≤ kept.length
    · have h1 : List.Chain' (fun a b => lexLtP b a)
          (chainFold [r] (m :: tail).dropLast.reverse).reverse := by
        rw [List.chain'_reverse]
        exact (hUstrict' hkl).imp (fun a b h => h)
      have hpairV : List.Pairwise (fun a b => lexLtP b a)
          (r :: (kept ++ [m])) := by
        rw [← hVeq]
        exact List.chain'_iff_pairwise.mp h1
      exact pairwise_getP hpairV i j hij (by rw [hVlen]; omega)
    · -- kept = []: V = [r, m]; show m <lex r via the lower chain
      have hkl0 : kept.length = 0 := by omega
      have hkept : kept = [] := List.length_eq_zero.mp hkl0
      have hij2 : i = 0 ∧ j = 1 := by omega
      obtain ⟨rfl, rfl⟩ := hij2
      rw [hkept]
      have hmr := hlowlex 0 (body.length + 2 - 1) (by omega) (by omega)
      rw [hidx_m, hidx_r] at hmr
      simpa [getP] using hmr
  exact ⟨m, r, kept, body.length + 2, by omega, hHlen, hmemH, hedge, hwrapS,
    hidx_m, hidx_r, fun j hj => hgetK j hj, hlowlex, hlowtrip, hVlex, hVtrip, hVmem⟩

set_option maxHeartbeats 2000000 in
/-- Every three cyclically consecutive vertices of a built hull of size at
least 3 make a strict left turn. -/
theorem buildHull_turns (s : List Point) (hlen3 : 3 ≤ s.length)
    (hpair : List.Pairwise lexLeP s) (hH3 : 3 ≤ (buildHull s).length) :
    ∀ i < (buildHull s).length,
      0 < cross_product (getP (buildHull s) i)
        (getP (buildHull s) ((i + 1) % (buildHull s).length))
        (getP (buildHull s) ((i + 2) % (buildHull s).length)) := by
  obtain ⟨m, r, kept, nL, hnL2, hHlen, hmemH, hedge, hwrapS, hidm, hidr, hgetK,
    hlowlex, hlowtrip, hVlex, hVtrip, hVmem⟩ := buildHull_scenario s hlen3 hpair hH3
  have hmem_i : ∀ i, i < (buildHull s).length → getP (buildHull s) i ∈ s :=
    fun i h => hmemH _ (getP_mem h)
  have hVzero : getP (r :: (kept ++ [m])) 0 = r := rfl
  have hVlast : getP (r :: (kept ++ [m])) (kept.length + 1) = m := by
    rw [getP_cons_succ, getP_append_right kept (le_refl _) (by simp)]
    simp [getP]
  have hHV : ∀ t, t ≤ kept.length →
      getP (buildHull s) (nL - 1 + t) = getP (r :: (kept ++ [m])) t := by
    intro t ht
    cases t with
    | zero => rw [show nL - 1 + 0 = nL - 1 from rfl, hidr, hVzero]
    | succ t' =>
      rw [show nL - 1 + (t' + 1) = nL + t' by omega, hgetK t' (by omega),
        getP_cons_succ, getP_append_left [m] (by omega)]
  -- junction-right triple
  have T_jr : 1 ≤ kept.length →
      0 < cross_product (getP (buildHull s) (nL - 2)) r (getP (r :: (kept ++ [m])) 1) := by
    intro hkl
    by_contra h'
    push_neg at h'
    have hm1 : getP (r :: (kept ++ [m])) 1 ∈ s := hVmem 1 (by omega)
    have hsupJ := hedge (nL - 2) (by omega) _ hm1
    rw [show nL - 2 + 1 = nL - 1 by omega, hidr] at hsupJ
    have hcol0 : cross_product (getP (buildHull s) (nL - 2)) r
        (getP (r :: (kept ++ [m])) 1) = 0 := le_antisymm h' hsupJ
    refine junction_max r (getP (buildHull s) (nL - 2)) (getP (r :: (kept ++ [m])) 1)
      (getP (r :: (kept ++ [m])) 2) ?_ ?_ ?_ ?_ ?_
    · rw [cross_swap_first]
      omega
    · have := hVtrip 0 (by omega)
      rwa [hVzero] at this
    · rw [cross_swap_first]
      have hm2 : getP (r :: (kept ++ [m])) 2 ∈ s := hVmem 2 (by omega)
      have := hedge (nL - 2) (by omega) _ hm2
      rw [show nL - 2 + 1 = nL - 1 by omega, hidr] at this
      omega
    · have := hlowlex (nL - 2) (nL - 1) (by omega) (by omega)
      rwa [hidr] at this
    · have := hVlex 0 1 (by omega) (by omega)
      rwa [hVzero] at this
  -- wrap triple, empty upper interior
  have T_wrap0 : kept.length = 0 →
      0 < cross_product r m (getP (buildHull s) 1) := by
    intro hkl0
    by_contra h'
    push_neg at h'
    have hnH : (buildHull s).length = nL := by omega
    have hm1 : getP (buildHull s) 1 ∈ s := hmem_i 1 (by omega)
    have hsupW := hwrapS _ hm1
    rw [hnH, hidr, hidm] at hsupW
    have hcol0 : cross_product r m (getP (buildHull s) 1) = 0 := le_antisymm h' hsupW
    refine junction_min m r (getP (buildHull s) 1) (getP (buildHull s) 2) ?_ ?_ ?_ ?_ ?_
    · rw [cross_swap_first]
      omega
    · have := hlowtrip 0 (by omega)
      rwa [hidm] at this
    · rw [cross_swap_first]
      have hm2 : getP (buildHull s) 2 ∈ s := hmem_i 2 (by omega)
      have := hwrapS _ hm2
      rw [hnH, hidr, hidm] at this
      omega
    · have := hlowlex 0 (nL - 1) (by omega) (by omega)
      rwa [hidm, hidr] at this
    · have := hlowlex 0 1 (by omega) (by omega)
      rwa [hidm] at this
  -- wrap triple, nonempty upper interior
  have T_wrap1 : 1 ≤ kept.length →
      0 < cross_product (getP (r :: (kept ++ [m])) kept.length) m
        (getP (buildHull s) 1) := by
    intro hkl
    by_contra h'
    push_neg at h'
    have hm1 : getP (buildHull s) 1 ∈ s := hmem_i 1 (by omega)
    have hsupW := hwrapS _ hm1
    rw [show (buildHull s).length - 1 = nL - 1 + kept.length by omega,
      hHV kept.length (le_refl _), hidm] at hsupW
    have hcol0 : cross_product (getP (r :: (kept ++ [m])) kept.length) m
        (getP (buildHull s) 1) = 0 := le_antisymm h' hsupW
    refine junction_min m (getP (r :: (kept ++ [m])) kept.length)
      (getP (buildHull s) 1) (getP (buildHull s) 2) ?_ ?_ ?_ ?_ ?_
    · rw [cross_swap_first]
      omega
    · by_cases hnL3 : 3 ≤ nL
      · have := hlowtrip 0 (by omega)
        rwa [hidm] at this
      · have hnL22 : nL = 2 := by omega
        have h1r : getP (buildHull s) 1 = r := by
          rw [show (1 : Nat) = nL - 1 by omega, hidr]
        have h2v : getP (buildHull s) 2 = getP (r :: (kept ++ [m])) 1 := by
          rw [show (2 : Nat) = nL - 1 + 1 by omega, hHV 1 (by omega)]
        have h0m : getP (buildHull s) (nL - 2) = m := by
          rw [show nL - 2 = 0 by omega, hidm]
        have := T_jr hkl
        rw [h0m] at this
        rwa [h1r, h2v]
    · rw [cross_swap_first]
      have hm2 : getP (buildHull s) 2 ∈ s := hmem_i 2 (by omega)
      have := hwrapS _ hm2
      rw [show (buildHull s).length - 1 = nL - 1 + kept.length by omega,
        hHV kept.length (le_refl _), hidm] at this
      omega
    · have := hVlex kept.length (kept.length + 1) (by omega) (by omega)
      rwa [hVlast] at this
    · have := hlowlex 0 1 (by omega) (by omega)
      rwa [hidm] at this
  -- the dispatch
  intro i hi
  by_cases hc1 : i + 2 < nL
  · rw [Nat.mod_eq_of_lt (by omega), Nat.mod_eq_of_lt (by omega)]
    exact hlowtrip i hc1
  · by_cases hc2 : i + 2 = nL
    · by_cases hkl : 1 ≤ kept.length
      · rw [Nat.mod_eq_of_lt (by omega), Nat.mod_eq_of_lt (by omega),
          show i + 1 = nL - 1 by omega, hidr, show i + 2 = nL - 1 + 1 by omega,
          hHV 1 (by omega), show i = nL - 2 by omega]
        exact T_jr hkl
      · have hnH : (buildHull s).length = nL := by omega
        rw [Nat.mod_eq_of_lt (by omega), show i + 1 = nL - 1 by omega, hidr,
          show (i + 2) % (buildHull s).length = 0 from by
            rw [show i + 2 = (buildHull s).length by omega]
            exact Nat.mod_self _, hidm,
          show i = nL - 2 by omega]
        by_contra h'
        push_neg at h'
        have hmm : m ∈ s := by
          rw [← hidm]
          exact hmem_i 0 (by omega)
        have hsupJ := hedge (nL - 2) (by omega) _ hmm
        rw [show nL - 2 + 1 = nL - 1 by omega, hidr] at hsupJ
        have hcol0 : cross_product (getP (buildHull s) (nL - 2)) r m = 0 :=
          le_antisymm h' hsupJ
        refine junction_max r (getP (buildHull s) (nL - 2)) m
          (getP (buildHull s) 1) ?_ ?_ ?_ ?_ ?_
        · rw [cross_swap_first]
          omega
        · exact T_wrap0 (by omega)
        · rw [cross_swap_first]
          have hm1 : getP (buildHull s) 1 ∈ s := hmem_i 1 (by omega)
          have := hedge (nL - 2) (by omega) _ hm1
          rw [show nL - 2 + 1 = nL - 1 by omega, hidr] at this
          omega
        · have := hlowlex (nL - 2) (nL - 1) (by omega) (by omega)
          rwa [hidr] at this
        · have := hlowlex 0 (nL - 1) (by omega) (by omega)
          rwa [hidm, hidr] at this
    · by_cases hc3 : i + 1 = (buildHull s).length
      · rw [show (i + 1) % (buildHull s).length = 0 from by
            rw [hc3]
            exact Nat.mod_self _, hidm,
          show (i + 2) % (buildHull s).length = 1 from by
            rw [show i + 2 = (buildHull s).length + 1 by omega, Nat.add_mod_left]
            exact Nat.mod_eq_of_lt (by omega),
          show i = (buildHull s).length - 1 by omega]
        by_cases hkl : 1 ≤ kept.length
        · rw [show (buildHull s).length - 1 = nL - 1 + kept.length by omega,
            hHV kept.length (le_refl _)]
          exact T_wrap1 hkl
        · rw [show (buildHull s).length - 1 = nL - 1 by omega, hidr]
          exact T_wrap0 (by omega)
      · -- pure upper triple
        have hklpos : 1 ≤ kept.length := by omega
        obtain ⟨j, hj⟩ : ∃ j, i = nL - 1 + j := ⟨i - (nL - 1), by omega⟩
        subst hj
        rw [Nat.mod_eq_of_lt (by omega),
          show nL - 1 + j + 1 = nL - 1 + (j + 1) by omega,
          hHV j (by omega), hHV (j + 1) (by omega)]
        by_cases hc4 : nL - 1 + j + 2 < (buildHull s).length
        · rw [Nat.mod_eq_of_lt hc4,
            show nL - 1 + j + 2 = nL - 1 + (j + 2) by omega,
            hHV (j + 2) (by omega)]
          exact hVtrip j (by omega)
        · have h5 : nL - 1 + j + 2 = (buildHull s).length := by omega
          rw [show (nL - 1 + j + 2) % (buildHull s).length = 0 from by
              rw [h5]
              exact Nat.mod_self _, hidm]
          have ht := hVtrip j (by omega)
          rw [show j + 2 = kept.length + 1 by omega, hVlast] at ht
          exact ht

theorem lexLtP_congr_right {a b b' : Point} (h : lexLtP a b) (hx : b.x = b'.x)
    (hy : b.y = b'.y) : lexLtP a b' := by
  simp only [lexLtP, lexLt, Bool.or_eq_true, beq_iff_eq, Bool.and_eq_true,
    decide_eq_true_eq] at h ⊢
  omega

theorem pEq_false_iff (a b : Point) : pEq a b = false ↔ ¬(a.x = b.x ∧ a.y = b.y) := by
  simp only [pEq, Bool.and_eq_false_iff, beq_eq_false_iff_ne, ne_eq, not_and_or]

set_option maxHeartbeats 2000000 in
/-- A built hull of size at least 3 has pairwise distinct vertex coordinates. -/
theorem buildHull_pairwise (s : List Point) (hlen3 : 3 ≤ s.length)
    (hpair : List.Pairwise lexLeP s) (hH3 : 3 ≤ (buildHull s).length) :
    ∀ i j, i < j → j < (buildHull s).length →
      ¬((getP (buildHull s) i).x = (getP (buildHull s) j).x ∧
        (getP (buildHull s) i).y = (getP (buildHull s) j).y) := by
  obtain ⟨m, r, kept, nL, hnL2, hHlen, hmemH, hedge, hwrapS, hidm, hidr, hgetK,
    hlowlex, hlowtrip, hVlex, hVtrip, hVmem⟩ := buildHull_scenario s hlen3 hpair hH3
  have hmem_i : ∀ i, i < (buildHull s).length → getP (buildHull s) i ∈ s :=
    fun i h => hmemH _ (getP_mem h)
  have hVzero : getP (r :: (kept ++ [m])) 0 = r := rfl
  have hVlast : getP (r :: (kept ++ [m])) (kept.length + 1) = m := by
    rw [getP_cons_succ, getP_append_right kept (le_refl _) (by simp)]
    simp [getP]
  have hHV : ∀ t, t ≤ kept.length →
      getP (buildHull s) (nL - 1 + t) = getP (r :: (kept ++ [m])) t := by
    intro t ht
    cases t with
    | zero => rw [show nL - 1 + 0 = nL - 1 from rfl, hidr, hVzero]
    | succ t' =>
      rw [show nL - 1 + (t' + 1) = nL + t' by omega, hgetK t' (by omega),
        getP_cons_succ, getP_append_left [m] (by omega)]
  intro i j hij hj
  by_cases hjL : j < nL
  · -- both on the lower chain
    exact lexLtP_ne (hlowlex i j hij hjL)
  · -- j is a kept vertex: t := j - nL + 1 in the upper chain
    have hklpos : 1 ≤ kept.length := by omega
    have hjV : getP (buildHull s) j = getP (r :: (kept ++ [m])) (j - nL + 1) := by
      have := hHV (j - nL + 1) (by omega)
      rwa [show nL - 1 + (j - nL + 1) = j by omega] at this
    by_cases hiL : i < nL
    · -- i on the lower chain, j on the upper interior
      by_cases hi0 : i = 0
      · -- z1 = m
        subst hi0
        rw [hidm, hjV]
        intro hcc
        have := hVlex (j - nL + 1) (kept.length + 1) (by omega) (by omega)
        rw [hVlast] at this
        exact lexLtP_ne this hcc
      · by_cases hir : i = nL - 1
        · -- z1 = r
          subst hir
          rw [hidr, hjV]
          intro hcc
          have := hVlex 0 (j - nL + 1) (by omega) (by omega)
          rw [hVzero] at this
          exact lexLtP_ne this ⟨hcc.1.symm, hcc.2.symm⟩
        · -- interior of the lower chain against the upper interior
          rw [hjV]
          intro hcc
          -- abbreviations
          have hib : i + 1 < nL := by omega
          have hia : 1 ≤ i := by omega
          have htlo : 1 ≤ j - nL + 1 := by omega
          have hthi : j - nL + 1 + 1 ≤ kept.length + 1 := by omega
          -- lower neighbours
          have F1 : 0 < cross_product (getP (buildHull s) (i - 1))
              (getP (buildHull s) i) (getP (buildHull s) (i + 1)) := by
            have := hlowtrip (i - 1) (by omega)
            rwa [show i - 1 + 1 = i by omega, show i - 1 + 2 = i + 1 by omega] at this
          -- upper neighbours
          have F2 : 0 < cross_product (getP (r :: (kept ++ [m])) (j - nL))
              (getP (r :: (kept ++ [m])) (j - nL + 1))
              (getP (r :: (kept ++ [m])) (j - nL + 2)) := by
            have := hVtrip (j - nL) (by omega)
            rwa [show j - nL + 1 + 1 = j - nL + 2 by omega] at this
          -- the upper edge out of z2 supports b
          have F4 : 0 ≤ cross_product (getP (r :: (kept ++ [m])) (j - nL + 1))
              (getP (r :: (kept ++ [m])) (j - nL + 2)) (getP (buildHull s) (i + 1)) := by
            by_cases hlast : j - nL + 2 = kept.length + 1
            · -- wrap edge
              have := hwrapS _ (hmem_i (i + 1) (by omega))
              rw [show (buildHull s).length - 1 = nL - 1 + kept.length by omega,
                hHV kept.length (le_refl _), hidm] at this
              rw [hlast, hVlast]
              rwa [show j - nL + 1 = kept.length from by omega]
            · -- interior upper edge
              have := hedge j (by omega) _ (hmem_i (i + 1) (by omega))
              rw [hjV, show j + 1 = nL - 1 + (j - nL + 2) by omega,
                hHV (j - nL + 2) (by omega)] at this
              exact this
          -- the lower edge out of z1 supports d
          have F3 : 0 ≤ cross_product (getP (buildHull s) i) (getP (buildHull s) (i + 1))
              (getP (r :: (kept ++ [m])) (j - nL + 2)) := by
            have hd_mem : getP (r :: (kept ++ [m])) (j - nL + 2) ∈ s :=
              hVmem (j - nL + 2) (by omega)
            exact hedge i (by omega) _ hd_mem
          -- collinearity of z, b, d
          have hcol : cross_product (getP (buildHull s) i) (getP (buildHull s) (i + 1))
              (getP (r :: (kept ++ [m])) (j - nL + 2)) = 0 := by
            have F4' : 0 ≤ cross_product (getP (buildHull s) i)
                (getP (r :: (kept ++ [m])) (j - nL + 2)) (getP (buildHull s) (i + 1)) := by
              rw [cross_congr₁ _ _ hcc.1.symm hcc.2.symm] at F4
              exact F4
            rw [cross_swap_last] at F4'
            omega
          -- assemble the mixed junction contradiction
          refine junction_mixed (getP (buildHull s) i) (getP (buildHull s) (i + 1))
            (getP (r :: (kept ++ [m])) (j - nL + 2)) (getP (r :: (kept ++ [m])) (j - nL))
            hcol ?_ ?_ ?_ ?_
          · -- strict turn towards w = c, transported to z1
            have F2' : 0 < cross_product (getP (r :: (kept ++ [m])) (j - nL + 1))
                (getP (r :: (kept ++ [m])) (j - nL + 2))
                (getP (r :: (kept ++ [m])) (j - nL)) := by
              rw [← cross_cyclic]
              exact F2
            rw [cross_congr₁ _ _ hcc.1.symm hcc.2.symm] at F2'
            exact F2'
          · -- c is supported by the lower edge out of z1
            have hc_mem : getP (r :: (kept ++ [m])) (j - nL) ∈ s :=
              hVmem (j - nL) (by omega)
            exact hedge i (by omega) _ hc_mem
          · exact hlowlex i (i + 1) (by omega) (by omega)
          · -- d <lex z2 = z1 (coordinates)
            have := hVlex (j - nL + 1) (j - nL + 2) (by omega) (by omega)
            exact lexLtP_congr_right this hcc.1.symm hcc.2.symm
    · -- both kept vertices
      have hiV : getP (buildHull s) i = getP (r :: (kept ++ [m])) (i - nL + 1) := by
        have := hHV (i - nL + 1) (by omega)
        rwa [show nL - 1 + (i - nL + 1) = i by omega] at this
      rw [hiV, hjV]
      intro hcc
      have := hVlex (i - nL + 1) (j - nL + 1) (by omega) (by omega)
      exact lexLtP_ne this ⟨hcc.1.symm, hcc.2.symm⟩

theorem getP_eq_getElem {l : List Point} {i : Nat} (h : i < l.length) :
    getP l i = l[i] := by
  unfold getP
  exact List.getD_eq_getElem _ _ h

theorem lexLe_squeeze {m r a : Point} (h1 : lexLeP m a) (h2 : lexLeP a r)
    (hx : m.x = r.x) (hy : m.y = r.y) : a.x = m.x ∧ a.y = m.y := by
  simp only [lexLeP, lexLe, Bool.or_eq_true, beq_iff_eq, Bool.and_eq_true,
    decide_eq_true_eq] at h1 h2
  omega

theorem pEq_symm_false {a b : Point} (h : pEq a b = false) : pEq b a = false := by
  rw [pEq_false_iff] at h ⊢
  intro hc
  exact h ⟨hc.1.symm, hc.2.symm⟩

/-- A built hull never repeats coordinates, provided the sorted input has two
coordinate-distinct points. -/
theorem buildHull_nodup (s : List Point) (hlen3 : 3 ≤ s.length)
    (hpair : List.Pairwise lexLeP s)
    (hdist : ∃ a ∈ s, ∃ b ∈ s, pEq a b = false) :
    List.Pairwise (fun u v => pEq u v = false) (buildHull s) := by
  by_cases hH3 : 3 ≤ (buildHull s).length
  · rw [List.pairwise_iff_getElem]
    intro i j hi hj hij
    have hne := buildHull_pairwise s hlen3 hpair hH3 i j hij hj
    rw [getP_eq_getElem hi, getP_eq_getElem hj] at hne
    rw [pEq_false_iff]
    exact hne
  · obtain ⟨m, r, body, kept, hsh, hsl, hLrev, hUrev, hH⟩ := buildHull_decomp s hlen3
    have hlen2 : (buildHull s).length = 2 := by
      rw [hH] at hH3 ⊢
      simp only [List.length_append, List.length_cons] at hH3 ⊢
      omega
    have hbody : body = [] := by
      rw [hH] at hlen2
      simp only [List.length_append, List.length_cons] at hlen2
      exact List.length_eq_zero.mp (by omega)
    have hkept : kept = [] := by
      rw [hH] at hlen2
      simp only [List.length_append, List.length_cons] at hlen2
      exact List.length_eq_zero.mp (by omega)
    subst hbody hkept
    simp only [List.nil_append, List.append_nil] at hH
    rw [hH]
    have hmr : pEq m r = false := by
      rw [pEq_false_iff]
      intro hc
      obtain ⟨a, ha, b, hb, hab⟩ := hdist
      rw [pEq_false_iff] at hab
      apply hab
      obtain ⟨tail, rfl⟩ : ∃ tail, s = m :: tail := by
        cases s with
        | nil => simp at hsh
        | cons x t => exact ⟨t, by rw [show x = m by simpa using hsh]⟩
      have hsne : (m :: tail) ≠ [] := by simp
      have hlast : (m :: tail).getLast hsne = r := by
        have h1 := List.getLast?_eq_getLast (m :: tail) hsne
        rw [hsl] at h1
        exact (Option.some.injEq .. ▸ h1.symm :)
      have hma := sorted_head_le m tail hpair a ha
      have hmb := sorted_head_le m tail hpair b hb
      have har := sorted_le_last (m :: tail) hsne hpair a ha
      have hbr := sorted_le_last (m :: tail) hsne hpair b hb
      rw [hlast] at har hbr
      have hA := lexLe_squeeze hma har hc.1 hc.2
      have hB := lexLe_squeeze hmb hbr hc.1 hc.2
      exact ⟨hA.1.trans hB.1.symm, hA.2.trans hB.2.symm⟩
    exact List.Pairwise.cons (fun b hb => by
      rw [show b = r by simpa using hb]
      exact hmr) (List.pairwise_singleton _ _)

/-- The convex hull has pairwise coordinate-distinct vertices whenever the
input contains two coordinate-distinct points. -/
theorem convex_hull_nodup (pts : List Point)
    (hdist : ∃ a ∈ pts, ∃ b ∈ pts, pEq a b = false) :
    List.Pairwise (fun u v => pEq u v = false) (convex_hull pts) := by
  unfold convex_hull
  by_cases hlen : pts.length ≤ 2
  · rw [if_pos hlen]
    obtain ⟨x, hx, y, hy, hxy⟩ := hdist
    rcases pts with _ | ⟨a, _ | ⟨b, _ | ⟨c, t⟩⟩⟩
    · exact List.Pairwise.nil
    · exact List.pairwise_singleton _ _
    · simp only [List.mem_cons, List.not_mem_nil, or_false] at hx hy
      have hab : pEq a b = false := by
        rcases hx with rfl | rfl <;> rcases hy with rfl | rfl
        · simp [pEq] at hxy
        · exact hxy
        · exact pEq_symm_false hxy
        · simp [pEq] at hxy
      exact List.Pairwise.cons (fun q hq => by
        rw [show q = b by simpa using hq]
        exact hab) (List.pairwise_singleton _ _)
    · simp at hlen
  · rw [if_neg hlen]
    push_neg at hlen
    have hperm : (sortPts pts).Perm pts := List.perm_insertionSort lexLeP pts
    refine buildHull_nodup (sortPts pts) (by rw [hperm.length_eq]; omega)
      (List.sorted_insertionSort lexLeP pts) ?_
    obtain ⟨a, ha, b, hb, hab⟩ := hdist
    exact ⟨a, hperm.mem_iff.mpr ha, b, hperm.mem_iff.mpr hb, hab⟩

/-- C5: every original input point lies inside-or-on the polygon produced by
convex_hull, as decided by is_inside, and every vertex of the produced
polygon is one of the original input points. -/
theorem C5_hull_containment (pts : List Point) :
    (∀ p ∈ pts, is_inside (convex_hull pts) p = true) ∧
    (∀ v ∈ convex_hull pts, v ∈ pts) :=
  hull_containment pts

/-- C6: whenever convex_hull returns a polygon of size at least 3, every three
cyclically consecutive vertices make a strict counter-clockwise turn:
their cross product is positive, so no middle vertex is collinear-redundant. -/
theorem C6_hull_strict_turns (pts : List Point)
    (h3 : 3 ≤ (convex_hull pts).length) :
    ∀ i < (convex_hull pts).length,
      0 < cross_product (getP (convex_hull pts) i)
        (getP (convex_hull pts) ((i + 1) % (convex_hull pts).length))
        (getP (convex_hull pts) ((i + 2) % (convex_hull pts).length)) := by
  unfold convex_hull at h3 ⊢
  by_cases hlen : pts.length ≤ 2
  · rw [if_pos hlen] at h3
    exact absurd h3 (by omega)
  · rw [if_neg hlen] at h3 ⊢
    push_neg at hlen
    have hperm : (sortPts pts).Perm pts := List.perm_insertionSort lexLeP pts
    exact buildHull_turns (sortPts pts) (by rw [hperm.length_eq]; omega)
      (List.sorted_insertionSort lexLeP pts) h3

theorem C6_hull_strict_turns_witness :
    0 < cross_product (getP (convex_hull [⟨0,0,1⟩, ⟨1,0,2⟩, ⟨0,1,3⟩]) 0)
      (getP (convex_hull [⟨0,0,1⟩, ⟨1,0,2⟩, ⟨0,1,3⟩])
        ((0 + 1) % (convex_hull [⟨0,0,1⟩, ⟨1,0,2⟩, ⟨0,1,3⟩]).length))
      (getP (convex_hull [⟨0,0,1⟩, ⟨1,0,2⟩, ⟨0,1,3⟩])
        ((0 + 2) % (convex_hull [⟨0,0,1⟩, ⟨1,0,2⟩, ⟨0,1,3⟩]).length)) :=
  C6_hull_strict_turns [⟨0,0,1⟩, ⟨1,0,2⟩, ⟨0,1,3⟩] (by decide) 0 (by decide)

/-- C7 counterexample: a size-2 input consisting of two coincident points is
returned unchanged by convex_hull, so the output carries two vertices with
equal coordinates — the deduplication claim fails on degenerate inputs. -/
theorem C7_cex :
    ¬ List.Pairwise (fun u v => pEq u v = false)
      (convex_hull [⟨0,0,1⟩, ⟨0,0,2⟩]) := by
  decide

/-- C7 (amended): if the input contains two points with distinct coordinates,
the polygon returned by convex_hull contains no two vertices with equal
coordinates. -/
theorem C7_hull_dedup (pts : List Point)
    (hdist : ∃ a ∈ pts, ∃ b ∈ pts, pEq a b = false) :
    List.Pairwise (fun u v => pEq u v = false) (convex_hull pts) :=
  convex_hull_nodup pts hdist

theorem C7_hull_dedup_witness :
    List.Pairwise (fun u v => pEq u v = false)
      (convex_hull [⟨0,0,1⟩, ⟨2,3,2⟩]) :=
  C7_hull_dedup [⟨0,0,1⟩, ⟨2,3,2⟩] (by decide)
